import Mathlib

/-!
BinarySearchTree (binary_search_tree.h)

A shallow embedding of the pointer-based binary search tree container.  Nodes live in an
explicit store addressed by natural numbers; a null pointer is `none`.  Every pointer
dereference reads the store, so dereferencing null or a freed node makes the operation
return `none`.  Loops carry a step budget taken from the store's allocation counter and
return `none` when it runs out; the theorems show that this never happens on a tree built
by the container's own operations.
-/

namespace BST

/-! ## Node store -/

/-- Node record `TreeNode`: the stored value and the `left`, `right`, `parent` links. -/
structure TreeNode (α : Type) where
  value : α
  left : Option Nat
  right : Option Nat
  parent : Option Nat

/-- Node store: the cell at each address (absent when never allocated or freed) and the
address the following `new` returns. -/
structure Heap (α : Type) where
  cell : Nat → Option (TreeNode α)
  next : Nat

/-- Data members of a `BinarySearchTree` object: `root_` and `size_`. -/
structure BinarySearchTree where
  root_ : Option Nat
  size_ : Nat
deriving DecidableEq, Repr

/-- Store in which nothing has been allocated. -/
def Heap.empty {α : Type} : Heap α := ⟨fun _ => none, 0⟩

/-- Default-constructed tree: `root_{nullptr}`, `size_{0}`. -/
def BinarySearchTree.empty : BinarySearchTree := ⟨none, 0⟩

/-- Dereference of a possibly null pointer. -/
def Heap.read {α : Type} (h : Heap α) (p : Option Nat) : Option (TreeNode α) :=
  p.bind h.cell

/-- Overwrite of the cell at address `a`. -/
def Heap.write {α : Type} (h : Heap α) (a : Nat) (c : TreeNode α) : Heap α :=
  ⟨fun i => if i = a then some c else h.cell i, h.next⟩

/-- Assignment `a->left = p`. -/
def Heap.setLeft {α : Type} (h : Heap α) (a : Nat) (p : Option Nat) : Option (Heap α) :=
  (h.cell a).map fun n => h.write a ⟨n.value, p, n.right, n.parent⟩

/-- Assignment `a->right = p`. -/
def Heap.setRight {α : Type} (h : Heap α) (a : Nat) (p : Option Nat) : Option (Heap α) :=
  (h.cell a).map fun n => h.write a ⟨n.value, n.left, p, n.parent⟩

/-- Assignment `a->parent = p`. -/
def Heap.setParent {α : Type} (h : Heap α) (a : Nat) (p : Option Nat) : Option (Heap α) :=
  (h.cell a).map fun n => h.write a ⟨n.value, n.left, n.right, p⟩

/-- Expression `new TreeNode(value)`: a fresh cell with null links. -/
def Heap.alloc {α : Type} (h : Heap α) (v : α) : Heap α × Nat :=
  (⟨fun i => if i = h.next then some ⟨v, none, none, none⟩ else h.cell i, h.next + 1⟩, h.next)

/-- Statement `delete node` for a non-null node. -/
def Heap.free {α : Type} (h : Heap α) (a : Nat) : Heap α :=
  ⟨fun i => if i = a then none else h.cell i, h.next⟩

/-- Step budget handed to every loop that walks the store. -/
def Heap.fuel {α : Type} (h : Heap α) : Nat := h.next + 1

/-! ## Member functions -/

/-- Function `Equal(lhs, rhs)`: `!(lhs < rhs) && !(rhs < lhs)`. -/
def Equal {α : Type} (lt : α → α → Bool) (lhs rhs : α) : Bool :=
  !(lt lhs rhs) && !(lt rhs lhs)

/-- Function `Bind(parent, child)`. -/
def Bind {α : Type} (lt : α → α → Bool) (h : Heap α) (parent child : Option Nat) :
    Option (Heap α) := do
  let cn ← h.read child
  let pn ← h.read parent
  let p ← parent
  let c ← child
  let h1 ← if lt cn.value pn.value then h.setLeft p child else h.setRight p child
  h1.setParent c parent

/-- Loop of `InsertToSubtree`: `while (now) { prev = now; now = (v < now->value) ? now->left
: now->right; }`, returning `prev`. -/
def descend {α : Type} (lt : α → α → Bool) (h : Heap α) (v : α) :
    Nat → Option Nat → Option Nat → Option (Option Nat)
  | 0, _, _ => none
  | _ + 1, none, prev => some prev
  | f + 1, some now, _ => do
    let n ← h.cell now
    descend lt h v f (if lt v n.value then n.left else n.right) (some now)

/-- Function `InsertToSubtree(root, node)`. -/
def InsertToSubtree {α : Type} (lt : α → α → Bool) (h : Heap α) (t : BinarySearchTree)
    (root node : Option Nat) : Option (Heap α × BinarySearchTree) :=
  if t.size_ = 0 then
    some (h, ⟨node, t.size_⟩)
  else do
    let nn ← h.read node
    let prev ← descend lt h nn.value h.fuel root root
    let h1 ← Bind lt h prev node
    some (h1, t)

/-- Member `insert(value)`: `InsertToSubtree(root_, new TreeNode(value)); ++size_;`. -/
def insert {α : Type} (lt : α → α → Bool) (h : Heap α) (t : BinarySearchTree) (v : α) :
    Option (Heap α × BinarySearchTree) := do
  let r ← InsertToSubtree lt (h.alloc v).1 t t.root_ (some (h.alloc v).2)
  some (r.1, ⟨r.2.root_, r.2.size_ + 1⟩)

/-- Loop of `find`: `while (now && !Equal(now->value, value))` descend left or right. -/
def findLoop {α : Type} (lt : α → α → Bool) (h : Heap α) (v : α) :
    Nat → Option Nat → Option (Option Nat)
  | 0, _ => none
  | _ + 1, none => some none
  | f + 1, some now => do
    let n ← h.cell now
    if Equal lt n.value v then some (some now)
    else findLoop lt h v f (if lt v n.value then n.left else n.right)

/-- Member `find(value)`; the result is the iterator's `node_` (`none` is `end()`). -/
def find {α : Type} (lt : α → α → Bool) (h : Heap α) (t : BinarySearchTree) (v : α) :
    Option (Option Nat) := do
  let now ← findLoop lt h v h.fuel t.root_
  match now with
  | none => some none
  | some a => do
    let n ← h.cell a
    if Equal lt n.value v then some (some a) else some none

/-- Member `end()`. -/
def «end» : Option Nat := none

/-- Member `contains(value)`: `find(value) != end()`. -/
def contains {α : Type} (lt : α → α → Bool) (h : Heap α) (t : BinarySearchTree) (v : α) :
    Option Bool :=
  (find lt h t v).map fun it => it != «end»

/-- Loop `while (p->left) p = p->left`. -/
def leftmost {α : Type} (h : Heap α) : Nat → Nat → Option Nat
  | 0, _ => none
  | f + 1, a => do
    let n ← h.cell a
    match n.left with
    | none => some a
    | some l => leftmost h f l

/-- Loop `while (p->right) p = p->right`. -/
def rightmost {α : Type} (h : Heap α) : Nat → Nat → Option Nat
  | 0, _ => none
  | f + 1, a => do
    let n ← h.cell a
    match n.right with
    | none => some a
    | some r => rightmost h f r

/-- Ascent of `operator++`: `while (now && !(v < now->value)) now = now->parent`. -/
def ascendIncr {α : Type} (lt : α → α → Bool) (h : Heap α) (v : α) :
    Nat → Option Nat → Option (Option Nat)
  | 0, _ => none
  | _ + 1, none => some none
  | f + 1, some now => do
    let n ← h.cell now
    if !(lt v n.value) then ascendIncr lt h v f n.parent else some (some now)

/-- Ascent of `operator--`: `while (now && !(now->value < v)) now = now->parent`. -/
def ascendDecr {α : Type} (lt : α → α → Bool) (h : Heap α) (v : α) :
    Nat → Option Nat → Option (Option Nat)
  | 0, _ => none
  | _ + 1, none => some none
  | f + 1, some now => do
    let n ← h.cell now
    if !(lt n.value v) then ascendDecr lt h v f n.parent else some (some now)

/-- Iterator `operator++` on `node_`. -/
def ConstIterator.incr {α : Type} (lt : α → α → Bool) (h : Heap α) (node_ : Option Nat) :
    Option (Option Nat) := do
  let n ← h.read node_
  match n.right with
  | some r => (leftmost h h.fuel r).map some
  | none => ascendIncr lt h n.value h.fuel node_

/-- Iterator `operator--` on `node_`, with the tree the iterator belongs to. -/
def ConstIterator.decr {α : Type} (lt : α → α → Bool) (h : Heap α) (t : BinarySearchTree)
    (node_ : Option Nat) : Option (Option Nat) :=
  match node_ with
  | none =>
    match t.root_ with
    | none => some none
    | some r => (rightmost h h.fuel r).map some
  | some a => do
    let n ← h.cell a
    match n.left with
    | some l => (rightmost h h.fuel l).map some
    | none => ascendDecr lt h n.value h.fuel (some a)

/-- Member `begin()`. -/
def begin {α : Type} (h : Heap α) (t : BinarySearchTree) : Option (Option Nat) :=
  match t.root_ with
  | none => some none
  | some r => (leftmost h h.fuel r).map some

/-- Range-for loop of `to_vector`: `for (it = begin(); it != end(); ++it) push_back(*it)`. -/
def to_vectorLoop {α : Type} (lt : α → α → Bool) (h : Heap α) :
    Nat → Option Nat → List α → Option (List α)
  | 0, _, _ => none
  | _ + 1, none, acc => some acc
  | f + 1, some a, acc => do
    let n ← h.cell a
    let it ← ConstIterator.incr lt h (some a)
    to_vectorLoop lt h f it (acc ++ [n.value])

/-- Member `to_vector()`. -/
def to_vector {α : Type} (lt : α → α → Bool) (h : Heap α) (t : BinarySearchTree) :
    Option (List α) := do
  let it ← begin h t
  to_vectorLoop lt h h.fuel it []

/-- Loop of `count`: `while (it.node_ && !(value < it.node_->value)) { ++result; ++it; }`. -/
def countLoop {α : Type} (lt : α → α → Bool) (h : Heap α) (v : α) :
    Nat → Option Nat → Nat → Option Nat
  | 0, _, _ => none
  | _ + 1, none, r => some r
  | f + 1, some a, r => do
    let n ← h.cell a
    if !(lt v n.value) then do
      let it ← ConstIterator.incr lt h (some a)
      countLoop lt h v f it (r + 1)
    else some r

/-- Member `count(value)`. -/
def count {α : Type} (lt : α → α → Bool) (h : Heap α) (t : BinarySearchTree) (v : α) :
    Option Nat := do
  let it ← find lt h t v
  countLoop lt h v h.fuel it 0

/-- Member `size()`.  Node counts are taken below `2^31`, where the conversion of `size_`
to `int` is the identity. -/
def size (t : BinarySearchTree) : Nat := t.size_

/-- Member `empty()`. -/
def empty (t : BinarySearchTree) : Bool := t.size_ == 0

/-- First block of `Detach`: `if (node->parent)` clear the parent's link to `node`. -/
def Detach.unlink {α : Type} (h : Heap α) (a : Nat) : Option (Heap α) := do
  let n ← h.cell a
  match n.parent with
  | none => some h
  | some p => do
    let pn ← h.cell p
    if pn.left = some a then h.setLeft p none else h.setRight p none

/-- Block of `Detach` that puts `child = (node->left ? node->left : node->right)` in the
place of `node`: as the new `root_` with a null parent, or by `Bind(node->parent, child)`. -/
def Detach.splice {α : Type} (lt : α → α → Bool) (h : Heap α) (t : BinarySearchTree)
    (a : Nat) : Option (Heap α × BinarySearchTree) := do
  let n ← h.cell a
  let child := if n.left.isSome then n.left else n.right
  if some a = t.root_ then do
    let c ← child
    let h1 ← h.setParent c none
    some (h1, ⟨child, t.size_⟩)
  else do
    let h1 ← Bind lt h n.parent child
    some (h1, t)

/-- Last block of `Detach`: `if (node->left && node->right) InsertToSubtree(node->left,
node->right)`. -/
def Detach.reinsert {α : Type} (lt : α → α → Bool) (h : Heap α) (t : BinarySearchTree)
    (a : Nat) : Option (Heap α × BinarySearchTree) := do
  let n ← h.cell a
  if n.left.isSome ∧ n.right.isSome then InsertToSubtree lt h t n.left n.right
  else some (h, t)

/-- Function `Detach(node)`; returns the store, the tree and the returned pointer. -/
def Detach {α : Type} (lt : α → α → Bool) (h : Heap α) (t : BinarySearchTree)
    (node : Option Nat) : Option (Heap α × BinarySearchTree × Option Nat) :=
  match node with
  | none => some (h, t, none)
  | some a => do
    let h1 ← Detach.unlink h a
    let n ← h1.cell a
    if n.left = none ∧ n.right = none then
      some (h1, (if some a = t.root_ then ⟨none, t.size_⟩ else t), some a)
    else do
      let r2 ← Detach.splice lt h1 t a
      let r3 ← Detach.reinsert lt r2.1 r2.2 a
      some (r3.1, r3.2, some a)

/-- Member `erase(iter)`: `if (iter.node_) { delete Detach(iter.node_); --size_; }`.  The
decrement is the unsigned one, wrapping at zero. -/
def erase_iter {α : Type} (lt : α → α → Bool) (h : Heap α) (t : BinarySearchTree)
    (node_ : Option Nat) : Option (Heap α × BinarySearchTree) :=
  match node_ with
  | none => some (h, t)
  | some a => do
    let r ← Detach lt h t (some a)
    let d ← r.2.2
    some (r.1.free d, ⟨r.2.1.root_, if r.2.1.size_ = 0 then 2 ^ 64 - 1 else r.2.1.size_ - 1⟩)

/-- Member `erase(value)`: `erase(find(value))`. -/
def erase {α : Type} (lt : α → α → Bool) (h : Heap α) (t : BinarySearchTree) (v : α) :
    Option (Heap α × BinarySearchTree) := do
  let it ← find lt h t v
  erase_iter lt h t it

/-! ## Requirements on the element order -/

/-- Comparison `<` of the element type is a strict weak order: asymmetric, and
incomparability ("equivalence") is transitive. -/
structure StrictWeak {α : Type} (lt : α → α → Bool) : Prop where
  asymm : ∀ a b, lt a b = true → lt b a = false
  negTrans : ∀ a b c, lt a b = false → lt b c = false → lt a c = false

/-- Comparison `<` on `Nat`, used for concrete runs. -/
def natLt (a b : Nat) : Bool := decide (a < b)

/-- Comparison of pairs by first component only: the second component distinguishes
equivalent elements. -/
def keyLt (a b : Nat × Nat) : Bool := decide (a.1 < b.1)

/-! ## Shape of the linked structure

The tree of store addresses that the links of a well-formed store spell out.  It is the
proof device relating pointer walks to the in-order sequence. -/

/-- Shape of a linked tree: each node carries its address and its value. -/
inductive Tree (α : Type) where
  | nil : Tree α
  | node (l : Tree α) (a : Nat) (v : α) (r : Tree α) : Tree α

/-- Pointer to the root of a shape. -/
def Tree.ptr {α : Type} : Tree α → Option Nat
  | .nil => none
  | .node _ a _ _ => some a

/-- Nodes of a shape in in-order (left subtree, node, right subtree). -/
def Tree.nodes {α : Type} : Tree α → List (Nat × α)
  | .nil => []
  | .node l a v r => l.nodes ++ (a, v) :: r.nodes

/-- Addresses of a shape in in-order. -/
def Tree.addrs {α : Type} (T : Tree α) : List Nat := T.nodes.map Prod.fst

/-- In-order sequence of values of a shape. -/
def Tree.inorder {α : Type} (T : Tree α) : List α := T.nodes.map Prod.snd

/-- Number of nodes of a shape. -/
def Tree.card {α : Type} : Tree α → Nat
  | .nil => 0
  | .node l _ _ r => l.card + 1 + r.card

/-- Store `h` holds the shape `T` below the parent pointer `par`: every node's cell has the
node's value, the roots of its subtrees as `left` and `right`, and its parent. -/
def Rep {α : Type} (h : Heap α) : Option Nat → Tree α → Prop
  | _, .nil => True
  | par, .node l a v r =>
    h.cell a = some ⟨v, l.ptr, r.ptr, par⟩ ∧ Rep h (some a) l ∧ Rep h (some a) r

/-- Placement rule as a property of a shape: values in a left subtree are strictly less
than the node's value, values in a right subtree are not less than it. -/
def Tree.Ordered {α : Type} (lt : α → α → Bool) : Tree α → Prop
  | .nil => True
  | .node l _ v r =>
    (∀ x ∈ l.inorder, lt x v = true) ∧ (∀ x ∈ r.inorder, lt x v = false) ∧
      l.Ordered lt ∧ r.Ordered lt

/-- Well-formed tree object: the store holds a shape `T` hanging off `root_`, with distinct
allocated addresses, obeying the placement rule, and `size_` counts its nodes. -/
structure Models {α : Type} (lt : α → α → Bool) (h : Heap α) (t : BinarySearchTree)
    (T : Tree α) : Prop where
  root : t.root_ = T.ptr
  rep : Rep h none T
  nodup : T.addrs.Nodup
  ordered : T.Ordered lt
  size : t.size_ = T.card
  bound : ∀ a ∈ T.addrs, a < h.next

/-- Shape after the descent of `InsertToSubtree` for key `v` hangs the shape `sub` on the
empty link it reaches. -/
def Tree.attach {α : Type} (lt : α → α → Bool) (v : α) (sub : Tree α) : Tree α → Tree α
  | .nil => sub
  | .node l a x r =>
    if lt v x then .node (Tree.attach lt v sub l) a x r else .node l a x (Tree.attach lt v sub r)

/-- Node at which the descent of `InsertToSubtree` for key `v` stops (`prev`). -/
def Tree.slot {α : Type} (lt : α → α → Bool) (v : α) : Tree α → Option Nat → Option Nat
  | .nil, prev => prev
  | .node l a x r, _ => if lt v x then l.slot lt v (some a) else r.slot lt v (some a)

/-- Shape that replaces a detached node with subtrees `l` and `r`. -/
def Tree.merge {α : Type} (lt : α → α → Bool) : Tree α → Tree α → Tree α
  | .nil, r => r
  | l, .nil => l
  | l, .node rl b w rr => Tree.attach lt w (.node rl b w rr) l

/-- Shape after `Detach` of the node at address `a`. -/
def Tree.remove {α : Type} (lt : α → α → Bool) (a : Nat) : Tree α → Tree α
  | .nil => .nil
  | .node l b v r =>
    if a = b then Tree.merge lt l r else .node (l.remove lt a) b v (r.remove lt a)

/-- Node at which the descent of `find` for `v` stops. -/
def Tree.find {α : Type} (lt : α → α → Bool) (v : α) : Tree α → Option Nat
  | .nil => none
  | .node l a x r =>
    if Equal lt x v then some a else if lt v x then l.find lt v else r.find lt v

/-- In-order sequence as the glossary defines it, read off the store: the nodes of the left
subtree, the node, the nodes of the right subtree, recursively. -/
def inorderRec {α : Type} (h : Heap α) : Nat → Option Nat → Option (List (Nat × α))
  | 0, _ => none
  | _ + 1, none => some []
  | f + 1, some a => do
    let n ← h.cell a
    let l ← inorderRec h f n.left
    let r ← inorderRec h f n.right
    some (l ++ (a, n.value) :: r)

/-! ## Sequences of operations -/

/-- Loop of the initializer-list constructor: `for (element : list) insert(element)`. -/
def insertAll {α : Type} (lt : α → α → Bool) (h : Heap α) (t : BinarySearchTree) :
    List α → Option (Heap α × BinarySearchTree)
  | [] => some (h, t)
  | x :: xs => do
    let s ← insert lt h t x
    insertAll lt s.1 s.2 xs

/-- Constructor `BinarySearchTree(initializer_list)`. -/
def fromInitializerList {α : Type} (lt : α → α → Bool) (xs : List α) :
    Option (Heap α × BinarySearchTree) :=
  insertAll lt Heap.empty BinarySearchTree.empty xs

/-- Mutating call on a tree: `insert(v)`, `erase(v)`, or `erase(it)` for the position `it`
reached from `begin()` by `k` increments (stopping at `end()`). -/
inductive Op (α : Type) where
  | ins (v : α) : Op α
  | del (v : α) : Op α
  | delAt (k : Nat) : Op α

/-- Position reached from `it` by at most `k` applications of `operator++`, stopping at
`end()`. -/
def advance {α : Type} (lt : α → α → Bool) (h : Heap α) : Nat → Option Nat → Option (Option Nat)
  | 0, it => some it
  | _ + 1, none => some none
  | k + 1, some a => do
    let it ← ConstIterator.incr lt h (some a)
    advance lt h k it

/-- One mutating call. -/
def Op.apply {α : Type} (lt : α → α → Bool) (h : Heap α) (t : BinarySearchTree) :
    Op α → Option (Heap α × BinarySearchTree)
  | .ins v => insert lt h t v
  | .del v => erase lt h t v
  | .delAt k => do
    let b ← begin h t
    let it ← advance lt h k b
    erase_iter lt h t it

/-- Calls made one after the other, starting from a given store and tree. -/
def runFrom {α : Type} (lt : α → α → Bool) (h : Heap α) (t : BinarySearchTree) :
    List (Op α) → Option (Heap α × BinarySearchTree)
  | [] => some (h, t)
  | op :: ops => do
    let s ← op.apply lt h t
    runFrom lt s.1 s.2 ops

/-- Tree reached from the default-constructed tree by a sequence of calls, first call
first. -/
def run {α : Type} (lt : α → α → Bool) (ops : List (Op α)) :
    Option (Heap α × BinarySearchTree) :=
  runFrom lt Heap.empty BinarySearchTree.empty ops

/-! ## Whole-tree operations -/

/-- Function `ClearSubtree(node)`: `ClearSubtree(node->left); ClearSubtree(node->right);
delete node;`. -/
def ClearSubtree {α : Type} : Nat → Heap α → Option Nat → Option (Heap α)
  | 0, _, _ => none
  | _ + 1, h, none => some h
  | f + 1, h, some a => do
    let n ← h.cell a
    let h1 ← ClearSubtree f h n.left
    let n1 ← h1.cell a
    let h2 ← ClearSubtree f h1 n1.right
    some (h2.free a)

/-- Member `clear()`: `ClearSubtree(root_); size_ = 0;`.  The member `root_` is not
assigned. -/
def clear {α : Type} (h : Heap α) (t : BinarySearchTree) :
    Option (Heap α × BinarySearchTree) := do
  let h1 ← ClearSubtree h.fuel h t.root_
  some (h1, ⟨t.root_, 0⟩)

/-- Function `Swap(lhs, rhs)`: swaps `size_` and `root_` of the two trees. -/
def Swap (lhs rhs : BinarySearchTree) : BinarySearchTree × BinarySearchTree :=
  (⟨rhs.root_, rhs.size_⟩, ⟨lhs.root_, lhs.size_⟩)

/-- Move assignment `operator=(BinarySearchTree&& other)`: `if (root_ != other.root_) {
clear(); Swap(*this, other); }`.  Returns the store, `*this` and `other`. -/
def operatorMoveAssign {α : Type} (h : Heap α) (this other : BinarySearchTree) :
    Option (Heap α × BinarySearchTree × BinarySearchTree) :=
  if this.root_ ≠ other.root_ then do
    let r ← clear h this
    some (r.1, (Swap r.2 other).1, (Swap r.2 other).2)
  else some (h, this, other)

/-- Loop of `operator==`: `for (element : lhs) { if (!Equal(*iter, element)) return false;
++iter; } return true;` with `it` the position in `lhs` and `iter` the position in `rhs`. -/
def operatorEqLoop {α : Type} (lt : α → α → Bool) (h : Heap α) :
    Nat → Option Nat → Option Nat → Option Bool
  | 0, _, _ => none
  | _ + 1, none, _ => some true
  | f + 1, some a, iter => do
    let element ← h.cell a
    let m ← h.read iter
    if !(Equal lt m.value element.value) then some false
    else do
      let iter1 ← ConstIterator.incr lt h iter
      let it1 ← ConstIterator.incr lt h (some a)
      operatorEqLoop lt h f it1 iter1

/-- Function `operator==(lhs, rhs)`. -/
def operatorEq {α : Type} (lt : α → α → Bool) (h : Heap α) (lhs rhs : BinarySearchTree) :
    Option Bool :=
  if size lhs ≠ size rhs then some false
  else do
    let iter ← begin h rhs
    let it ← begin h lhs
    operatorEqLoop lt h h.fuel it iter

/-- Body of `if (child) { insert(child->value); queue.push(child); }` in the copy
constructor. -/
def copyChild {α : Type} (lt : α → α → Bool) (h : Heap α) (t : BinarySearchTree)
    (queue : List Nat) (child : Option Nat) :
    Option (Heap α × BinarySearchTree × List Nat) :=
  match child with
  | none => some (h, t, queue)
  | some c => do
    let cn ← h.cell c
    let s ← insert lt h t cn.value
    some (s.1, s.2, queue ++ [c])

/-- Loop of the copy constructor: `while (!queue.empty()) { now = queue.front();
queue.pop(); ... }`, handling `now->left` and then `now->right`. -/
def copyLoop {α : Type} (lt : α → α → Bool) :
    Nat → Heap α → BinarySearchTree → List Nat → Option (Heap α × BinarySearchTree)
  | 0, _, _, _ => none
  | _ + 1, h, t, [] => some (h, t)
  | f + 1, h, t, now :: queue => do
    let n ← h.cell now
    let s1 ← copyChild lt h t queue n.left
    let n1 ← s1.1.cell now
    let s2 ← copyChild lt s1.1 s1.2.1 s1.2.2 n1.right
    copyLoop lt f s2.1 s2.2.1 s2.2.2

/-- Copy constructor `BinarySearchTree(const BinarySearchTree& other)`; returns the store
and the new tree. -/
def copyConstruct {α : Type} (lt : α → α → Bool) (h : Heap α) (other : BinarySearchTree) :
    Option (Heap α × BinarySearchTree) :=
  if empty other then some (h, BinarySearchTree.empty)
  else do
    let r ← other.root_
    let rn ← h.cell r
    let s ← insert lt h BinarySearchTree.empty rn.value
    copyLoop lt h.fuel s.1 s.2 [r]

/-! ## Two trees in one store -/

/-- Mutating call on one of two trees `A` and `B` living in the same store. -/
inductive Op2 (α : Type) where
  | onA (op : Op α) : Op2 α
  | onB (op : Op α) : Op2 α

/-- Calls on two trees, one after the other. -/
def run2From {α : Type} (lt : α → α → Bool) (h : Heap α) (a b : BinarySearchTree) :
    List (Op2 α) → Option (Heap α × BinarySearchTree × BinarySearchTree)
  | [] => some (h, a, b)
  | .onA op :: ops => do
    let s ← op.apply lt h a
    run2From lt s.1 s.2 b ops
  | .onB op :: ops => do
    let s ← op.apply lt h b
    run2From lt s.1 a s.2 ops

/-- Two trees reached from two default-constructed trees by a sequence of calls. -/
def run2 {α : Type} (lt : α → α → Bool) (ops : List (Op2 α)) :
    Option (Heap α × BinarySearchTree × BinarySearchTree) :=
  run2From lt Heap.empty BinarySearchTree.empty BinarySearchTree.empty ops

/-! ## More on shapes -/

/-- Subtree of a shape rooted at the node with address `a`. -/
def Tree.subtree? {α : Type} (a : Nat) : Tree α → Option (Tree α)
  | .nil => none
  | .node l b v r =>
    if a = b then some (.node l b v r)
    else match Tree.subtree? a l with
      | some s => some s
      | none => Tree.subtree? a r

/-- Shape `L` with the shape `R` hung on the right link of its right-most node. -/
def Tree.hangRight {α : Type} (R : Tree α) : Tree α → Tree α
  | .nil => R
  | .node l a v r => .node l a v (Tree.hangRight R r)

/-- Shape in which the subtree rooted at address `a` is replaced by `S`, everything else
staying in place. -/
def Tree.replace {α : Type} (a : Nat) (S : Tree α) : Tree α → Tree α
  | .nil => .nil
  | .node l b v r =>
    if a = b then S else .node (Tree.replace a S l) b v (Tree.replace a S r)

/-- Store and tree after `insert` of 10, 5, 15, 12, 20 into an empty tree. -/
def twoChildrenExample : Heap Nat × BinarySearchTree :=
  (run natLt [Op.ins 10, Op.ins 5, Op.ins 15, Op.ins 12, Op.ins 20]).getD
    (Heap.empty, BinarySearchTree.empty)

/-- Shape of `twoChildrenExample`: root 10 at address 0, left child 5 at address 1, right
child 15 at address 2 with children 12 and 20 at addresses 3 and 4. -/
def twoChildrenShape : Tree Nat :=
  .node (.node .nil 1 5 .nil) 0 10 (.node (.node .nil 3 12 .nil) 2 15 (.node .nil 4 20 .nil))

/-! ## Shapes without addresses, and level order -/

/-- Shape of a tree with the addresses forgotten: the values and their positions. -/
inductive Shape (α : Type) where
  | leaf : Shape α
  | node (l : Shape α) (v : α) (r : Shape α) : Shape α

/-- Positions and values of a linked shape. -/
def Tree.shape {α : Type} : Tree α → Shape α
  | .nil => .leaf
  | .node l _ v r => .node l.shape v r.shape

/-- Descent of `insert` on positions and values only. -/
def Shape.insert {α : Type} (lt : α → α → Bool) (v : α) : Shape α → Shape α
  | .leaf => .node .leaf v .leaf
  | .node l x r =>
    if lt v x then .node (Shape.insert lt v l) x r else .node l x (Shape.insert lt v r)

/-- Value at the root of a shape. -/
def Tree.val? {α : Type} : Tree α → Option α
  | .nil => none
  | .node _ _ v _ => some v

/-- A shape as a list of non-empty shapes. -/
def Tree.single {α : Type} : Tree α → List (Tree α)
  | .nil => []
  | .node l a v r => [.node l a v r]

/-- Non-empty subtrees hanging off the root, left one first. -/
def Tree.kids {α : Type} : Tree α → List (Tree α)
  | .nil => []
  | .node l _ _ r => l.single ++ r.single

/-- Values the loop of the copy constructor inserts when its queue holds the roots of the
given shapes: for each dequeued node the value of its left child and then of its right
child, the children joining the back of the queue. -/
def bfsVals {α : Type} : Nat → List (Tree α) → List α
  | 0, _ => []
  | _ + 1, [] => []
  | f + 1, S :: queue => S.kids.filterMap Tree.val? ++ bfsVals f (queue ++ S.kids)

/-- Non-empty subtrees rooted at depth `d`, left to right. -/
def Tree.levelTrees {α : Type} : Nat → Tree α → List (Tree α)
  | 0, T => T.single
  | _ + 1, .nil => []
  | d + 1, .node l _ _ r => Tree.levelTrees d l ++ Tree.levelTrees d r

/-- Shape cut off below depth `d`: the nodes at depths `0 .. d - 1`. -/
def Tree.trunc {α : Type} : Nat → Tree α → Tree α
  | 0, _ => .nil
  | _ + 1, .nil => .nil
  | d + 1, .node l a v r => .node (Tree.trunc d l) a v (Tree.trunc d r)

/-- Total number of nodes of a list of shapes. -/
def totalCard {α : Type} : List (Tree α) → Nat
  | [] => 0
  | S :: F => S.card + totalCard F

/-- Shapes of a source tree held by the store while a copy with shape `C` is being built:
each is non-empty, held below some parent link, made of allocated cells, and shares no
cell with the copy. -/
def Held {α : Type} (h : Heap α) (C : Tree α) (F : List (Tree α)) : Prop :=
  ∀ S ∈ F, S ≠ .nil ∧ (∃ pa, Rep h pa S) ∧ ∀ i ∈ S.addrs, i ∉ C.addrs ∧ i < h.next

/-- Shape of the tree hanging off a link, read off the store: the shape below the left
link, the value of the node, the shape below the right link, recursively. -/
def shapeRec {α : Type} (h : Heap α) : Nat → Option Nat → Option (Shape α)
  | 0, _ => none
  | _ + 1, none => some .leaf
  | f + 1, some a => do
    let n ← h.cell a
    let l ← shapeRec h f n.left
    let r ← shapeRec h f n.right
    some (.node l n.value r)

variable {α : Type} {lt : α → α → Bool}

/-! ## Order facts -/

theorem StrictWeak.irrefl (hlt : StrictWeak lt) (a : α) : lt a a = false := by
  cases h : lt a a
  · rfl
  · have := hlt.asymm a a h
    simp [h] at this

theorem StrictWeak.trans (hlt : StrictWeak lt) {a b c : α} (hab : lt a b = true)
    (hbc : lt b c = true) : lt a c = true := by
  by_contra hac
  have hac : lt a c = false := by simpa using hac
  have := hlt.negTrans a c b hac (hlt.asymm b c hbc)
  simp [hab] at this

theorem StrictWeak.lt_of_lt_of_not_lt (hlt : StrictWeak lt) {a b c : α} (hab : lt a b = true)
    (hcb : lt c b = false) : lt a c = true := by
  by_contra hac
  have hac : lt a c = false := by simpa using hac
  have := hlt.negTrans a c b hac hcb
  simp [hab] at this

theorem StrictWeak.lt_of_not_lt_of_lt (hlt : StrictWeak lt) {a b c : α} (hba : lt b a = false)
    (hbc : lt b c = true) : lt a c = true := by
  by_contra hac
  have hac : lt a c = false := by simpa using hac
  have := hlt.negTrans b a c hba hac
  simp [hbc] at this

theorem natLt_strictWeak : StrictWeak natLt := by
  constructor
  · intro a b h
    simp only [natLt, decide_eq_true_eq, decide_eq_false_iff_not] at *
    omega
  · intro a b c h1 h2
    simp only [natLt, decide_eq_true_eq, decide_eq_false_iff_not] at *
    omega

theorem keyLt_strictWeak : StrictWeak keyLt := by
  constructor
  · intro a b h
    simp only [keyLt, decide_eq_true_eq, decide_eq_false_iff_not] at *
    omega
  · intro a b c h1 h2
    simp only [keyLt, decide_eq_true_eq, decide_eq_false_iff_not] at *
    omega

/-! ## Shapes -/

@[simp]
theorem Tree.addrs_nil : (Tree.nil : Tree α).addrs = [] := rfl
@[simp]
theorem Tree.inorder_nil : (Tree.nil : Tree α).inorder = [] := rfl
@[simp]
theorem Tree.addrs_node (l : Tree α) (a : Nat) (v : α) (r : Tree α) :
    (Tree.node l a v r).addrs = l.addrs ++ a :: r.addrs := by
  simp [Tree.addrs, Tree.nodes]
@[simp]
theorem Tree.inorder_node (l : Tree α) (a : Nat) (v : α) (r : Tree α) :
    (Tree.node l a v r).inorder = l.inorder ++ v :: r.inorder := by
  simp [Tree.inorder, Tree.nodes]

theorem Tree.length_nodes (T : Tree α) : T.nodes.length = T.card := by
  induction T with
  | nil => rfl
  | node l a v r ihl ihr => simp [Tree.nodes, Tree.card, ihl, ihr]; omega

theorem Tree.length_addrs (T : Tree α) : T.addrs.length = T.card := by
  simp [Tree.addrs, Tree.length_nodes]

theorem Tree.length_inorder (T : Tree α) : T.inorder.length = T.card := by
  simp [Tree.inorder, Tree.length_nodes]

theorem Tree.ptr_eq_none {T : Tree α} (h : T.ptr = none) : T = .nil := by
  cases T with
  | nil => rfl
  | node l a v r => simp [Tree.ptr] at h

theorem Tree.ptr_mem_addrs {T : Tree α} {a : Nat} (h : T.ptr = some a) : a ∈ T.addrs := by
  cases T with
  | nil => simp [Tree.ptr] at h
  | node l b v r =>
    simp only [Tree.ptr, Option.some.injEq] at h
    simp [h]

/-! ## Store facts -/

@[simp]
theorem Heap.write_cell_same (h : Heap α) (a : Nat) (c : TreeNode α) :
    (h.write a c).cell a = some c := by
  simp [Heap.write]

theorem Heap.write_cell_ne (h : Heap α) {a i : Nat} (c : TreeNode α) (hne : i ≠ a) :
    (h.write a c).cell i = h.cell i := by
  simp [Heap.write, hne]

@[simp]
theorem Heap.write_next (h : Heap α) (a : Nat) (c : TreeNode α) :
    (h.write a c).next = h.next := rfl

@[simp]
theorem Heap.write_fuel (h : Heap α) (a : Nat) (c : TreeNode α) :
    (h.write a c).fuel = h.fuel := rfl

/-- Frame rule: a shape is still held after the store changes outside its addresses. -/
theorem Rep.frame {h h1 : Heap α} {T : Tree α} : ∀ {par : Option Nat},
    (∀ a ∈ T.addrs, h1.cell a = h.cell a) → Rep h par T → Rep h1 par T := by
  induction T with
  | nil => intro _ _ _; trivial
  | node l a v r ihl ihr =>
    intro par hfr hrep
    obtain ⟨hc, hl, hr⟩ := hrep
    refine ⟨?_, ihl ?_ hl, ihr ?_ hr⟩
    · rw [hfr a (by simp), hc]
    · intro x hx
      exact hfr x (by simp [hx])
    · intro x hx
      exact hfr x (by simp [hx])

/-- Changing the parent link of the root of a held shape. -/
theorem Rep.reparent {h : Heap α} {l r : Tree α} {a : Nat} {v : α} {par : Option Nat}
    (q : Option Nat) (hrep : Rep h par (.node l a v r)) (hl : a ∉ l.addrs) (hr : a ∉ r.addrs) :
    Rep (h.write a ⟨v, l.ptr, r.ptr, q⟩) q (.node l a v r) := by
  obtain ⟨_, hl1, hr1⟩ := hrep
  refine ⟨by simp, Rep.frame ?_ hl1, Rep.frame ?_ hr1⟩
  · intro x hx
    exact Heap.write_cell_ne _ _ (fun e => hl (e ▸ hx))
  · intro x hx
    exact Heap.write_cell_ne _ _ (fun e => hr (e ▸ hx))

theorem Rep.cell_of_ptr {h : Heap α} {T : Tree α} {par : Option Nat} {a : Nat}
    (hrep : Rep h par T) (hp : T.ptr = some a) :
    ∃ l v r, T = .node l a v r ∧ h.cell a = some ⟨v, l.ptr, r.ptr, par⟩ := by
  cases T with
  | nil => simp [Tree.ptr] at hp
  | node l b v r =>
    simp only [Tree.ptr, Option.some.injEq] at hp
    subst hp
    exact ⟨l, v, r, rfl, hrep.1⟩

theorem descend_slot (lt : α → α → Bool) {h : Heap α} (v : α) {T : Tree α} : ∀ {par : Option Nat} (f : Nat)
    (prev : Option Nat), Rep h par T → T.card < f →
    descend lt h v f T.ptr prev = some (T.slot lt v prev) := by
  induction T with
  | nil =>
    intro par f prev _ hf
    obtain ⟨f, rfl⟩ : ∃ g, f = g + 1 := ⟨f - 1, by omega⟩
    simp [Tree.ptr, descend, Tree.slot]
  | node l a x r ihl ihr =>
    intro par f prev hrep hf
    obtain ⟨f, rfl⟩ : ∃ g, f = g + 1 := ⟨f - 1, by omega⟩
    obtain ⟨hc, hl, hr⟩ := hrep
    simp only [Tree.card] at hf
    simp only [Tree.ptr, descend, hc, Option.bind_eq_bind, Option.some_bind, Tree.slot]
    by_cases hv : lt v x = true
    · simp only [hv, if_true]
      exact ihl f (some a) hl (by omega)
    · simp only [hv, if_false]
      exact ihr f (some a) hr (by omega)

theorem Tree.attach_ptr (v : α) (sub : Tree α) {T : Tree α} (hT : T ≠ .nil) :
    (Tree.attach lt v sub T).ptr = T.ptr := by
  cases T with
  | nil => exact absurd rfl hT
  | node l a x r =>
    simp only [Tree.attach]
    split <;> rfl

theorem Bind_cells {h : Heap α} {p c : Nat} {pn cn : TreeNode α} (hp : h.cell p = some pn)
    (hc : h.cell c = some cn) (hne : c ≠ p) :
    Bind lt h (some p) (some c) = some
      ((h.write p (if lt cn.value pn.value then ⟨pn.value, some c, pn.right, pn.parent⟩
        else ⟨pn.value, pn.left, some c, pn.parent⟩)).write c
          ⟨cn.value, cn.left, cn.right, some p⟩) := by
  by_cases hv : lt cn.value pn.value = true
  · simp [Bind, Heap.read, hp, hc, hv, Heap.setLeft, Heap.setParent, Heap.write_cell_ne _ _ hne]
  · simp [Bind, Heap.read, hp, hc, hv, Heap.setRight, Heap.setParent, Heap.write_cell_ne _ _ hne]

theorem Tree.nodup_node {l r : Tree α} {a : Nat} {v : α} :
    (Tree.node l a v r).addrs.Nodup ↔ l.addrs.Nodup ∧ r.addrs.Nodup ∧ a ∉ l.addrs ∧
      a ∉ r.addrs ∧ ∀ i ∈ l.addrs, i ∉ r.addrs := by
  simp only [Tree.addrs_node, List.nodup_append, List.nodup_cons, List.disjoint_left,
    List.mem_cons, not_or]
  constructor
  · rintro ⟨h1, ⟨h2, h3⟩, h4⟩
    exact ⟨h1, h3, fun hm => (h4 hm).1 rfl, h2, fun i hi => (h4 hi).2⟩
  · rintro ⟨h1, h2, h3, h4, h5⟩
    exact ⟨h1, ⟨h4, h2⟩, fun i hi => ⟨fun e => h3 (e ▸ hi), h5 i hi⟩⟩

/-- Effect of `Bind(prev, node)` after the descent: the shape `sub` rooted at `n` now hangs
on the link the descent for its value reached. -/
theorem Bind_attach (lt : α → α → Bool) {h : Heap α} {sl sr : Tree α} {n : Nat} {v : α} {q : Option Nat}
    (hsub : Rep h q (.node sl n v sr)) (hsn : (Tree.node sl n v sr).addrs.Nodup)
    {T : Tree α} : ∀ {par : Option Nat} (prev : Option Nat),
    T ≠ .nil → Rep h par T → T.addrs.Nodup →
    (∀ i ∈ T.addrs, i ≠ n ∧ i ∉ sl.addrs ∧ i ∉ sr.addrs) →
    ∃ h1, Bind lt h (T.slot lt v prev) (some n) = some h1 ∧
      Rep h1 par (Tree.attach lt v (.node sl n v sr) T) ∧
      (∀ i, i ∉ T.addrs → i ≠ n → h1.cell i = h.cell i) ∧ h1.next = h.next := by
  obtain ⟨hcn, hsl, hsr⟩ := hsub
  obtain ⟨-, -, hnsl, hnsr, -⟩ := Tree.nodup_node.1 hsn
  induction T with
  | nil => intro _ _ hT; exact absurd rfl hT
  | node l a x r ihl ihr =>
    intro par prev _ hrep hnd hdj
    obtain ⟨hc, hl, hr⟩ := hrep
    obtain ⟨hndl, hndr, hal, har, hlr⟩ := Tree.nodup_node.1 hnd
    obtain ⟨han, hasl, hasr⟩ := hdj a (by simp)
    have hdl : ∀ i ∈ l.addrs, i ≠ n ∧ i ∉ sl.addrs ∧ i ∉ sr.addrs :=
      fun i hi => hdj i (by simp [hi])
    have hdr : ∀ i ∈ r.addrs, i ≠ n ∧ i ∉ sl.addrs ∧ i ∉ sr.addrs :=
      fun i hi => hdj i (by simp [hi])
    have hframe : ∀ S : Tree α, ∀ p cp cn, a ∉ S.addrs → n ∉ S.addrs → Rep h p S →
        Rep ((h.write a cp).write n cn) p S := by
      intro S p cp cn haS hnS hS
      refine Rep.frame ?_ hS
      intro i hi
      rw [Heap.write_cell_ne, Heap.write_cell_ne]
      · rintro rfl; exact haS hi
      · rintro rfl; exact hnS hi
    by_cases hv : lt v x = true
    · simp only [Tree.slot, Tree.attach, hv, if_true]
      by_cases hl0 : l = .nil
      · subst hl0
        simp only [Tree.slot]
        rw [Bind_cells hc hcn (Ne.symm han)]
        refine ⟨_, rfl, ⟨?_, ⟨?_, ?_, ?_⟩, ?_⟩, ?_, rfl⟩
        · simp [Heap.write_cell_ne _ _ han, hv, Tree.ptr, Tree.attach]
        · simp [Tree.attach]
        · exact hframe _ _ _ _ hasl hnsl hsl
        · exact hframe _ _ _ _ hasr hnsr hsr
        · exact hframe _ _ _ _ har (fun hm => (hdr n hm).1 rfl) hr
        · intro i hi hin
          rw [Heap.write_cell_ne _ _ hin, Heap.write_cell_ne _ _ (fun e => hi (by simp [e]))]
      · obtain ⟨h1, hb, hrep1, hfr, hnx⟩ := ihl (some a) hl0 hl hndl hdl
        refine ⟨h1, hb, ⟨?_, hrep1, ?_⟩, ?_, hnx⟩
        · rw [hfr a hal han, hc, Tree.attach_ptr v _ hl0]
        · refine Rep.frame ?_ hr
          intro i hi
          exact hfr i (fun hil => hlr i hil hi) (hdr i hi).1
        · intro i hi hin
          exact hfr i (fun hil => hi (by simp [hil])) hin
    · have hv : lt v x = false := by simpa using hv
      simp only [Tree.slot, Tree.attach, hv, Bool.false_eq_true, if_false]
      by_cases hr0 : r = .nil
      · subst hr0
        simp only [Tree.slot]
        rw [Bind_cells hc hcn (Ne.symm han)]
        refine ⟨_, rfl, ⟨?_, ?_, ⟨?_, ?_, ?_⟩⟩, ?_, rfl⟩
        · simp [Heap.write_cell_ne _ _ han, hv, Tree.ptr, Tree.attach]
        · exact hframe _ _ _ _ hal (fun hm => (hdl n hm).1 rfl) hl
        · simp [Tree.attach]
        · exact hframe _ _ _ _ hasl hnsl hsl
        · exact hframe _ _ _ _ hasr hnsr hsr
        · intro i hi hin
          rw [Heap.write_cell_ne _ _ hin, Heap.write_cell_ne _ _ (fun e => hi (by simp [e]))]
      · obtain ⟨h1, hb, hrep1, hfr, hnx⟩ := ihr (some a) hr0 hr hndr hdr
        refine ⟨h1, hb, ⟨?_, ?_, hrep1⟩, ?_, hnx⟩
        · rw [hfr a har han, hc, Tree.attach_ptr v _ hr0]
        · refine Rep.frame ?_ hl
          intro i hi
          exact hfr i (fun hir => hlr i hi hir) (hdl i hi).1
        · intro i hi hin
          exact hfr i (fun hir => hi (by simp [hir])) hin

/-! ## The in-order sequence of the shapes produced by `attach`, `merge`, `remove` -/

@[simp]
theorem Tree.nodes_nil : (Tree.nil : Tree α).nodes = [] := rfl

theorem Tree.mem_inorder_iff {T : Tree α} {x : α} :
    x ∈ T.inorder ↔ ∃ a, (a, x) ∈ T.nodes := by
  simp [Tree.inorder]

theorem Tree.mem_addrs_iff {T : Tree α} {a : Nat} :
    a ∈ T.addrs ↔ ∃ x, (a, x) ∈ T.nodes := by
  simp [Tree.addrs]

theorem Tree.nodes_attach_perm (lt : α → α → Bool) (v : α) (sub T : Tree α) :
    (Tree.attach lt v sub T).nodes.Perm (T.nodes ++ sub.nodes) := by
  induction T with
  | nil => simp [Tree.attach]
  | node l a x r ihl ihr =>
    simp only [Tree.attach]
    split
    · simp only [Tree.nodes, List.append_assoc]
      refine (ihl.append_right _).trans ?_
      rw [List.append_assoc]
      exact List.Perm.append_left _ List.perm_append_comm
    · simp only [Tree.nodes, List.append_assoc, List.cons_append]
      exact List.Perm.append_left _ (List.Perm.cons _ ihr)

theorem Tree.addrs_attach_perm (v : α) (sub T : Tree α) :
    (Tree.attach lt v sub T).addrs.Perm (T.addrs ++ sub.addrs) := by
  have := (Tree.nodes_attach_perm lt v sub T).map Prod.fst
  simpa [Tree.addrs] using this

theorem Tree.inorder_attach_perm (lt : α → α → Bool) (v : α) (sub T : Tree α) :
    (Tree.attach lt v sub T).inorder.Perm (T.inorder ++ sub.inorder) := by
  have := (Tree.nodes_attach_perm lt v sub T).map Prod.snd
  simpa [Tree.inorder] using this

theorem Tree.card_attach (v : α) (sub T : Tree α) :
    (Tree.attach lt v sub T).card = T.card + sub.card := by
  have := (Tree.nodes_attach_perm lt v sub T).length_eq
  simpa [Tree.length_nodes] using this

/-- Placement rule survives `attach` when every value of the attached shape compares with
every value of the tree the way the key does. -/
theorem Tree.Ordered.attach {v : α} {sub T : Tree α} (hT : T.Ordered lt)
    (hsub : sub.Ordered lt) (hkey : ∀ x ∈ T.inorder, ∀ s ∈ sub.inorder, lt s x = lt v x) :
    (Tree.attach lt v sub T).Ordered lt := by
  induction T with
  | nil => simpa [Tree.attach] using hsub
  | node l a x r ihl ihr =>
    obtain ⟨h1, h2, h3, h4⟩ := hT
    simp only [Tree.attach]
    by_cases hv : lt v x = true
    · simp only [hv, if_true]
      refine ⟨?_, h2, ihl h3 (fun y hy s hs => hkey y (by simp [hy]) s hs), h4⟩
      intro y hy
      rcases List.mem_append.1 ((Tree.inorder_attach_perm lt v sub l).mem_iff.1 hy) with hy | hy
      · exact h1 y hy
      · rw [hkey x (by simp) y hy, hv]
    · have hv : lt v x = false := by simpa using hv
      simp only [hv, Bool.false_eq_true, if_false]
      refine ⟨h1, ?_, h3, ihr h4 (fun y hy s hs => hkey y (by simp [hy]) s hs)⟩
      intro y hy
      rcases List.mem_append.1 ((Tree.inorder_attach_perm lt v sub r).mem_iff.1 hy) with hy | hy
      · exact h2 y hy
      · rw [hkey x (by simp) y hy, hv]

/-- In-order sequence after `attach`: the attached shape sits after the nodes not greater
than the key and before the nodes greater than it. -/
theorem Tree.nodes_attach (hlt : StrictWeak lt) (v : α) (sub : Tree α) {T : Tree α}
    (hT : T.Ordered lt) :
    (Tree.attach lt v sub T).nodes =
      T.nodes.filter (fun p => !lt v p.2) ++ sub.nodes ++ T.nodes.filter (fun p => lt v p.2) := by
  induction T with
  | nil => simp [Tree.attach]
  | node l a x r ihl ihr =>
    obtain ⟨h1, h2, h3, h4⟩ := hT
    simp only [Tree.attach]
    by_cases hv : lt v x = true
    · have hr1 : r.nodes.filter (fun p => !lt v p.2) = [] := by
        rw [List.filter_eq_nil_iff]
        intro p hp
        have : lt v p.2 = true :=
          hlt.lt_of_lt_of_not_lt hv (h2 p.2 (Tree.mem_inorder_iff.2 ⟨p.1, hp⟩))
        simp [this]
      have hr2 : r.nodes.filter (fun p => lt v p.2) = r.nodes := by
        rw [List.filter_eq_self]
        intro p hp
        exact hlt.lt_of_lt_of_not_lt hv (h2 p.2 (Tree.mem_inorder_iff.2 ⟨p.1, hp⟩))
      simp [hv, Tree.nodes, ihl h3, List.filter_cons, hr1, hr2]
    · have hv : lt v x = false := by simpa using hv
      have hl1 : l.nodes.filter (fun p => !lt v p.2) = l.nodes := by
        rw [List.filter_eq_self]
        intro p hp
        have hp1 := h1 p.2 (Tree.mem_inorder_iff.2 ⟨p.1, hp⟩)
        cases hvp : lt v p.2
        · rfl
        · have := hlt.trans hvp hp1
          simp [hv] at this
      have hl2 : l.nodes.filter (fun p => lt v p.2) = [] := by
        rw [List.filter_eq_nil_iff]
        intro p hp
        have hp1 := h1 p.2 (Tree.mem_inorder_iff.2 ⟨p.1, hp⟩)
        cases hvp : lt v p.2
        · simp
        · have := hlt.trans hvp hp1
          simp [hv] at this
      simp [hv, Tree.nodes, ihr h4, List.filter_cons, hl1, hl2]

theorem Tree.nodes_merge (hlt : StrictWeak lt) {l r : Tree α} {a : Nat} {v : α}
    (hT : (Tree.node l a v r).Ordered lt) : (Tree.merge lt l r).nodes = l.nodes ++ r.nodes := by
  obtain ⟨h1, h2, h3, h4⟩ := hT
  cases r with
  | nil => cases l <;> simp [Tree.merge]
  | node rl b w rr =>
    cases l with
    | nil => simp [Tree.merge]
    | node ll c u lr =>
      simp only [Tree.merge]
      rw [Tree.nodes_attach hlt w _ h3]
      have hw : lt w v = false := h2 w (by simp)
      have hall : ∀ p ∈ (Tree.node ll c u lr).nodes, lt w p.2 = false := by
        intro p hp
        have hp1 := h1 p.2 (Tree.mem_inorder_iff.2 ⟨p.1, hp⟩)
        cases hwp : lt w p.2
        · rfl
        · have := hlt.trans hwp hp1
          simp [hw] at this
      have e1 : (Tree.node ll c u lr).nodes.filter (fun p => !lt w p.2)
          = (Tree.node ll c u lr).nodes := by
        rw [List.filter_eq_self]
        intro p hp
        simp [hall p hp]
      have e2 : (Tree.node ll c u lr).nodes.filter (fun p => lt w p.2) = [] := by
        rw [List.filter_eq_nil_iff]
        intro p hp
        simp [hall p hp]
      rw [e1, e2, List.append_nil]

theorem Tree.Ordered.merge (hlt : StrictWeak lt) {l r : Tree α} {a : Nat} {v : α}
    (hT : (Tree.node l a v r).Ordered lt) : (Tree.merge lt l r).Ordered lt := by
  obtain ⟨h1, h2, h3, h4⟩ := hT
  cases r with
  | nil => cases l <;> simpa [Tree.merge] using h3
  | node rl b w rr =>
    cases l with
    | nil => simpa [Tree.merge] using h4
    | node ll c u lr =>
      simp only [Tree.merge]
      refine Tree.Ordered.attach h3 h4 ?_
      intro x hx s hs
      have hx1 := h1 x hx
      have hnot : ∀ s ∈ (Tree.node rl b w rr).inorder, lt s x = false := by
        intro s hs
        have hs1 := h2 s hs
        cases hsx : lt s x
        · rfl
        · have := hlt.trans hsx hx1
          simp [hs1] at this
      rw [hnot s hs, hnot w (by simp)]

theorem Tree.nodes_remove (hlt : StrictWeak lt) (a : Nat) {T : Tree α} (hT : T.Ordered lt)
    (hnd : T.addrs.Nodup) : (T.remove lt a).nodes = T.nodes.filter (fun p => p.1 != a) := by
  induction T with
  | nil => rfl
  | node l b v r ihl ihr =>
    obtain ⟨hndl, hndr, hbl, hbr, hlr⟩ := Tree.nodup_node.1 hnd
    simp only [Tree.remove]
    have hfl : ∀ S : Tree α, a ∉ S.addrs → S.nodes.filter (fun p => p.1 != a) = S.nodes := by
      intro S hS
      rw [List.filter_eq_self]
      intro p hp
      have : p.1 ≠ a := fun e => hS (e ▸ Tree.mem_addrs_iff.2 ⟨p.2, hp⟩)
      simpa using this
    by_cases hab : a = b
    · subst hab
      simp only [if_true]
      rw [Tree.nodes_merge hlt hT]
      simp [Tree.nodes, List.filter_cons, hfl l hbl, hfl r hbr]
    · simp only [hab, if_false, Tree.nodes, List.filter_append, List.filter_cons]
      have : ((b, v).1 != a) = true := by simpa using Ne.symm hab
      rw [this, ihl hT.2.2.1 hndl, ihr hT.2.2.2 hndr]
      simp

theorem Tree.Ordered.remove (hlt : StrictWeak lt) (a : Nat) {T : Tree α} (hT : T.Ordered lt)
    (hnd : T.addrs.Nodup) : (T.remove lt a).Ordered lt := by
  induction T with
  | nil => trivial
  | node l b v r ihl ihr =>
    obtain ⟨hndl, hndr, hbl, hbr, hlr⟩ := Tree.nodup_node.1 hnd
    simp only [Tree.remove]
    by_cases hab : a = b
    · subst hab
      simp only [if_true]
      exact Tree.Ordered.merge hlt hT
    · simp only [hab, if_false]
      obtain ⟨h1, h2, h3, h4⟩ := hT
      refine ⟨?_, ?_, ihl h3 hndl, ihr h4 hndr⟩
      · intro x hx
        apply h1
        simp only [Tree.inorder, Tree.nodes_remove hlt a h3 hndl, List.mem_map] at hx ⊢
        obtain ⟨p, hp, rfl⟩ := hx
        exact ⟨p, (List.mem_filter.1 hp).1, rfl⟩
      · intro x hx
        apply h2
        simp only [Tree.inorder, Tree.nodes_remove hlt a h4 hndr, List.mem_map] at hx ⊢
        obtain ⟨p, hp, rfl⟩ := hx
        exact ⟨p, (List.mem_filter.1 hp).1, rfl⟩

/-- In-order sequence of an ordered shape is non-decreasing. -/
theorem Tree.Ordered.sorted (hlt : StrictWeak lt) {T : Tree α} (hT : T.Ordered lt) :
    T.inorder.Pairwise (fun x y => lt y x = false) := by
  induction T with
  | nil => simp
  | node l a v r ihl ihr =>
    obtain ⟨h1, h2, h3, h4⟩ := hT
    simp only [Tree.inorder_node]
    rw [List.pairwise_append]
    refine ⟨ihl h3, List.pairwise_cons.2 ⟨h2, ihr h4⟩, ?_⟩
    intro x hx y hy
    rcases List.mem_cons.1 hy with rfl | hy
    · exact hlt.asymm _ _ (h1 x hx)
    · cases hyx : lt y x
      · rfl
      · have := hlt.trans hyx (h1 x hx)
        simp [h2 y hy] at this

/-! ## `insert` -/

theorem length_le_of_nodup_of_lt {l : List Nat} {n : Nat} (hnd : l.Nodup)
    (hb : ∀ a ∈ l, a < n) : l.length ≤ n := by
  have h1 : l.toFinset ⊆ Finset.range n := by
    intro a ha
    exact Finset.mem_range.2 (hb a (List.mem_toFinset.1 ha))
  have h2 := Finset.card_le_card h1
  rwa [List.toFinset_card_of_nodup hnd, Finset.card_range] at h2

theorem Models.card_lt_fuel {h : Heap α} {t : BinarySearchTree} {T : Tree α}
    (hm : Models lt h t T) : T.card < h.fuel := by
  have := length_le_of_nodup_of_lt hm.nodup hm.bound
  rw [Tree.length_addrs] at this
  simp only [Heap.fuel]
  omega

theorem Models.empty (lt : α → α → Bool) : Models lt (Heap.empty : Heap α) BinarySearchTree.empty .nil :=
  ⟨rfl, trivial, List.nodup_nil, trivial, rfl, by simp⟩

theorem Tree.card_eq_zero {T : Tree α} (h : T.card = 0) : T = .nil := by
  cases T with
  | nil => rfl
  | node l a v r => simp [Tree.card] at h

/-- Member `insert` returns, and the tree it leaves is well formed with the new node hung
where the descent for its value ends. -/
theorem insert_models {h : Heap α} {t : BinarySearchTree} {T : Tree α}
    (hm : Models lt h t T) (v : α) :
    ∃ h1 t1, insert lt h t v = some (h1, t1) ∧
      Models lt h1 t1 (Tree.attach lt v (.node .nil h.next v .nil) T) ∧
      h1.next = h.next + 1 ∧ ∀ i, i ∉ T.addrs → i ≠ h.next → h1.cell i = h.cell i := by
  have hfresh : h.next ∉ T.addrs := fun hmem => Nat.lt_irrefl _ (hm.bound _ hmem)
  have hcell : (h.alloc v).1.cell h.next = some ⟨v, none, none, none⟩ := by
    simp [Heap.alloc]
  have hother : ∀ i ∈ T.addrs, (h.alloc v).1.cell i = h.cell i := by
    intro i hi
    have : i ≠ h.next := fun e => hfresh (e ▸ hi)
    simp [Heap.alloc, this]
  have hrep1 : Rep (h.alloc v).1 none T := Rep.frame hother hm.rep
  have hsub : Rep (h.alloc v).1 none (Tree.node .nil h.next v .nil) :=
    ⟨hcell, trivial, trivial⟩
  have hsubnd : (Tree.node (.nil : Tree α) h.next v .nil).addrs.Nodup := by simp
  by_cases h0 : t.size_ = 0
  · have hT : T = .nil := Tree.card_eq_zero (hm.size ▸ h0)
    subst hT
    refine ⟨(h.alloc v).1, ⟨some h.next, t.size_ + 1⟩, ?_, ?_, rfl, ?_⟩
    rotate_right
    · intro i _ hi
      simp [Heap.alloc, hi]
    · simp [insert, InsertToSubtree, h0, Heap.alloc]
    · refine ⟨rfl, hsub, hsubnd, ?_, ?_, ?_⟩
      · simp [Tree.attach, Tree.Ordered]
      · simp [Tree.attach, Tree.card, h0]
      · simp [Tree.attach, Heap.alloc]
  · have hT : T ≠ .nil := by
      rintro rfl
      exact h0 hm.size
    have hfuel : T.card < (h.alloc v).1.fuel := by
      have := hm.card_lt_fuel
      simp only [Heap.fuel, Heap.alloc] at this ⊢
      omega
    obtain ⟨h2, hb, hrep2, hfr, hnx⟩ := Bind_attach lt hsub hsubnd T.ptr hT hrep1
      hm.nodup (fun i hi => ⟨fun e => hfresh (e ▸ hi), by simp, by simp⟩)
    refine ⟨h2, ⟨t.root_, t.size_ + 1⟩, ?_, ?_, ?_⟩
    · have hd := descend_slot lt v _ T.ptr hrep1 hfuel
      simp only [insert, InsertToSubtree, h0, if_false, Heap.read, hm.root,
        Option.bind_eq_bind, Option.some_bind]
      have hc2 : (h.alloc v).1.cell (h.alloc v).2 = some ⟨v, none, none, none⟩ := hcell
      simp only [hc2, Option.some_bind, hd]
      have hb2 : Bind lt (h.alloc v).1 (Tree.slot lt v T T.ptr) (some (h.alloc v).2)
          = some h2 := hb
      simp [hb2, hm.root]
    · refine ⟨?_, hrep2, ?_, ?_, ?_, ?_⟩
      · simp [Tree.attach_ptr v _ hT, hm.root]
      · refine (Tree.addrs_attach_perm v _ T).nodup_iff.2 ?_
        simp only [Tree.addrs_node, Tree.addrs_nil, List.nil_append]
        rw [List.nodup_append]
        refine ⟨hm.nodup, by simp, ?_⟩
        intro i hi hin
        simp only [List.mem_singleton] at hin
        exact hfresh (hin ▸ hi)
      · refine Tree.Ordered.attach hm.ordered (by simp [Tree.Ordered]) ?_
        intro x _ s hs
        simp only [Tree.inorder_node, Tree.inorder_nil, List.nil_append, List.mem_singleton] at hs
        rw [hs]
      · simp [Tree.card_attach, Tree.card, hm.size]
      · intro i hi
        rw [hnx]
        rcases List.mem_append.1 ((Tree.addrs_attach_perm v _ T).mem_iff.1 hi) with hi | hi
        · have := hm.bound i hi
          simp only [Heap.alloc]
          omega
        · simp only [Tree.addrs_node, Tree.addrs_nil, List.nil_append, List.mem_singleton] at hi
          simp [hi, Heap.alloc]
    · refine ⟨by rw [hnx]; rfl, ?_⟩
      intro i hi hin
      rw [hfr i hi hin]
      simp [Heap.alloc, hin]

/-! ## Iteration -/

theorem ascendIncr_mono {h : Heap α} {v : α} : ∀ {f g : Nat} {p res : Option Nat},
    ascendIncr lt h v f p = some res → f ≤ g → ascendIncr lt h v g p = some res := by
  intro f
  induction f with
  | zero => intro g p res hf; simp [ascendIncr] at hf
  | succ f ih =>
    intro g p res hf hg
    obtain ⟨g, rfl⟩ : ∃ k, g = k + 1 := ⟨g - 1, by omega⟩
    cases p with
    | none => simpa [ascendIncr] using hf
    | some a =>
      cases hc : h.cell a with
      | none => simp [ascendIncr, hc] at hf
      | some n =>
        simp only [ascendIncr, hc, Option.bind_eq_bind, Option.some_bind] at hf ⊢
        split at hf
        · rename_i hcond
          rw [if_pos hcond]
          exact ih hf (by omega)
        · rename_i hcond
          rw [if_neg hcond]
          exact hf

theorem split_at_node {β : Type} {A B pre post : List β} {c d : β}
    (h : A ++ c :: B = pre ++ d :: post) :
    (∃ m, A = pre ++ d :: m ∧ post = m ++ c :: B) ∨ (A = pre ∧ c = d ∧ B = post) ∨
      (∃ m, B = m ++ d :: post ∧ pre = A ++ c :: m) := by
  induction A generalizing pre with
  | nil =>
    cases pre with
    | nil =>
      simp only [List.nil_append, List.cons.injEq] at h
      exact Or.inr (Or.inl ⟨rfl, h.1, h.2⟩)
    | cons p pre =>
      simp only [List.nil_append, List.cons_append, List.cons.injEq] at h
      exact Or.inr (Or.inr ⟨pre, h.2, by simp [h.1]⟩)
  | cons x A ih =>
    cases pre with
    | nil =>
      simp only [List.nil_append, List.cons_append, List.cons.injEq] at h
      exact Or.inl ⟨A, by simp [h.1], h.2.symm⟩
    | cons p pre =>
      simp only [List.cons_append, List.cons.injEq] at h
      rcases ih h.2 with ⟨m, h1, h2⟩ | ⟨h1, h2, h3⟩ | ⟨m, h1, h2⟩
      · exact Or.inl ⟨m, by simp [h.1, h1], h2⟩
      · exact Or.inr (Or.inl ⟨by simp [h.1, h1], h2, h3⟩)
      · exact Or.inr (Or.inr ⟨m, h1, by simp [h.1, h2]⟩)

/-- Loop `while (p->left) p = p->left` ends on the first node of the in-order sequence. -/
theorem leftmost_head {h : Heap α} {T : Tree α} : ∀ {par : Option Nat} {a : Nat} (f : Nat),
    Rep h par T → T.ptr = some a → T.card ≤ f →
    ∃ p rest, T.nodes = p :: rest ∧ leftmost h f a = some p.1 := by
  induction T with
  | nil => intro _ _ _ _ hp; simp [Tree.ptr] at hp
  | node l b x r ihl _ =>
    intro par a f hrep hp hf
    simp only [Tree.ptr, Option.some.injEq] at hp
    subst hp
    obtain ⟨hc, hl, -⟩ := hrep
    simp only [Tree.card] at hf
    obtain ⟨f, rfl⟩ : ∃ k, f = k + 1 := ⟨f - 1, by omega⟩
    cases hlp : l.ptr with
    | none =>
      have := Tree.ptr_eq_none hlp
      subst this
      exact ⟨(b, x), r.nodes, by simp [Tree.nodes], by simp [leftmost, hc, Tree.ptr]⟩
    | some c =>
      obtain ⟨p, rest, hn, hlm⟩ := ihl f hl hlp (by omega)
      refine ⟨p, rest ++ (b, x) :: r.nodes, by simp [Tree.nodes, hn], ?_⟩
      simp [leftmost, hc, hlp, hlm]

/-- Ascent and descent of `operator++` inside a held shape: from the node at any position
of the in-order sequence the step reaches the node at the following position; from the
last position it leaves the shape through the shape's parent link. -/
theorem incr_step (hlt : StrictWeak lt) {h : Heap α} {T : Tree α} : ∀ {par : Option Nat},
    Rep h par T → T.Ordered lt → ∀ (pre : List (Nat × α)) (x : Nat) (v : α)
      (post : List (Nat × α)), T.nodes = pre ++ (x, v) :: post →
    ∃ n, h.cell x = some n ∧ n.value = v ∧
      (∀ y w post1, post = (y, w) :: post1 → ∀ f, T.card ≤ f →
        (match n.right with
          | some r => (leftmost h f r).map some
          | none => ascendIncr lt h v f (some x)) = some (some y)) ∧
      (post = [] → n.right = none ∧ ∀ f res, ascendIncr lt h v f par = some res →
        ascendIncr lt h v (f + T.card) (some x) = some res) := by
  induction T with
  | nil => intro _ _ _ pre x v post hn; simp at hn
  | node l a u r ihl ihr =>
    intro par hrep hord pre x v post hn
    obtain ⟨hc, hl, hr⟩ := hrep
    obtain ⟨h1, h2, h3, h4⟩ := hord
    simp only [Tree.nodes] at hn
    rcases split_at_node hn with ⟨m, hA, hpost⟩ | ⟨hA, hcd, hB⟩ | ⟨m, hB, hpre⟩
    · -- the position lies in the left subtree
      obtain ⟨n, hcx, hval, hsucc, hlast⟩ := ihl hl h3 pre x v m hA
      have hvl : lt v u = true := h1 v (by
        rw [Tree.mem_inorder_iff]; exact ⟨x, by rw [hA]; simp⟩)
      refine ⟨n, hcx, hval, ?_, ?_⟩
      · intro y w post1 hp f hf
        simp only [Tree.card] at hf
        cases m with
        | cons q m1 =>
          simp only [hpost, List.cons_append, List.cons.injEq] at hp
          exact hsucc y w m1 (by rw [← hp.1]) f (by omega)
        | nil =>
          simp only [hpost, List.nil_append, List.cons.injEq, Prod.mk.injEq] at hp
          obtain ⟨⟨rfl, rfl⟩, -⟩ := hp
          obtain ⟨hnr, hup⟩ := hlast rfl
          rw [hnr]
          have hstep : ascendIncr lt h v 1 (some a) = some (some a) := by
            simp [ascendIncr, hc, hvl]
          exact ascendIncr_mono (hup 1 _ hstep) (by omega)
      · intro hp
        rw [hpost] at hp
        simp at hp
    · -- the position is the root of the shape
      obtain ⟨rfl, rfl⟩ := Prod.mk.inj hcd
      refine ⟨_, hc, rfl, ?_, ?_⟩
      · intro y w post1 hp f hf
        simp only [Tree.card] at hf
        cases hrp : r.ptr with
        | none =>
          have := Tree.ptr_eq_none hrp
          subst this
          rw [← hB] at hp
          simp at hp
        | some b =>
          obtain ⟨p, rest, hrn, hlm⟩ := leftmost_head f hr hrp (by omega)
          rw [hB, hp] at hrn
          simp only [List.cons.injEq] at hrn
          simp [hlm, ← hrn.1]
      · intro hp
        rw [← hB] at hp
        have hr0 : r = .nil := by
          cases r with
          | nil => rfl
          | node rl b w rr => simp [Tree.nodes] at hp
        subst hr0
        refine ⟨rfl, ?_⟩
        intro f res hup
        have : f + (Tree.node l a u .nil).card = (f + l.card) + 1 := by
          simp [Tree.card]; omega
        rw [this]
        simp only [ascendIncr, hc, hlt.irrefl, Option.bind_eq_bind, Option.some_bind,
          Bool.not_false, if_true]
        exact ascendIncr_mono hup (by omega)
    · -- the position lies in the right subtree
      obtain ⟨n, hcx, hval, hsucc, hlast⟩ := ihr hr h4 m x v post hB
      have hvr : lt v u = false := h2 v (by
        rw [Tree.mem_inorder_iff]; exact ⟨x, by rw [hB]; simp⟩)
      refine ⟨n, hcx, hval, ?_, ?_⟩
      · intro y w post1 hp f hf
        simp only [Tree.card] at hf
        exact hsucc y w post1 hp f (by omega)
      · intro hp
        obtain ⟨hnr, hup⟩ := hlast hp
        refine ⟨hnr, ?_⟩
        intro f res hpar
        have hstep : ascendIncr lt h v (f + 1) (some a) = some res := by
          simp [ascendIncr, hc, hvr, hpar]
        exact ascendIncr_mono (hup _ _ hstep) (by simp only [Tree.card]; omega)

/-- Iterator `operator++` on a well-formed tree moves from any position of the in-order
sequence to the following one, and to `end()` from the last. -/
theorem incr_next (hlt : StrictWeak lt) {h : Heap α} {T : Tree α} (hrep : Rep h none T)
    (hord : T.Ordered lt) (hf : T.card < h.fuel) {pre post : List (Nat × α)} {x : Nat} {v : α}
    (hn : T.nodes = pre ++ (x, v) :: post) :
    (∃ n, h.cell x = some n ∧ n.value = v) ∧
      ConstIterator.incr lt h (some x) = some (post.head?.map Prod.fst) := by
  obtain ⟨n, hcx, hval, hsucc, hlast⟩ := incr_step hlt hrep hord pre x v post hn
  refine ⟨⟨n, hcx, hval⟩, ?_⟩
  simp only [ConstIterator.incr, Heap.read, Option.bind_eq_bind, Option.some_bind, hcx]
  cases post with
  | cons q post1 =>
    have := hsucc q.1 q.2 post1 rfl h.fuel (by omega)
    rw [hval]
    simpa using this
  | nil =>
    obtain ⟨hnr, hup⟩ := hlast rfl
    have h1 : ascendIncr lt h v 1 none = some none := by simp [ascendIncr]
    have := ascendIncr_mono (hup 1 none h1) (show 1 + T.card ≤ h.fuel by omega)
    simp [hnr, hval, this]

theorem begin_head {h : Heap α} {t : BinarySearchTree} {T : Tree α} (hm : Models lt h t T) :
    begin h t = some (T.nodes.head?.map Prod.fst) := by
  cases hp : T.ptr with
  | none =>
    have := Tree.ptr_eq_none hp
    subst this
    simp [begin, hm.root, Tree.ptr]
  | some a =>
    obtain ⟨p, rest, hn, hlm⟩ := leftmost_head h.fuel hm.rep hp (Nat.le_of_lt hm.card_lt_fuel)
    simp [begin, hm.root, hp, hlm, hn]

theorem to_vectorLoop_suffix (hlt : StrictWeak lt) {h : Heap α} {T : Tree α}
    (hrep : Rep h none T) (hord : T.Ordered lt) (hf : T.card < h.fuel) :
    ∀ (rest pre : List (Nat × α)) (acc : List α) (f : Nat), T.nodes = pre ++ rest →
      rest.length < f →
      to_vectorLoop lt h f (rest.head?.map Prod.fst) acc = some (acc ++ rest.map Prod.snd) := by
  intro rest
  induction rest with
  | nil =>
    intro pre acc f _ hlen
    obtain ⟨f, rfl⟩ : ∃ k, f = k + 1 := ⟨f - 1, by omega⟩
    simp [to_vectorLoop]
  | cons p rest ih =>
    intro pre acc f hn hlen
    obtain ⟨f, rfl⟩ : ∃ k, f = k + 1 := ⟨f - 1, by omega⟩
    obtain ⟨⟨n, hcx, hval⟩, hinc⟩ := incr_next hlt hrep hord hf (x := p.1) (v := p.2) hn
    simp only [List.head?_cons, Option.map_some', to_vectorLoop, hcx, hinc,
      Option.bind_eq_bind, Option.some_bind]
    rw [ih (pre ++ [p]) _ f (by simp [hn]) (by simp at hlen; omega)]
    simp [hval]

/-- Member `to_vector` returns the in-order sequence of the tree's shape. -/
theorem to_vector_models (hlt : StrictWeak lt) {h : Heap α} {t : BinarySearchTree}
    {T : Tree α} (hm : Models lt h t T) : to_vector lt h t = some T.inorder := by
  simp only [to_vector, begin_head hm, Option.bind_eq_bind, Option.some_bind]
  have := to_vectorLoop_suffix hlt hm.rep hm.ordered hm.card_lt_fuel T.nodes [] [] h.fuel
    (by simp) (by rw [Tree.length_nodes]; exact hm.card_lt_fuel)
  simpa [Tree.inorder] using this

/-! ## `find`, `contains`, `count` -/

theorem Rep.cell_of_mem {h : Heap α} {T : Tree α} : ∀ {par : Option Nat} {a : Nat} {x : α},
    Rep h par T → (a, x) ∈ T.nodes → ∃ n, h.cell a = some n ∧ n.value = x := by
  induction T with
  | nil => intro _ _ _ _ hm; simp at hm
  | node l b u r ihl ihr =>
    intro par a x hrep hm
    obtain ⟨hc, hl, hr⟩ := hrep
    simp only [Tree.nodes, List.mem_append, List.mem_cons, Prod.mk.injEq] at hm
    rcases hm with hm | ⟨rfl, rfl⟩ | hm
    · exact ihl hl hm
    · exact ⟨_, hc, rfl⟩
    · exact ihr hr hm

theorem findLoop_find (lt : α → α → Bool) {h : Heap α} (v : α) {T : Tree α} : ∀ {par : Option Nat} (f : Nat),
    Rep h par T → T.card < f → findLoop lt h v f T.ptr = some (T.find lt v) := by
  induction T with
  | nil =>
    intro par f _ hf
    obtain ⟨f, rfl⟩ : ∃ g, f = g + 1 := ⟨f - 1, by omega⟩
    simp [Tree.ptr, findLoop, Tree.find]
  | node l a x r ihl ihr =>
    intro par f hrep hf
    obtain ⟨f, rfl⟩ : ∃ g, f = g + 1 := ⟨f - 1, by omega⟩
    obtain ⟨hc, hl, hr⟩ := hrep
    simp only [Tree.card] at hf
    simp only [Tree.ptr, findLoop, hc, Option.bind_eq_bind, Option.some_bind, Tree.find]
    by_cases he : Equal lt x v = true
    · simp [he]
    · simp only [he, if_false]
      by_cases hv : lt v x = true
      · simp only [hv, if_true]
        exact ihl f hl (by omega)
      · simp only [hv, if_false]
        exact ihr f hr (by omega)

/-- Descent of `find` on an ordered shape: it stops on the first node of the in-order
sequence whose value is equivalent to `v` (everything before it is strictly less), or
finds nothing when no value is equivalent to `v`. -/
theorem Tree.find_spec (hlt : StrictWeak lt) (v : α) {T : Tree α} (hT : T.Ordered lt) :
    (∀ a, T.find lt v = some a → ∃ pre x post, T.nodes = pre ++ (a, x) :: post ∧
      Equal lt x v = true ∧ ∀ p ∈ pre, lt p.2 v = true) ∧
    (T.find lt v = none → ∀ p ∈ T.nodes, Equal lt p.2 v = false) := by
  induction T with
  | nil => simp [Tree.find]
  | node l b u r ihl ihr =>
    obtain ⟨h1, h2, h3, h4⟩ := hT
    have hl : ∀ p ∈ l.nodes, lt p.2 u = true :=
      fun p hp => h1 p.2 (Tree.mem_inorder_iff.2 ⟨p.1, hp⟩)
    have hr : ∀ p ∈ r.nodes, lt p.2 u = false :=
      fun p hp => h2 p.2 (Tree.mem_inorder_iff.2 ⟨p.1, hp⟩)
    simp only [Tree.find]
    by_cases he : Equal lt u v = true
    · simp only [he, if_true, Option.some.injEq, reduceCtorEq, false_implies, and_true]
      rintro a rfl
      refine ⟨l.nodes, u, r.nodes, rfl, he, ?_⟩
      intro p hp
      simp only [Equal, Bool.and_eq_true, Bool.not_eq_true'] at he
      exact hlt.lt_of_lt_of_not_lt (hl p hp) he.2
    · simp only [he, if_false]
      have he : Equal lt u v = false := by simpa using he
      by_cases hv : lt v u = true
      · simp only [hv, if_true]
        refine ⟨?_, ?_⟩
        · intro a ha
          obtain ⟨pre, x, post, hn, hx, hpre⟩ := (ihl h3).1 a ha
          exact ⟨pre, x, post ++ (b, u) :: r.nodes, by simp [Tree.nodes, hn], hx, hpre⟩
        · intro hnone p hp
          simp only [Tree.nodes, List.mem_append, List.mem_cons] at hp
          rcases hp with hp | rfl | hp
          · exact (ihl h3).2 hnone p hp
          · exact he
          · have : lt v p.2 = true := hlt.lt_of_lt_of_not_lt hv (hr p hp)
            simp [Equal, this]
      · have hv : lt v u = false := by simpa using hv
        have huv : lt u v = true := by
          simp only [Equal, hv, Bool.not_false, Bool.and_true, Bool.not_eq_false'] at he
          exact he
        simp only [hv, Bool.false_eq_true, if_false]
        refine ⟨?_, ?_⟩
        · intro a ha
          obtain ⟨pre, x, post, hn, hx, hpre⟩ := (ihr h4).1 a ha
          refine ⟨l.nodes ++ (b, u) :: pre, x, post, by simp [Tree.nodes, hn], hx, ?_⟩
          intro p hp
          simp only [List.mem_append, List.mem_cons] at hp
          rcases hp with hp | rfl | hp
          · exact hlt.trans (hl p hp) huv
          · exact huv
          · exact hpre p hp
        · intro hnone p hp
          simp only [Tree.nodes, List.mem_append, List.mem_cons] at hp
          rcases hp with hp | rfl | hp
          · have : lt p.2 v = true := hlt.trans (hl p hp) huv
            simp [Equal, this]
          · exact he
          · exact (ihr h4).2 hnone p hp

/-- Member `find` returns the node its descent stops on. -/
theorem find_models (hlt : StrictWeak lt) {h : Heap α} {t : BinarySearchTree} {T : Tree α}
    (hm : Models lt h t T) (v : α) : find lt h t v = some (T.find lt v) := by
  have hloop := findLoop_find lt v h.fuel hm.rep hm.card_lt_fuel
  simp only [find, hm.root, hloop, Option.bind_eq_bind, Option.some_bind]
  cases hf : T.find lt v with
  | none => rfl
  | some a =>
    obtain ⟨pre, x, post, hn, hx, -⟩ := (Tree.find_spec hlt v hm.ordered).1 a hf
    obtain ⟨n, hc, hval⟩ := hm.rep.cell_of_mem (a := a) (x := x) (by rw [hn]; simp)
    simp [hc, hval, hx]

theorem countLoop_suffix (hlt : StrictWeak lt) {h : Heap α} {T : Tree α} (v : α)
    (hrep : Rep h none T) (hord : T.Ordered lt) (hf : T.card < h.fuel) :
    ∀ (rest pre : List (Nat × α)) (k f : Nat), T.nodes = pre ++ rest → rest.length < f →
      countLoop lt h v f (rest.head?.map Prod.fst) k =
        some (k + ((rest.map Prod.snd).takeWhile (fun y => !lt v y)).length) := by
  intro rest
  induction rest with
  | nil =>
    intro pre k f _ hlen
    obtain ⟨f, rfl⟩ : ∃ g, f = g + 1 := ⟨f - 1, by omega⟩
    simp [countLoop]
  | cons p rest ih =>
    intro pre k f hn hlen
    obtain ⟨f, rfl⟩ : ∃ g, f = g + 1 := ⟨f - 1, by omega⟩
    obtain ⟨⟨n, hcx, hval⟩, hinc⟩ := incr_next hlt hrep hord hf (x := p.1) (v := p.2) hn
    simp only [List.head?_cons, Option.map_some', countLoop, hcx, hinc, hval,
      Option.bind_eq_bind, Option.some_bind, List.map_cons, List.takeWhile_cons]
    by_cases hv : lt v p.2 = true
    · simp [hv]
    · have hv : lt v p.2 = false := by simpa using hv
      simp only [hv, Bool.not_false, if_true]
      rw [ih (pre ++ [p]) _ f (by simp [hn]) (by simp at hlen; omega)]
      simp only [List.length_cons]
      congr 1
      omega

theorem takeWhile_eq_filter_of_sorted (hlt : StrictWeak lt) (v : α) :
    ∀ {L : List α}, L.Pairwise (fun x y => lt y x = false) →
      L.takeWhile (fun y => !lt v y) = L.filter (fun y => !lt v y) := by
  intro L
  induction L with
  | nil => intro _; rfl
  | cons x L ih =>
    intro hs
    obtain ⟨hx, hL⟩ := List.pairwise_cons.1 hs
    by_cases hv : lt v x = true
    · have : (x :: L).filter (fun y => !lt v y) = [] := by
        rw [List.filter_eq_nil_iff]
        intro y hy
        rcases List.mem_cons.1 hy with rfl | hy
        · simp [hv]
        · have := hlt.lt_of_lt_of_not_lt hv (hx y hy)
          simp [this]
      rw [this]
      simp [List.takeWhile_cons, hv]
    · have hv : lt v x = false := by simpa using hv
      simp [List.takeWhile_cons, List.filter_cons, hv, ih hL]

/-- Member `count` returns the number of elements equivalent to the value. -/
theorem count_models (hlt : StrictWeak lt) {h : Heap α} {t : BinarySearchTree} {T : Tree α}
    (hm : Models lt h t T) (v : α) :
    count lt h t v = some (T.inorder.countP (fun y => Equal lt y v)) := by
  simp only [count, find_models hlt hm, Option.bind_eq_bind, Option.some_bind]
  have hspec := Tree.find_spec hlt v hm.ordered
  cases hf : T.find lt v with
  | none =>
    have hnone := hspec.2 hf
    have : T.inorder.countP (fun y => Equal lt y v) = 0 := by
      rw [List.countP_eq_zero]
      intro y hy
      obtain ⟨a, ha⟩ := Tree.mem_inorder_iff.1 hy
      simpa using hnone _ ha
    rw [this]
    simp [countLoop, Heap.fuel]
  | some a =>
    obtain ⟨pre, x, post, hn, hx, hpre⟩ := hspec.1 a hf
    have hlen : ((a, x) :: post).length < h.fuel := by
      have h1 := hm.card_lt_fuel
      have h2 := Tree.length_nodes T
      rw [hn] at h2
      simp only [List.length_append] at h2
      omega
    have hloop := countLoop_suffix hlt v hm.rep hm.ordered hm.card_lt_fuel
      ((a, x) :: post) pre 0 h.fuel hn hlen
    simp only [List.head?_cons, Option.map_some'] at hloop
    rw [hloop]
    congr 1
    have hsorted := hm.ordered.sorted hlt
    have hin : T.inorder = pre.map Prod.snd ++ ((a, x) :: post).map Prod.snd := by
      simp [Tree.inorder, hn]
    rw [hin] at hsorted ⊢
    obtain ⟨-, hs2, hs3⟩ := List.pairwise_append.1 hsorted
    rw [takeWhile_eq_filter_of_sorted hlt v hs2, List.countP_append, Nat.zero_add]
    have hpre0 : (pre.map Prod.snd).countP (fun y => Equal lt y v) = 0 := by
      rw [List.countP_eq_zero]
      intro y hy
      obtain ⟨p, hp, rfl⟩ := List.mem_map.1 hy
      simp [Equal, hpre p hp]
    rw [hpre0, Nat.zero_add, List.countP_eq_length_filter]
    congr 1
    apply List.filter_congr
    intro y hy
    have hxy : lt y x = false := by
      simp only [List.map_cons, List.mem_cons] at hy
      rcases hy with rfl | hy
      · exact hlt.irrefl _
      · exact (List.pairwise_cons.1 hs2).1 y hy
    have hyv : lt y v = false := by
      simp only [Equal, Bool.and_eq_true, Bool.not_eq_true'] at hx
      exact hlt.negTrans y x v hxy hx.1
    simp [Equal, hyv]

/-! ## `Detach` and `erase` -/

/-- Call `InsertToSubtree(root, node)` on a non-empty tree: the shape rooted at `node` is
hung below the shape rooted at `root`, on the link the descent for its value reaches. -/
theorem InsertToSubtree_attach (lt : α → α → Bool) {h : Heap α} {t : BinarySearchTree} {sl sr : Tree α} {n : Nat}
    {v : α} {q : Option Nat} (hsub : Rep h q (.node sl n v sr))
    (hsn : (Tree.node sl n v sr).addrs.Nodup) {T : Tree α} {par : Option Nat}
    (hT : T ≠ .nil) (hrep : Rep h par T) (hnd : T.addrs.Nodup)
    (hdj : ∀ i ∈ T.addrs, i ≠ n ∧ i ∉ sl.addrs ∧ i ∉ sr.addrs) (hsz : t.size_ ≠ 0)
    (hf : T.card < h.fuel) :
    ∃ h1, InsertToSubtree lt h t T.ptr (some n) = some (h1, t) ∧
      Rep h1 par (Tree.attach lt v (.node sl n v sr) T) ∧
      (∀ i, i ∉ T.addrs → i ≠ n → h1.cell i = h.cell i) ∧ h1.next = h.next := by
  obtain ⟨h1, hb, hrep1, hfr, hnx⟩ := Bind_attach lt hsub hsn T.ptr hT hrep hnd hdj
  refine ⟨h1, ?_, hrep1, hfr, hnx⟩
  have hd := descend_slot lt v h.fuel T.ptr hrep hf
  simp [InsertToSubtree, hsz, Heap.read, hsub.1, hd, hb]

theorem Tree.remove_of_not_mem (a : Nat) {T : Tree α} (ha : a ∉ T.addrs) :
    T.remove lt a = T := by
  induction T with
  | nil => rfl
  | node l b v r ihl ihr =>
    simp only [Tree.addrs_node, List.mem_append, List.mem_cons, not_or] at ha
    simp [Tree.remove, ha.2.1, ihl ha.1, ihr ha.2.2]

theorem Tree.remove_ptr_of_ne (a : Nat) {T : Tree α} (ha : T.ptr ≠ some a) :
    (T.remove lt a).ptr = T.ptr := by
  cases T with
  | nil => rfl
  | node l b v r =>
    have : a ≠ b := fun e => ha (by simp [Tree.ptr, e])
    simp [Tree.remove, this, Tree.ptr]

theorem Tree.merge_ptr (l r : Tree α) :
    (Tree.merge lt l r).ptr = if l.ptr.isSome then l.ptr else r.ptr := by
  cases l with
  | nil => cases r <;> simp [Tree.merge, Tree.ptr]
  | node ll c u lr =>
    cases r with
    | nil => simp [Tree.merge, Tree.ptr]
    | node rl b w rr =>
      simp only [Tree.merge]
      rw [Tree.attach_ptr _ _ (by simp)]
      simp [Tree.ptr]

theorem Detach_unlink_root {h : Heap α} {a : Nat} {n : TreeNode α} (hn : h.cell a = some n)
    (hp : n.parent = none) : Detach.unlink h a = some h := by
  simp [Detach.unlink, hn, hp]

theorem Detach_unlink_child {h : Heap α} {a p : Nat} {n pn : TreeNode α}
    (hn : h.cell a = some n) (hp : n.parent = some p) (hpn : h.cell p = some pn)
    (isLeft : Bool) (hslot : pn.left = some a ↔ isLeft = true) :
    Detach.unlink h a = some (h.write p (if isLeft then ⟨pn.value, none, pn.right, pn.parent⟩
      else ⟨pn.value, pn.left, none, pn.parent⟩)) := by
  cases isLeft with
  | true =>
    have := hslot.2 rfl
    simp [Detach.unlink, hn, hp, hpn, this, Heap.setLeft]
  | false =>
    have : pn.left ≠ some a := fun e => by simpa using hslot.1 e
    simp [Detach.unlink, hn, hp, hpn, this, Heap.setRight]

theorem Detach_splice_child (lt : α → α → Bool) {h : Heap α} {t : BinarySearchTree} {a p c : Nat}
    {n pn cn : TreeNode α} (hn : h.cell a = some n) (hp : n.parent = some p)
    (hch : (if n.left.isSome then n.left else n.right) = some c)
    (hpn : h.cell p = some pn) (hcn : h.cell c = some cn) (hcp : c ≠ p)
    (hroot : some a ≠ t.root_) :
    Detach.splice lt h t a = some
      ((h.write p (if lt cn.value pn.value then ⟨pn.value, some c, pn.right, pn.parent⟩
        else ⟨pn.value, pn.left, some c, pn.parent⟩)).write c
          ⟨cn.value, cn.left, cn.right, some p⟩, t) := by
  simp only [Detach.splice, hn, Option.bind_eq_bind, Option.some_bind, hroot, if_false, hch,
    hp]
  rw [Bind_cells hpn hcn hcp]
  rfl

theorem Detach_splice_root (lt : α → α → Bool) {h : Heap α} {t : BinarySearchTree} {a c : Nat}
    {n cn : TreeNode α} (hn : h.cell a = some n)
    (hch : (if n.left.isSome then n.left else n.right) = some c)
    (hcn : h.cell c = some cn) (hroot : some a = t.root_) :
    Detach.splice lt h t a = some
      (h.write c ⟨cn.value, cn.left, cn.right, none⟩, ⟨some c, t.size_⟩) := by
  simp [Detach.splice, hn, hroot, hch, Heap.setParent, hcn]

theorem Detach_reinsert_single {h : Heap α} {t : BinarySearchTree} {a : Nat}
    {n : TreeNode α} (hn : h.cell a = some n) (h1 : n.left = none ∨ n.right = none) :
    Detach.reinsert lt h t a = some (h, t) := by
  rcases h1 with h1 | h1 <;> simp [Detach.reinsert, hn, h1]

theorem Detach_reinsert_both {h : Heap α} {t : BinarySearchTree} {a c b : Nat}
    {n : TreeNode α} (hn : h.cell a = some n) (h1 : n.left = some c) (h2 : n.right = some b) :
    Detach.reinsert lt h t a = InsertToSubtree lt h t (some c) (some b) := by
  simp [Detach.reinsert, hn, h1, h2]

/-- Last block of `Detach`, once the child has taken the place of the node: the store
holds the merged shape below the node's former parent link. -/
theorem Detach_reinsert_merge (lt : α → α → Bool) (pa : Option Nat) {h2 : Heap α}
    {t : BinarySearchTree} {l r : Tree α} {a : Nat} {v : α} {pa1 : Option Nat}
    (hca : h2.cell a = some ⟨v, l.ptr, r.ptr, pa1⟩)
    (hnd : (Tree.node l a v r).addrs.Nodup)
    (hC : l ≠ .nil → Rep h2 pa l) (hC1 : l = .nil → Rep h2 pa r)
    (hR : l ≠ .nil → Rep h2 (some a) r) (hsz : t.size_ ≠ 0) (hf : l.card < h2.fuel) :
    ∃ h3, Detach.reinsert lt h2 t a = some (h3, t) ∧ Rep h3 pa (Tree.merge lt l r) ∧
      (∀ i, i ∉ l.addrs → i ∉ r.addrs → h3.cell i = h2.cell i) ∧ h3.next = h2.next := by
  obtain ⟨hndl, hndr, hal, har, hlr⟩ := Tree.nodup_node.1 hnd
  cases l with
  | nil =>
    refine ⟨h2, Detach_reinsert_single hca (Or.inl rfl), ?_, fun _ _ _ => rfl, rfl⟩
    cases r with
    | nil => trivial
    | node rl b w rr => simpa [Tree.merge] using hC1 rfl
  | node ll c u lr =>
    cases r with
    | nil =>
      exact ⟨h2, Detach_reinsert_single hca (Or.inr rfl), by simpa [Tree.merge] using hC (by simp),
        fun _ _ _ => rfl, rfl⟩
    | node rl b w rr =>
      rw [Detach_reinsert_both hca rfl rfl]
      have hdj : ∀ i ∈ (Tree.node ll c u lr).addrs, i ≠ b ∧ i ∉ rl.addrs ∧ i ∉ rr.addrs := by
        intro i hi
        have := hlr i hi
        simp only [Tree.addrs_node, List.mem_append, List.mem_cons, not_or] at this
        exact ⟨this.2.1, this.1, this.2.2⟩
      obtain ⟨h3, hins, hrep3, hfr, hnx⟩ := InsertToSubtree_attach lt (t := t)
        (hR (by simp)) hndr (T := Tree.node ll c u lr) (by simp) (hC (by simp)) hndl hdj hsz hf
      refine ⟨h3, hins, by simpa [Tree.merge] using hrep3, ?_, hnx⟩
      intro i hil hir
      exact hfr i hil (fun e => hir (by simp [e]))

/-- Shape that takes the node's place first: the left subtree when there is one, else the
right subtree. -/
theorem child_cases (l r : Tree α) (hne : ¬(l = .nil ∧ r = .nil)) :
    ∃ cl c cv cr, (if l.ptr.isSome then l.ptr else r.ptr) = some c ∧
      ((l = .node cl c cv cr) ∨ (l = .nil ∧ r = .node cl c cv cr)) := by
  cases l with
  | nil =>
    cases r with
    | nil => exact absurd ⟨rfl, rfl⟩ hne
    | node rl b w rr => exact ⟨rl, b, w, rr, by simp [Tree.ptr], Or.inr ⟨rfl, rfl⟩⟩
  | node ll c u lr => exact ⟨ll, c, u, lr, by simp [Tree.ptr], Or.inl rfl⟩

/-- Function `Detach` on a node that has a parent: the node's place in the parent is taken
by the merged shape of its subtrees; nothing else changes. -/
theorem Detach_at_child (lt : α → α → Bool) {h : Heap α} {t : BinarySearchTree}
    {l r : Tree α} {a p : Nat} {v : α} {pn : TreeNode α}
    (hca : h.cell a = some ⟨v, l.ptr, r.ptr, some p⟩)
    (hl : Rep h (some a) l) (hr : Rep h (some a) r)
    (hnd : (Tree.node l a v r).addrs.Nodup)
    (hcp : h.cell p = some pn) (hpa : p ∉ (Tree.node l a v r).addrs)
    (hroot : some a ≠ t.root_) (hsz : t.size_ ≠ 0) (hf : (Tree.node l a v r).card < h.fuel)
    (isLeft : Bool) (hslot : pn.left = some a ↔ isLeft = true)
    (hcmp : ∀ x ∈ (Tree.node l a v r).inorder, lt x pn.value = isLeft) :
    ∃ h3, Detach lt h t (some a) = some (h3, t, some a) ∧
      Rep h3 (some p) (Tree.merge lt l r) ∧
      h3.cell p = some (if isLeft then ⟨pn.value, (Tree.merge lt l r).ptr, pn.right, pn.parent⟩
        else ⟨pn.value, pn.left, (Tree.merge lt l r).ptr, pn.parent⟩) ∧
      (∀ i, i ≠ p → i ∉ l.addrs → i ∉ r.addrs → h3.cell i = h.cell i) ∧
      h3.next = h.next := by
  obtain ⟨hndl, hndr, hal, har, hlr⟩ := Tree.nodup_node.1 hnd
  simp only [Tree.addrs_node, List.mem_append, List.mem_cons, not_or] at hpa
  obtain ⟨hpl, hpa1, hpr⟩ := hpa
  have hap : a ≠ p := Ne.symm hpa1
  have hun := Detach_unlink_child hca rfl hcp isLeft hslot
  have hca1 : ∀ X, (h.write p X).cell a = some ⟨v, l.ptr, r.ptr, some p⟩ := by
    intro X; rw [Heap.write_cell_ne _ _ hap, hca]
  by_cases hleaf : l = .nil ∧ r = .nil
  · obtain ⟨rfl, rfl⟩ := hleaf
    refine ⟨h.write p (if isLeft then ⟨pn.value, none, pn.right, pn.parent⟩
      else ⟨pn.value, pn.left, none, pn.parent⟩), ?_, trivial, ?_, ?_, rfl⟩
    · simp only [Detach, hun, Option.bind_eq_bind, Option.some_bind, hca1]
      simp [Tree.ptr, hroot]
    · cases isLeft <;> simp [Tree.merge, Tree.ptr]
    · intro i hip _ _
      exact Heap.write_cell_ne _ _ hip
  · obtain ⟨cl, c, cv, cr, hch, hC⟩ := child_cases l r hleaf
    have hCrep : Rep h (some a) (.node cl c cv cr) := by
      rcases hC with rfl | ⟨-, rfl⟩
      · exact hl
      · exact hr
    have hcmem : c ∈ l.addrs ∨ c ∈ r.addrs := by
      rcases hC with rfl | ⟨-, rfl⟩
      · exact Or.inl (by simp)
      · exact Or.inr (by simp)
    have hCnd : (Tree.node cl c cv cr).addrs.Nodup := by
      rcases hC with rfl | ⟨-, rfl⟩
      · exact hndl
      · exact hndr
    have hcp1 : c ≠ p := by
      rintro rfl
      rcases hcmem with hm | hm
      · exact hpl hm
      · exact hpr hm
    have hca2 : c ≠ a := by
      rintro rfl
      rcases hcmem with hm | hm
      · exact hal hm
      · exact har hm
    have hcv : lt cv pn.value = isLeft := by
      apply hcmp
      rcases hC with rfl | ⟨-, rfl⟩ <;> simp
    have hcc : ∀ X, (h.write p X).cell c = some ⟨cv, cl.ptr, cr.ptr, some a⟩ := by
      intro X; rw [Heap.write_cell_ne _ _ hcp1, hCrep.1]
    obtain ⟨pn0, hpn0⟩ : ∃ X : TreeNode α, X = (if isLeft then
        ⟨pn.value, none, pn.right, pn.parent⟩ else ⟨pn.value, pn.left, none, pn.parent⟩) :=
      ⟨_, rfl⟩
    rw [← hpn0] at hun
    obtain ⟨pn1, hpn1⟩ : ∃ X : TreeNode α, X = (if lt cv pn0.value then
        ⟨pn0.value, some c, pn0.right, pn0.parent⟩
        else ⟨pn0.value, pn0.left, some c, pn0.parent⟩) := ⟨_, rfl⟩
    have hpn1eq : pn1 = (if isLeft then ⟨pn.value, some c, pn.right, pn.parent⟩
        else ⟨pn.value, pn.left, some c, pn.parent⟩) := by
      rw [hpn1, hpn0]
      cases isLeft <;> simp [hcv]
    have hsp : Detach.splice lt (h.write p pn0) t a = some
        ((h.write p pn0).write p pn1 |>.write c ⟨cv, cl.ptr, cr.ptr, some p⟩, t) := by
      rw [hpn1]
      exact Detach_splice_child lt (t := t) (hca1 pn0) rfl
        (by simpa using hch) (Heap.write_cell_same h p pn0) (hcc pn0) hcp1 hroot
    obtain ⟨-, -, hccl, hccr, -⟩ := Tree.nodup_node.1 hCnd
    have hw2 : ∀ i, i ≠ p → ((h.write p pn0).write p pn1).cell i = h.cell i := by
      intro i hi
      rw [Heap.write_cell_ne _ _ hi, Heap.write_cell_ne _ _ hi]
    have hCrep2 : Rep (((h.write p pn0).write p pn1).write c ⟨cv, cl.ptr, cr.ptr, some p⟩)
        (some p) (.node cl c cv cr) := by
      refine Rep.reparent (some p) (Rep.frame ?_ hCrep) hccl hccr
      intro i hi
      apply hw2
      rintro rfl
      rcases hC with rfl | ⟨-, rfl⟩
      · exact hpl hi
      · exact hpr hi
    have hca3 : (((h.write p pn0).write p pn1).write c ⟨cv, cl.ptr, cr.ptr, some p⟩).cell a
        = some ⟨v, l.ptr, r.ptr, some p⟩ := by
      rw [Heap.write_cell_ne _ _ (Ne.symm hca2), hw2 a hap, hca]
    obtain ⟨h3, hre, hrep3, hfr, hnx⟩ := Detach_reinsert_merge lt (some p) (t := t)
      hca3 hnd
      (fun hl0 => by
        rcases hC with rfl | ⟨rfl, -⟩
        · exact hCrep2
        · exact absurd rfl hl0)
      (fun hl0 => by
        rcases hC with rfl | ⟨-, rfl⟩
        · exact absurd hl0 (by simp)
        · exact hCrep2)
      (fun hl0 => by
        rcases hC with rfl | ⟨rfl, -⟩
        · refine Rep.frame ?_ hr
          intro i hi
          rw [Heap.write_cell_ne, hw2]
          · rintro rfl; exact hpr hi
          · rintro rfl; exact hlr _ (by simp) hi
        · exact absurd rfl hl0)
      hsz (by simp only [Tree.card] at hf; simp only [Heap.fuel] at hf ⊢; simp; omega)
    refine ⟨h3, ?_, hrep3, ?_, ?_, ?_⟩
    · simp only [Detach, hun, Option.bind_eq_bind, Option.some_bind, hca1]
      have hnl : ¬(l.ptr = none ∧ r.ptr = none) := fun ⟨e1, e2⟩ =>
        hleaf ⟨Tree.ptr_eq_none e1, Tree.ptr_eq_none e2⟩
      simp only [hnl, if_false, hsp, Option.some_bind, hre]
    · rw [hfr p hpl hpr, Heap.write_cell_ne _ _ (Ne.symm hcp1), Heap.write_cell_same,
        Tree.merge_ptr, hch, hpn1eq]
    · intro i hip hil hir
      rw [hfr i hil hir, Heap.write_cell_ne, hw2 i hip]
      rintro rfl
      rcases hcmem with hm | hm
      · exact hil hm
      · exact hir hm
    · rw [hnx]; rfl

/-- Function `Detach` on the root node: the merged shape of its subtrees becomes the tree. -/
theorem Detach_at_root (lt : α → α → Bool) {h : Heap α} {t : BinarySearchTree} {l r : Tree α} {a : Nat} {v : α}
    (hca : h.cell a = some ⟨v, l.ptr, r.ptr, none⟩)
    (hl : Rep h (some a) l) (hr : Rep h (some a) r)
    (hnd : (Tree.node l a v r).addrs.Nodup)
    (hroot : some a = t.root_) (hsz : t.size_ ≠ 0) (hf : (Tree.node l a v r).card < h.fuel) :
    ∃ h3, Detach lt h t (some a) = some (h3, ⟨(Tree.merge lt l r).ptr, t.size_⟩, some a) ∧
      Rep h3 none (Tree.merge lt l r) ∧
      (∀ i, i ∉ l.addrs → i ∉ r.addrs → h3.cell i = h.cell i) ∧ h3.next = h.next := by
  obtain ⟨hndl, hndr, hal, har, hlr⟩ := Tree.nodup_node.1 hnd
  have hun := Detach_unlink_root hca rfl
  by_cases hleaf : l = .nil ∧ r = .nil
  · obtain ⟨rfl, rfl⟩ := hleaf
    refine ⟨h, ?_, trivial, fun _ _ _ => rfl, rfl⟩
    simp only [Detach, hun, Option.bind_eq_bind, Option.some_bind, hca]
    simp [Tree.ptr, hroot, Tree.merge]
  · obtain ⟨cl, c, cv, cr, hch, hC⟩ := child_cases l r hleaf
    have hCrep : Rep h (some a) (.node cl c cv cr) := by
      rcases hC with rfl | ⟨-, rfl⟩
      · exact hl
      · exact hr
    have hcmem : c ∈ l.addrs ∨ c ∈ r.addrs := by
      rcases hC with rfl | ⟨-, rfl⟩
      · exact Or.inl (by simp)
      · exact Or.inr (by simp)
    have hCnd : (Tree.node cl c cv cr).addrs.Nodup := by
      rcases hC with rfl | ⟨-, rfl⟩
      · exact hndl
      · exact hndr
    have hca2 : c ≠ a := by
      rintro rfl
      rcases hcmem with hm | hm
      · exact hal hm
      · exact har hm
    have hsp : Detach.splice lt h t a = some
        (h.write c ⟨cv, cl.ptr, cr.ptr, none⟩, ⟨some c, t.size_⟩) :=
      Detach_splice_root lt hca (by simpa using hch) hCrep.1 hroot
    obtain ⟨-, -, hccl, hccr, -⟩ := Tree.nodup_node.1 hCnd
    have hCrep2 : Rep (h.write c ⟨cv, cl.ptr, cr.ptr, none⟩) none (.node cl c cv cr) :=
      Rep.reparent none hCrep hccl hccr
    have hca3 : (h.write c ⟨cv, cl.ptr, cr.ptr, none⟩).cell a
        = some ⟨v, l.ptr, r.ptr, none⟩ := by
      rw [Heap.write_cell_ne _ _ (Ne.symm hca2), hca]
    obtain ⟨h3, hre, hrep3, hfr, hnx⟩ := Detach_reinsert_merge lt none
      (t := ⟨some c, t.size_⟩) hca3 hnd
      (fun hl0 => by
        rcases hC with rfl | ⟨rfl, -⟩
        · exact hCrep2
        · exact absurd rfl hl0)
      (fun hl0 => by
        rcases hC with rfl | ⟨-, rfl⟩
        · exact absurd hl0 (by simp)
        · exact hCrep2)
      (fun hl0 => by
        rcases hC with rfl | ⟨rfl, -⟩
        · refine Rep.frame ?_ hr
          intro i hi
          rw [Heap.write_cell_ne]
          rintro rfl; exact hlr _ (by simp) hi
        · exact absurd rfl hl0)
      hsz (by simp only [Tree.card] at hf; simp only [Heap.fuel] at hf ⊢; simp; omega)
    refine ⟨h3, ?_, hrep3, ?_, ?_⟩
    · simp only [Detach, hun, Option.bind_eq_bind, Option.some_bind, hca]
      have hnl : ¬(l.ptr = none ∧ r.ptr = none) := fun ⟨e1, e2⟩ =>
        hleaf ⟨Tree.ptr_eq_none e1, Tree.ptr_eq_none e2⟩
      simp only [hnl, if_false, hsp, Option.some_bind, hre, Tree.merge_ptr, hch]
    · intro i hil hir
      rw [hfr i hil hir, Heap.write_cell_ne]
      rintro rfl
      rcases hcmem with hm | hm
      · exact hil hm
      · exact hir hm
    · rw [hnx]; rfl

/-- Function `Detach` on a node below the root of a held ordered shape: the store then holds
the shape with that node removed, and nothing outside the shape changes. -/
theorem Detach_inner (lt : α → α → Bool) {h : Heap α} {t : BinarySearchTree} {a : Nat}
    (hroot : some a ≠ t.root_) (hsz : t.size_ ≠ 0) {T : Tree α} : ∀ {par : Option Nat},
    Rep h par T → T.addrs.Nodup → T.Ordered lt → T.card < h.fuel → a ∈ T.addrs →
    T.ptr ≠ some a →
    ∃ h3, Detach lt h t (some a) = some (h3, t, some a) ∧ Rep h3 par (T.remove lt a) ∧
      (∀ i, i ∉ T.addrs → h3.cell i = h.cell i) ∧ h3.next = h.next := by
  induction T with
  | nil => intro _ _ _ _ _ ha; simp at ha
  | node L b w R ihL ihR =>
    intro par hrep hnd hord hf ha hptr
    obtain ⟨hcb, hL, hR⟩ := hrep
    obtain ⟨hndL, hndR, hbL, hbR, hLR⟩ := Tree.nodup_node.1 hnd
    obtain ⟨ho1, ho2, ho3, ho4⟩ := hord
    have hab : a ≠ b := fun e => hptr (by simp [Tree.ptr, e])
    simp only [Tree.card] at hf
    simp only [Tree.addrs_node, List.mem_append, List.mem_cons, hab, false_or] at ha
    simp only [Tree.remove, hab, if_false]
    rcases ha with ha | ha
    · -- the node lies in the left subtree
      have haR : a ∉ R.addrs := hLR a ha
      rw [Tree.remove_of_not_mem a haR]
      by_cases hp : L.ptr = some a
      · obtain ⟨l, v, r, rfl, hca⟩ := hL.cell_of_ptr hp
        obtain ⟨h3, hd, hrep3, hcb3, hfr, hnx⟩ := Detach_at_child lt (t := t) hca
          hL.2.1 hL.2.2 hndL hcb hbL hroot hsz (by omega) true (by simp [Tree.ptr])
          (by simpa using ho1)
        refine ⟨h3, hd, ⟨?_, ?_, ?_⟩, ?_, hnx⟩
        · simpa [Tree.remove] using hcb3
        · simpa [Tree.remove] using hrep3
        · refine Rep.frame ?_ hR
          intro i hi
          have hiL : i ∉ (Tree.node l a v r).addrs := fun hm => hLR i hm hi
          simp only [Tree.addrs_node, List.mem_append, List.mem_cons, not_or] at hiL
          exact hfr i (fun e => hbR (e ▸ hi)) hiL.1 hiL.2.2
        · intro i hi
          simp only [Tree.addrs_node, List.mem_append, List.mem_cons, not_or] at hi
          exact hfr i hi.2.1 hi.1.1 hi.1.2.2
      · obtain ⟨h3, hd, hrep3, hfr, hnx⟩ := ihL hL hndL ho3 (by omega) ha hp
        refine ⟨h3, hd, ⟨?_, hrep3, ?_⟩, ?_, hnx⟩
        · rw [hfr b hbL, hcb, Tree.remove_ptr_of_ne a hp]
        · refine Rep.frame ?_ hR
          intro i hi
          exact hfr i (fun hm => hLR i hm hi)
        · intro i hi
          simp only [Tree.addrs_node, List.mem_append, List.mem_cons, not_or] at hi
          exact hfr i hi.1
    · -- the node lies in the right subtree
      have haL : a ∉ L.addrs := fun hm => hLR a hm ha
      rw [Tree.remove_of_not_mem a haL]
      by_cases hp : R.ptr = some a
      · obtain ⟨l, v, r, rfl, hca⟩ := hR.cell_of_ptr hp
        have hLp : L.ptr ≠ some a := fun e => haL (Tree.ptr_mem_addrs e)
        obtain ⟨h3, hd, hrep3, hcb3, hfr, hnx⟩ := Detach_at_child lt (t := t) hca
          hR.2.1 hR.2.2 hndR hcb hbR hroot hsz (by omega) false (by simpa using hLp)
          (by simpa using ho2)
        refine ⟨h3, hd, ⟨?_, ?_, ?_⟩, ?_, hnx⟩
        · simpa [Tree.remove] using hcb3
        · refine Rep.frame ?_ hL
          intro i hi
          have hiR : i ∉ (Tree.node l a v r).addrs := hLR i hi
          simp only [Tree.addrs_node, List.mem_append, List.mem_cons, not_or] at hiR
          exact hfr i (fun e => hbL (e ▸ hi)) hiR.1 hiR.2.2
        · simpa [Tree.remove] using hrep3
        · intro i hi
          simp only [Tree.addrs_node, List.mem_append, List.mem_cons, not_or] at hi
          exact hfr i hi.2.1 hi.2.2.1 hi.2.2.2.2
      · obtain ⟨h3, hd, hrep3, hfr, hnx⟩ := ihR hR hndR ho4 (by omega) ha hp
        refine ⟨h3, hd, ⟨?_, ?_, hrep3⟩, ?_, hnx⟩
        · rw [hfr b hbR, hcb, Tree.remove_ptr_of_ne a hp]
        · refine Rep.frame ?_ hL
          intro i hi
          exact hfr i (hLR i hi)
        · intro i hi
          simp only [Tree.addrs_node, List.mem_append, List.mem_cons, not_or] at hi
          exact hfr i hi.2.2

/-! ## `erase` keeps the tree well formed -/

theorem Tree.addrs_remove (hlt : StrictWeak lt) (a : Nat) {T : Tree α} (hT : T.Ordered lt)
    (hnd : T.addrs.Nodup) : (T.remove lt a).addrs = T.addrs.filter (fun i => i != a) := by
  simp only [Tree.addrs, Tree.nodes_remove hlt a hT hnd, List.filter_map]
  rfl

theorem Tree.nodes_remove_split (hlt : StrictWeak lt) {a : Nat} {x : α} {T : Tree α}
    (hT : T.Ordered lt) (hnd : T.addrs.Nodup) {pre post : List (Nat × α)}
    (hn : T.nodes = pre ++ (a, x) :: post) : (T.remove lt a).nodes = pre ++ post := by
  rw [Tree.nodes_remove hlt a hT hnd, hn]
  simp only [Tree.addrs, hn, List.map_append, List.map_cons] at hnd
  have h1 := List.nodup_append.1 hnd
  have h2 := List.nodup_cons.1 h1.2.1
  have hpre : ∀ p ∈ pre, p.1 ≠ a := by
    intro p hp e
    exact h1.2.2 (List.mem_map_of_mem Prod.fst hp) (by simp [e])
  have hpost : ∀ p ∈ post, p.1 ≠ a := by
    intro p hp e
    exact h2.1 (e ▸ List.mem_map_of_mem Prod.fst hp)
  rw [List.filter_append, List.filter_cons]
  simp only [bne_self_eq_false, Bool.false_eq_true, if_false]
  congr 1
  · rw [List.filter_eq_self]
    intro p hp
    simpa using hpre p hp
  · rw [List.filter_eq_self]
    intro p hp
    simpa using hpost p hp

theorem Tree.exists_split_of_mem {T : Tree α} {a : Nat} (ha : a ∈ T.addrs) :
    ∃ pre x post, T.nodes = pre ++ (a, x) :: post := by
  obtain ⟨x, hx⟩ := Tree.mem_addrs_iff.1 ha
  obtain ⟨pre, post, h⟩ := List.append_of_mem hx
  exact ⟨pre, x, post, h⟩

theorem Tree.card_remove (hlt : StrictWeak lt) {a : Nat} {T : Tree α} (hT : T.Ordered lt)
    (hnd : T.addrs.Nodup) (ha : a ∈ T.addrs) : (T.remove lt a).card + 1 = T.card := by
  obtain ⟨pre, x, post, hn⟩ := Tree.exists_split_of_mem ha
  rw [← Tree.length_nodes, ← Tree.length_nodes, Tree.nodes_remove_split hlt hT hnd hn, hn]
  simp only [List.length_append, List.length_cons]
  omega

/-- Member `erase(iter)` on a position of the tree returns, and leaves a well-formed tree
whose shape is the old one with that node removed. -/
theorem erase_iter_models (hlt : StrictWeak lt) {h : Heap α} {t : BinarySearchTree}
    {T : Tree α} (hm : Models lt h t T) {a : Nat} (ha : a ∈ T.addrs) :
    ∃ h1 t1, erase_iter lt h t (some a) = some (h1, t1) ∧
      Models lt h1 t1 (T.remove lt a) ∧ h1.next = h.next ∧
      ∀ i, i ∉ T.addrs → h1.cell i = h.cell i := by
  have hcard := Tree.card_remove hlt hm.ordered hm.nodup ha
  have hsz : t.size_ ≠ 0 := by rw [hm.size]; omega
  have hmem : ∀ i ∈ (T.remove lt a).addrs, i ∈ T.addrs ∧ i ≠ a := by
    intro i hi
    rw [Tree.addrs_remove hlt a hm.ordered hm.nodup, List.mem_filter] at hi
    exact ⟨hi.1, by simpa using hi.2⟩
  have key : ∃ h3 r3, Detach lt h t (some a) = some (h3, ⟨r3, t.size_⟩, some a) ∧
      r3 = (T.remove lt a).ptr ∧ Rep h3 none (T.remove lt a) ∧ h3.next = h.next ∧
      ∀ i, i ∉ T.addrs → h3.cell i = h.cell i := by
    by_cases hp : T.ptr = some a
    · obtain ⟨l, v, r, rfl, hca⟩ := hm.rep.cell_of_ptr hp
      obtain ⟨h3, hd, hrep3, hfr, hnx⟩ := Detach_at_root lt (t := t) hca hm.rep.2.1
        hm.rep.2.2 hm.nodup (by rw [hm.root]; rfl) hsz hm.card_lt_fuel
      refine ⟨h3, _, hd, by simp [Tree.remove], by simpa [Tree.remove] using hrep3, hnx, ?_⟩
      intro i hi
      simp only [Tree.addrs_node, List.mem_append, List.mem_cons, not_or] at hi
      exact hfr i hi.1 hi.2.2
    · obtain ⟨h3, hd, hrep3, hfr, hnx⟩ := Detach_inner lt (t := t) (a := a)
        (by rw [hm.root]; exact Ne.symm hp) hsz hm.rep hm.nodup hm.ordered hm.card_lt_fuel ha hp
      exact ⟨h3, t.root_, hd, by rw [Tree.remove_ptr_of_ne a hp, hm.root], hrep3, hnx, hfr⟩
  obtain ⟨h3, r3, hd, hr3, hrep3, hnx, hfr3⟩ := key
  refine ⟨h3.free a, ⟨r3, t.size_ - 1⟩, ?_, ?_, hnx, ?_⟩
  rotate_right
  · intro i hi
    have hia : i ≠ a := fun e => hi (e ▸ ha)
    simp [Heap.free, hia, hfr3 i hi]
  · simp [erase_iter, hd, hsz]
  · refine ⟨hr3, Rep.frame ?_ hrep3, ?_, Tree.Ordered.remove hlt a hm.ordered hm.nodup, ?_, ?_⟩
    · intro i hi
      simp [Heap.free, (hmem i hi).2]
    · rw [Tree.addrs_remove hlt a hm.ordered hm.nodup]
      exact hm.nodup.filter _
    · show t.size_ - 1 = _
      rw [hm.size]; omega
    · intro i hi
      show i < h3.next
      rw [hnx]
      exact hm.bound i (hmem i hi).1

theorem Tree.find_mem (hlt : StrictWeak lt) {v : α} {T : Tree α} (hT : T.Ordered lt) {a : Nat}
    (hf : T.find lt v = some a) : a ∈ T.addrs := by
  obtain ⟨pre, x, post, hn, -, -⟩ := (Tree.find_spec hlt v hT).1 a hf
  exact Tree.mem_addrs_iff.2 ⟨x, by rw [hn]; simp⟩

/-- Shape after `erase(value)`. -/
theorem erase_models (hlt : StrictWeak lt) {h : Heap α} {t : BinarySearchTree} {T : Tree α}
    (hm : Models lt h t T) (v : α) :
    ∃ h1 t1, erase lt h t v = some (h1, t1) ∧ h1.next = h.next ∧
      ((T.find lt v = none ∧ h1 = h ∧ t1 = t) ∨
        (∃ a, T.find lt v = some a ∧ Models lt h1 t1 (T.remove lt a) ∧
          ∀ i, i ∉ T.addrs → h1.cell i = h.cell i)) := by
  simp only [erase, find_models hlt hm, Option.bind_eq_bind, Option.some_bind]
  cases hf : T.find lt v with
  | none => exact ⟨h, t, rfl, rfl, Or.inl ⟨rfl, rfl, rfl⟩⟩
  | some a =>
    obtain ⟨h1, t1, he, hm1, hnx, hfr⟩ :=
      erase_iter_models hlt hm (Tree.find_mem hlt hm.ordered hf)
    exact ⟨h1, t1, he, hnx, Or.inr ⟨a, rfl, hm1, hfr⟩⟩

theorem advance_drop (hlt : StrictWeak lt) {h : Heap α} {T : Tree α} (hrep : Rep h none T)
    (hord : T.Ordered lt) (hf : T.card < h.fuel) :
    ∀ (k : Nat) (rest pre : List (Nat × α)), T.nodes = pre ++ rest →
      advance lt h k (rest.head?.map Prod.fst) = some ((rest.drop k).head?.map Prod.fst) := by
  intro k
  induction k with
  | zero => intro rest pre _; simp [advance]
  | succ k ih =>
    intro rest pre hn
    cases rest with
    | nil => simp [advance]
    | cons p rest =>
      obtain ⟨-, hinc⟩ := incr_next hlt hrep hord hf (x := p.1) (v := p.2) hn
      simp only [List.head?_cons, Option.map_some', advance, hinc, Option.bind_eq_bind,
        Option.some_bind, List.drop_succ_cons]
      exact ih rest (pre ++ [p]) (by simp [hn])

/-- Every mutating call returns and keeps the tree well formed. -/
theorem Op.apply_models (hlt : StrictWeak lt) {h : Heap α} {t : BinarySearchTree} {T : Tree α}
    (hm : Models lt h t T) (op : Op α) :
    ∃ h1 t1 T1, op.apply lt h t = some (h1, t1) ∧ Models lt h1 t1 T1 := by
  cases op with
  | ins v =>
    obtain ⟨h1, t1, hi, hm1, -⟩ := insert_models hm v
    exact ⟨h1, t1, _, hi, hm1⟩
  | del v =>
    obtain ⟨h1, t1, he, -, hcase⟩ := erase_models hlt hm v
    rcases hcase with ⟨-, rfl, rfl⟩ | ⟨a, -, hm1, -⟩
    · exact ⟨h1, t1, T, he, hm⟩
    · exact ⟨h1, t1, _, he, hm1⟩
  | delAt k =>
    have hadv := advance_drop hlt hm.rep hm.ordered hm.card_lt_fuel k T.nodes [] rfl
    simp only [Op.apply, begin_head hm, hadv, Option.bind_eq_bind, Option.some_bind]
    cases hd : (T.nodes.drop k).head? with
    | none => exact ⟨h, t, T, rfl, hm⟩
    | some p =>
      have hp : p.1 ∈ T.addrs := by
        have : p ∈ T.nodes.drop k := List.mem_of_mem_head? hd
        exact Tree.mem_addrs_iff.2 ⟨p.2, List.mem_of_mem_drop this⟩
      obtain ⟨h1, t1, he, hm1, -⟩ := erase_iter_models hlt hm hp
      exact ⟨h1, t1, _, he, hm1⟩

theorem runFrom_models (hlt : StrictWeak lt) (ops : List (Op α)) :
    ∀ {h : Heap α} {t : BinarySearchTree} {T : Tree α}, Models lt h t T →
      ∃ h1 t1 T1, runFrom lt h t ops = some (h1, t1) ∧ Models lt h1 t1 T1 := by
  induction ops with
  | nil => intro h t T hm; exact ⟨h, t, T, rfl, hm⟩
  | cons op ops ih =>
    intro h t T hm
    obtain ⟨h1, t1, T1, ha, hm1⟩ := Op.apply_models hlt hm op
    obtain ⟨h2, t2, T2, hr, hm2⟩ := ih hm1
    exact ⟨h2, t2, T2, by simp [runFrom, ha, hr], hm2⟩

/-- Every sequence of calls on the default-constructed tree returns a well-formed tree. -/
theorem run_models (hlt : StrictWeak lt) (ops : List (Op α)) :
    ∃ h t T, run lt ops = some (h, t) ∧ Models lt h t T :=
  runFrom_models hlt ops (Models.empty lt)

/-! ## Sequences seen by the caller -/

theorem inorderRec_nodes {h : Heap α} {T : Tree α} : ∀ {par : Option Nat} (f : Nat),
    Rep h par T → T.card < f → inorderRec h f T.ptr = some T.nodes := by
  induction T with
  | nil =>
    intro par f _ hf
    obtain ⟨f, rfl⟩ : ∃ g, f = g + 1 := ⟨f - 1, by omega⟩
    simp [Tree.ptr, inorderRec]
  | node l a x r ihl ihr =>
    intro par f hrep hf
    obtain ⟨f, rfl⟩ : ∃ g, f = g + 1 := ⟨f - 1, by omega⟩
    obtain ⟨hc, hl, hr⟩ := hrep
    simp only [Tree.card] at hf
    have e1 := ihl f hl (by omega)
    have e2 := ihr f hr (by omega)
    have hp : (Tree.node l a x r).ptr = some a := rfl
    rw [hp]
    simp only [inorderRec, hc, Option.bind_eq_bind, Option.some_bind, Tree.nodes, e1, e2]

/-- In-order sequence after `insert(v)`: the old elements not greater than `v`, then `v`,
then the old elements greater than `v`. -/
theorem Tree.inorder_insert (hlt : StrictWeak lt) (v : α) (n : Nat) {T : Tree α}
    (hT : T.Ordered lt) :
    (Tree.attach lt v (.node .nil n v .nil) T).inorder =
      T.inorder.filter (fun x => !lt v x) ++ v :: T.inorder.filter (fun x => lt v x) := by
  simp only [Tree.inorder, Tree.nodes_attach hlt v _ hT, List.filter_map, List.map_append,
    Tree.nodes, List.nil_append, List.map_cons, List.append_assoc, List.cons_append]
  rfl

/-- A non-decreasing sequence is its elements not greater than `v` followed by its elements
greater than `v`. -/
theorem sorted_partition (hlt : StrictWeak lt) (v : α) :
    ∀ {L : List α}, L.Pairwise (fun x y => lt y x = false) →
      L.filter (fun x => !lt v x) ++ L.filter (fun x => lt v x) = L := by
  intro L
  induction L with
  | nil => intro _; rfl
  | cons x L ih =>
    intro hs
    obtain ⟨hx, hL⟩ := List.pairwise_cons.1 hs
    by_cases hv : lt v x = true
    · have h1 : (x :: L).filter (fun y => !lt v y) = [] := by
        rw [List.filter_eq_nil_iff]
        intro y hy
        rcases List.mem_cons.1 hy with rfl | hy
        · simp [hv]
        · have := hlt.lt_of_lt_of_not_lt hv (hx y hy)
          simp [this]
      have h2 : (x :: L).filter (fun y => lt v y) = x :: L := by
        rw [List.filter_eq_self]
        intro y hy
        rcases List.mem_cons.1 hy with rfl | hy
        · exact hv
        · exact hlt.lt_of_lt_of_not_lt hv (hx y hy)
      rw [h1, h2]
      rfl
    · have hv : lt v x = false := by simpa using hv
      simp only [List.filter_cons, hv, Bool.not_false, if_true, Bool.false_eq_true, if_false,
        List.cons_append]
      rw [ih hL]

/-- In-order sequence after erasing the node `find` returns: the old sequence without its
first element equivalent to the value. -/
theorem Tree.inorder_remove_find (hlt : StrictWeak lt) (v : α) {T : Tree α}
    (hT : T.Ordered lt) (hnd : T.addrs.Nodup) {a : Nat} (hf : T.find lt v = some a) :
    (T.remove lt a).inorder = T.inorder.eraseP (fun x => Equal lt x v) := by
  obtain ⟨pre, x, post, hn, hx, hpre⟩ := (Tree.find_spec hlt v hT).1 a hf
  simp only [Tree.inorder, Tree.nodes_remove_split hlt hT hnd hn, hn, List.map_append,
    List.map_cons]
  rw [List.eraseP_append_right, List.eraseP_cons_of_pos (p := fun y => Equal lt y v) hx]
  intro y hy
  obtain ⟨p, hp, rfl⟩ := List.mem_map.1 hy
  simp [Equal, hpre p hp]

theorem Tree.find_eq_none_iff (hlt : StrictWeak lt) (v : α) {T : Tree α} (hT : T.Ordered lt) :
    T.find lt v = none ↔ ∀ x ∈ T.inorder, Equal lt x v = false := by
  constructor
  · intro hf x hx
    obtain ⟨a, ha⟩ := Tree.mem_inorder_iff.1 hx
    exact (Tree.find_spec hlt v hT).2 hf _ ha
  · intro hall
    cases hf : T.find lt v with
    | none => rfl
    | some a =>
      obtain ⟨pre, x, post, hn, hx, -⟩ := (Tree.find_spec hlt v hT).1 a hf
      have := hall x (Tree.mem_inorder_iff.2 ⟨a, by rw [hn]; simp⟩)
      simp [hx] at this

theorem insertAll_models (hlt : StrictWeak lt) (xs : List α) :
    ∀ {h : Heap α} {t : BinarySearchTree} {T : Tree α}, Models lt h t T →
      ∃ h1 t1 T1, insertAll lt h t xs = some (h1, t1) ∧ Models lt h1 t1 T1 ∧
        T1.inorder.Perm (T.inorder ++ xs) ∧
        ∀ v, T1.inorder.filter (fun x => Equal lt x v) =
          T.inorder.filter (fun x => Equal lt x v) ++ xs.filter (fun x => Equal lt x v) := by
  induction xs with
  | nil => intro h t T hm; exact ⟨h, t, T, rfl, hm, by simp, by simp⟩
  | cons x xs ih =>
    intro h t T hm
    obtain ⟨h1, t1, hi, hm1, -⟩ := insert_models hm x
    obtain ⟨h2, t2, T2, hr, hm2, hperm, hstab⟩ := ih hm1
    refine ⟨h2, t2, T2, by simp [insertAll, hi, hr], hm2, ?_, ?_⟩
    · refine hperm.trans ?_
      have := Tree.inorder_attach_perm lt x (.node .nil h.next x .nil) T
      simp only [Tree.inorder_node, Tree.inorder_nil, List.nil_append] at this
      refine (this.append_right xs).trans ?_
      simp
    · intro v
      rw [hstab v, Tree.inorder_insert hlt x _ hm.ordered]
      have hpart := sorted_partition hlt x (hm.ordered.sorted hlt)
      have hsplit : T.inorder.filter (fun y => Equal lt y v) =
          (T.inorder.filter (fun y => !lt x y)).filter (fun y => Equal lt y v) ++
            (T.inorder.filter (fun y => lt x y)).filter (fun y => Equal lt y v) := by
        rw [← List.filter_append, hpart]
      rw [hsplit]
      simp only [List.filter_append, List.filter_cons, List.append_assoc]
      by_cases hxv : Equal lt x v = true
      · have hgt : (T.inorder.filter (fun y => lt x y)).filter (fun y => Equal lt y v) = [] := by
          rw [List.filter_eq_nil_iff]
          intro y hy
          have hxy : lt x y = true := (List.mem_filter.1 hy).2
          simp only [Equal, Bool.and_eq_true, Bool.not_eq_true'] at hxv
          have : lt v y = true := hlt.lt_of_not_lt_of_lt hxv.1 hxy
          simp [Equal, this]
        simp [hxv, hgt]
      · simp [hxv]

/-! ## Properties of the container -/

/-- Claim C1 (deletion correctness).  On every tree reached from the empty tree by `insert`
and `erase` calls, `erase(v)` for a value `v` that has an equivalent element returns, lowers
`size()` by exactly one, and leaves as in-order sequence the old sequence without one
element equivalent to `v` (its first one). -/
theorem erase_removes_one (hlt : StrictWeak lt) (ops : List (Op α)) (v : α) :
    ∃ h t xs, run lt ops = some (h, t) ∧ to_vector lt h t = some xs ∧
      ((∃ x ∈ xs, Equal lt x v = true) →
        ∃ h1 t1, erase lt h t v = some (h1, t1) ∧ size t1 + 1 = size t ∧
          to_vector lt h1 t1 = some (xs.eraseP (fun x => Equal lt x v))) := by
  obtain ⟨h, t, T, hrun, hm⟩ := run_models hlt ops
  refine ⟨h, t, T.inorder, hrun, to_vector_models hlt hm, ?_⟩
  rintro ⟨x, hx, hxv⟩
  obtain ⟨h1, t1, he, -, hcase⟩ := erase_models hlt hm v
  rcases hcase with ⟨hnone, -, -⟩ | ⟨a, hf, hm1, -⟩
  · have := (Tree.find_eq_none_iff hlt v hm.ordered).1 hnone x hx
    simp [hxv] at this
  · refine ⟨h1, t1, he, ?_, ?_⟩
    · simp only [size, hm1.size, hm.size]
      exact Tree.card_remove hlt hm.ordered hm.nodup (Tree.find_mem hlt hm.ordered hf)
    · rw [to_vector_models hlt hm1, Tree.inorder_remove_find hlt v hm.ordered hm.nodup hf]

/-- Witness for C1: insert 10, 5, 15, 12, 20, then `erase(10)` (the root, with two
children) leaves `[5, 12, 15, 20]` and size 4. -/
theorem erase_removes_one_witness :
    (∃ h t xs, run natLt [Op.ins 10, Op.ins 5, Op.ins 15, Op.ins 12, Op.ins 20] = some (h, t) ∧
      to_vector natLt h t = some xs ∧
      ((∃ x ∈ xs, Equal natLt x 10 = true) →
        ∃ h1 t1, erase natLt h t 10 = some (h1, t1) ∧ size t1 + 1 = size t ∧
          to_vector natLt h1 t1 = some (xs.eraseP (fun x => Equal natLt x 10)))) ∧
    ((run natLt [Op.ins 10, Op.ins 5, Op.ins 15, Op.ins 12, Op.ins 20]).bind fun s =>
      (erase natLt s.1 s.2 10).bind fun s1 =>
        (to_vector natLt s1.1 s1.2).map fun xs => (xs, size s1.2)) =
      some ([5, 12, 15, 20], 4) :=
  ⟨erase_removes_one natLt_strictWeak _ 10, by decide⟩

/-- Claim C2 (ordering invariant).  On every tree reached from the empty tree by `insert`
and `erase` calls, `to_vector()` returns a non-decreasing sequence: no element is strictly
less than an element before it. -/
theorem traversal_sorted (hlt : StrictWeak lt) (ops : List (Op α)) :
    ∃ h t xs, run lt ops = some (h, t) ∧ to_vector lt h t = some xs ∧
      xs.Pairwise (fun x y => lt y x = false) := by
  obtain ⟨h, t, T, hrun, hm⟩ := run_models hlt ops
  exact ⟨h, t, T.inorder, hrun, to_vector_models hlt hm, hm.ordered.sorted hlt⟩

/-- Witness for C2 on a run with duplicates and both kinds of `erase`. -/
theorem traversal_sorted_witness :
    ∃ h t xs, run natLt [Op.ins 5, Op.ins 3, Op.ins 8, Op.ins 3, Op.del 5, Op.delAt 1] =
        some (h, t) ∧ to_vector natLt h t = some xs ∧
      xs.Pairwise (fun x y => natLt y x = false) :=
  traversal_sorted natLt_strictWeak _

/-- Claim C3 (size invariant).  On every tree reached from the empty tree by `insert`,
`erase(value)` (present or absent value) and `erase(position)` calls, `size()` is the number
of elements a full traversal yields. -/
theorem size_eq_traversal_length (hlt : StrictWeak lt) (ops : List (Op α)) :
    ∃ h t xs, run lt ops = some (h, t) ∧ to_vector lt h t = some xs ∧ size t = xs.length := by
  obtain ⟨h, t, T, hrun, hm⟩ := run_models hlt ops
  exact ⟨h, t, T.inorder, hrun, to_vector_models hlt hm, by
    simp [size, hm.size, Tree.length_inorder]⟩

/-- Witness for C3 on a run that erases a present value, an absent value and a position. -/
theorem size_eq_traversal_length_witness :
    ∃ h t xs, run natLt [Op.ins 5, Op.ins 3, Op.ins 8, Op.del 3, Op.del 7, Op.delAt 0] =
        some (h, t) ∧ to_vector natLt h t = some xs ∧ size t = xs.length :=
  size_eq_traversal_length natLt_strictWeak _

/-- Claim C4 (round trip, stable sort).  Inserting the elements of a list one by one into
an empty tree and calling `to_vector()` returns a permutation of the list that is
non-decreasing and keeps equivalent elements in their insertion order. -/
theorem insert_all_stable_sort (hlt : StrictWeak lt) (xs : List α) :
    ∃ h t ys, fromInitializerList lt xs = some (h, t) ∧ to_vector lt h t = some ys ∧
      ys.Perm xs ∧ ys.Pairwise (fun x y => lt y x = false) ∧
      ∀ v, ys.filter (fun x => Equal lt x v) = xs.filter (fun x => Equal lt x v) := by
  obtain ⟨h, t, T, hrun, hm, hperm, hstab⟩ :=
    insertAll_models hlt xs (Models.empty lt)
  refine ⟨h, t, T.inorder, hrun, to_vector_models hlt hm, by simpa using hperm,
    hm.ordered.sorted hlt, ?_⟩
  intro v
  simpa using hstab v

/-- Witness for C4: keys 5, 3, 8, 3, 1 tagged with their insertion index come out as
1, 3, 3, 5, 8 with the two 3s in insertion order. -/
theorem insert_all_stable_sort_witness :
    (∃ h t ys, fromInitializerList keyLt [(5, 0), (3, 1), (8, 2), (3, 3), (1, 4)] =
        some (h, t) ∧ to_vector keyLt h t = some ys ∧
      ys.Perm [(5, 0), (3, 1), (8, 2), (3, 3), (1, 4)] ∧
      ys.Pairwise (fun x y => keyLt y x = false) ∧
      ∀ v, ys.filter (fun x => Equal keyLt x v) =
        [(5, 0), (3, 1), (8, 2), (3, 3), (1, 4)].filter (fun x => Equal keyLt x v)) ∧
    ((fromInitializerList keyLt [(5, 0), (3, 1), (8, 2), (3, 3), (1, 4)]).bind fun s =>
      to_vector keyLt s.1 s.2) = some [(1, 4), (3, 1), (3, 3), (5, 0), (8, 2)] :=
  ⟨insert_all_stable_sort keyLt_strictWeak _, by decide⟩

/-- Claim C5 (forward iteration is in-order traversal).  On every tree reached by `insert`
and `erase` calls, with `ns` the recursive in-order sequence of nodes (left subtree, node,
right subtree): `ns` has `size()` nodes, `begin()` is its first node, `operator++` moves
from each node to the following one and from the last one to `end()`, so `k` increments
from `begin()` reach the `k`-th node and `end()` after exactly `size()` of them, and
`to_vector()` returns the values of `ns`. -/
theorem iteration_is_inorder (hlt : StrictWeak lt) (ops : List (Op α)) :
    ∃ h t ns, run lt ops = some (h, t) ∧ inorderRec h h.fuel t.root_ = some ns ∧
      ns.length = size t ∧
      begin h t = some (ns.head?.map Prod.fst) ∧
      (∀ pre x v post, ns = pre ++ (x, v) :: post →
        ConstIterator.incr lt h (some x) = some (post.head?.map Prod.fst)) ∧
      (∀ k, advance lt h k (ns.head?.map Prod.fst) = some (ns[k]?.map Prod.fst)) ∧
      to_vector lt h t = some (ns.map Prod.snd) := by
  obtain ⟨h, t, T, hrun, hm⟩ := run_models hlt ops
  refine ⟨h, t, T.nodes, hrun, ?_, ?_, begin_head hm, ?_, ?_, to_vector_models hlt hm⟩
  · rw [hm.root]
    exact inorderRec_nodes h.fuel hm.rep hm.card_lt_fuel
  · simp [size, hm.size, Tree.length_nodes]
  · intro pre x v post hn
    exact (incr_next hlt hm.rep hm.ordered hm.card_lt_fuel hn).2
  · intro k
    rw [advance_drop hlt hm.rep hm.ordered hm.card_lt_fuel k T.nodes [] rfl, List.head?_drop]

/-- Witness for C5 on a tree with duplicates reshaped by a deletion. -/
theorem iteration_is_inorder_witness :
    ∃ h t ns, run natLt [Op.ins 5, Op.ins 3, Op.ins 5, Op.ins 3, Op.ins 4, Op.del 5] =
        some (h, t) ∧ inorderRec h h.fuel t.root_ = some ns ∧
      ns.length = size t ∧
      begin h t = some (ns.head?.map Prod.fst) ∧
      (∀ pre x v post, ns = pre ++ (x, v) :: post →
        ConstIterator.incr natLt h (some x) = some (post.head?.map Prod.fst)) ∧
      (∀ k, advance natLt h k (ns.head?.map Prod.fst) = some (ns[k]?.map Prod.fst)) ∧
      to_vector natLt h t = some (ns.map Prod.snd) :=
  iteration_is_inorder natLt_strictWeak _

/-- Claim C6 (iterator symmetry) fails when equivalent values are stored.  After
`insert(3); insert(3)` the second 3 (address 1) is the right child of the first (address
0).  From the second 3, `operator--` ascends past the equivalent parent and reaches the
null position `end()` instead of the first 3, and `operator++` on that null position
dereferences null; from the first 3, `++` reaches the second 3 and `--` of that is `end()`,
not the first 3. -/
theorem decr_skips_equivalent_parent :
    ∃ h t, run natLt [Op.ins 3, Op.ins 3] = some (h, t) ∧
      to_vector natLt h t = some [3, 3] ∧
      begin h t = some (some 0) ∧
      ConstIterator.incr natLt h (some 0) = some (some 1) ∧
      ConstIterator.decr natLt h t (some 1) = some «end» ∧
      ConstIterator.incr natLt h «end» = none := by
  refine ⟨_, _, rfl, ?_, ?_, ?_, ?_, ?_⟩ <;> decide

/-- Claim C7 (`count`).  On every tree reached by `insert` and `erase` calls, `count(v)` is
the number of stored elements equivalent to `v` (zero when there is none). -/
theorem count_correct (hlt : StrictWeak lt) (ops : List (Op α)) (v : α) :
    ∃ h t xs, run lt ops = some (h, t) ∧ to_vector lt h t = some xs ∧
      count lt h t v = some (xs.countP (fun x => Equal lt x v)) := by
  obtain ⟨h, t, T, hrun, hm⟩ := run_models hlt ops
  exact ⟨h, t, T.inorder, hrun, to_vector_models hlt hm, count_models hlt hm v⟩

/-- Witness for C7: after inserting 5, 3, 8, 3, 1, `count(3)` is 2. -/
theorem count_correct_witness :
    (∃ h t xs, run natLt [Op.ins 5, Op.ins 3, Op.ins 8, Op.ins 3, Op.ins 1] = some (h, t) ∧
      to_vector natLt h t = some xs ∧
      count natLt h t 3 = some (xs.countP (fun x => Equal natLt x 3))) ∧
    ((run natLt [Op.ins 5, Op.ins 3, Op.ins 8, Op.ins 3, Op.ins 1]).bind fun s =>
      count natLt s.1 s.2 3) = some 2 :=
  ⟨count_correct natLt_strictWeak _ 3, by decide⟩

/-- Claim C8 (`find`, `contains`).  On every tree reached by `insert` and `erase` calls,
`find(v)` returns a position other than `end()` exactly when some stored element is
equivalent to `v`, the element at that position is then equivalent to `v`, and
`contains(v)` is true exactly when `to_vector()` has an element equivalent to `v`; on the
empty tree `contains` is false. -/
theorem find_contains_correct (hlt : StrictWeak lt) (ops : List (Op α)) (v : α) :
    ∃ h t xs, run lt ops = some (h, t) ∧ to_vector lt h t = some xs ∧
      (∃ it, find lt h t v = some it ∧
        (∀ a, it = some a → ∃ n, h.cell a = some n ∧ Equal lt n.value v = true) ∧
        (it ≠ «end» ↔ ∃ x ∈ xs, Equal lt x v = true)) ∧
      contains lt h t v = some (xs.any (fun x => Equal lt x v)) ∧
      contains lt (Heap.empty : Heap α) BinarySearchTree.empty v = some false := by
  obtain ⟨h, t, T, hrun, hm⟩ := run_models hlt ops
  have hiff : T.find lt v ≠ none ↔ ∃ x ∈ T.inorder, Equal lt x v = true := by
    rw [Ne, Tree.find_eq_none_iff hlt v hm.ordered]
    simp
  refine ⟨h, t, T.inorder, hrun, to_vector_models hlt hm,
    ⟨T.find lt v, find_models hlt hm v, ?_, hiff⟩, ?_, ?_⟩
  · intro a ha
    obtain ⟨pre, x, post, hn, hx, -⟩ := (Tree.find_spec hlt v hm.ordered).1 a ha
    obtain ⟨n, hc, hval⟩ := hm.rep.cell_of_mem (a := a) (x := x) (by rw [hn]; simp)
    exact ⟨n, hc, by rw [hval]; exact hx⟩
  · simp only [contains, find_models hlt hm v, Option.map_some', «end», Option.some.injEq]
    by_cases hf : T.find lt v = none
    · have hall := (Tree.find_eq_none_iff hlt v hm.ordered).1 hf
      rw [hf]
      symm
      simpa using hall
    · obtain ⟨x, hx, hxv⟩ := hiff.1 hf
      have h1 : (T.find lt v != none) = true := by simpa using hf
      rw [h1]
      symm
      exact List.any_eq_true.2 ⟨x, hx, hxv⟩
  · simp [contains, find, findLoop, Heap.fuel, Heap.empty, BinarySearchTree.empty, «end»]

/-- Witness for C8 on a tree reshaped by a deletion. -/
theorem find_contains_correct_witness :
    ∃ h t xs, run natLt [Op.ins 5, Op.ins 3, Op.ins 8, Op.ins 3, Op.del 5] = some (h, t) ∧
      to_vector natLt h t = some xs ∧
      (∃ it, find natLt h t 8 = some it ∧
        (∀ a, it = some a → ∃ n, h.cell a = some n ∧ Equal natLt n.value 8 = true) ∧
        (it ≠ «end» ↔ ∃ x ∈ xs, Equal natLt x 8 = true)) ∧
      contains natLt h t 8 = some (xs.any (fun x => Equal natLt x 8)) ∧
      contains natLt (Heap.empty : Heap Nat) BinarySearchTree.empty 8 = some false :=
  find_contains_correct natLt_strictWeak _ 8

/-- Claim C9 (erase of a missing value).  On every tree reached by `insert` and `erase`
calls, the empty tree included, `erase(v)` for a value with no equivalent element returns
and leaves the store and the tree object exactly as they were, and so does
`erase(end())`. -/
theorem erase_absent_noop (hlt : StrictWeak lt) (ops : List (Op α)) (v : α) :
    ∃ h t xs, run lt ops = some (h, t) ∧ to_vector lt h t = some xs ∧
      ((∀ x ∈ xs, Equal lt x v = false) → erase lt h t v = some (h, t)) ∧
      erase_iter lt h t «end» = some (h, t) := by
  obtain ⟨h, t, T, hrun, hm⟩ := run_models hlt ops
  refine ⟨h, t, T.inorder, hrun, to_vector_models hlt hm, ?_, rfl⟩
  intro hall
  have hf := (Tree.find_eq_none_iff hlt v hm.ordered).2 hall
  simp [erase, find_models hlt hm v, hf, erase_iter]

/-- Witness for C9: erasing 7 from the tree holding 3, 5, 8. -/
theorem erase_absent_noop_witness :
    (∃ h t xs, run natLt [Op.ins 5, Op.ins 3, Op.ins 8] = some (h, t) ∧
      to_vector natLt h t = some xs ∧
      ((∀ x ∈ xs, Equal natLt x 7 = false) → erase natLt h t 7 = some (h, t)) ∧
      erase_iter natLt h t «end» = some (h, t)) ∧
    ((run natLt [Op.ins 5, Op.ins 3, Op.ins 8]).bind fun s =>
      (erase natLt s.1 s.2 7).bind fun s1 =>
        (to_vector natLt s1.1 s1.2).map fun xs => (xs, size s1.2)) = some ([3, 5, 8], 3) :=
  ⟨erase_absent_noop natLt_strictWeak _ 7, by decide⟩

/-- Claim C10 (`insert`).  On every tree reached by `insert` and `erase` calls, `insert(v)`
returns (duplicates included), raises `size()` by exactly one, and the new in-order
sequence is the old one with `v` put in after all the elements not greater than `v` and
before all the elements greater than `v`, the old elements keeping their order. -/
theorem insert_correct (hlt : StrictWeak lt) (ops : List (Op α)) (v : α) :
    ∃ h t xs, run lt ops = some (h, t) ∧ to_vector lt h t = some xs ∧
      ∃ h1 t1 pre post, insert lt h t v = some (h1, t1) ∧ size t1 = size t + 1 ∧
        xs = pre ++ post ∧ (∀ x ∈ pre, lt v x = false) ∧ (∀ x ∈ post, lt v x = true) ∧
        to_vector lt h1 t1 = some (pre ++ v :: post) := by
  obtain ⟨h, t, T, hrun, hm⟩ := run_models hlt ops
  obtain ⟨h1, t1, hi, hm1, -⟩ := insert_models hm v
  refine ⟨h, t, T.inorder, hrun, to_vector_models hlt hm, h1, t1,
    T.inorder.filter (fun x => !lt v x), T.inorder.filter (fun x => lt v x), hi, ?_,
    (sorted_partition hlt v (hm.ordered.sorted hlt)).symm, ?_, ?_, ?_⟩
  · simp [size, hm1.size, hm.size, Tree.card_attach, Tree.card]
  · intro x hx
    simpa using (List.mem_filter.1 hx).2
  · intro x hx
    exact (List.mem_filter.1 hx).2
  · rw [to_vector_models hlt hm1, Tree.inorder_insert hlt v _ hm.ordered]

/-- Witness for C10: inserting a second 5 into a tree reshaped by a deletion. -/
theorem insert_correct_witness :
    (∃ h t xs, run natLt [Op.ins 5, Op.ins 3, Op.ins 8, Op.ins 4, Op.del 3] = some (h, t) ∧
      to_vector natLt h t = some xs ∧
      ∃ h1 t1 pre post, insert natLt h t 5 = some (h1, t1) ∧ size t1 = size t + 1 ∧
        xs = pre ++ post ∧ (∀ x ∈ pre, natLt 5 x = false) ∧ (∀ x ∈ post, natLt 5 x = true) ∧
        to_vector natLt h1 t1 = some (pre ++ 5 :: post)) ∧
    ((run natLt [Op.ins 5, Op.ins 3, Op.ins 8, Op.ins 4, Op.del 3]).bind fun s =>
      (insert natLt s.1 s.2 5).bind fun s1 =>
        (to_vector natLt s1.1 s1.2).map fun xs => (xs, size s1.2)) = some ([4, 5, 5, 8], 4) :=
  ⟨insert_correct natLt_strictWeak _ 5, by decide⟩

/-! ## Subtrees -/

theorem Tree.subtree_none_of_not_mem {T : Tree α} {a : Nat} (ha : a ∉ T.addrs) :
    T.subtree? a = none := by
  induction T with
  | nil => rfl
  | node l b v r ihl ihr =>
    simp only [Tree.addrs_node, List.mem_append, List.mem_cons, not_or] at ha
    simp [Tree.subtree?, ha.2.1, ihl ha.1, ihr ha.2.2]

theorem Tree.subtree_of_mem {T : Tree α} (hnd : T.addrs.Nodup) {a : Nat} {x : α}
    (hm : (a, x) ∈ T.nodes) : ∃ l r, T.subtree? a = some (.node l a x r) := by
  induction T with
  | nil => simp at hm
  | node L b u R ihL ihR =>
    obtain ⟨hndL, hndR, hbL, hbR, hLR⟩ := Tree.nodup_node.1 hnd
    simp only [Tree.nodes, List.mem_append, List.mem_cons, Prod.mk.injEq] at hm
    rcases hm with hm | ⟨rfl, rfl⟩ | hm
    · have hab : a ≠ b := fun e => hbL (e ▸ Tree.mem_addrs_iff.2 ⟨x, hm⟩)
      obtain ⟨l, r, hs⟩ := ihL hndL hm
      exact ⟨l, r, by simp [Tree.subtree?, hab, hs]⟩
    · exact ⟨L, R, by simp [Tree.subtree?]⟩
    · have hab : a ≠ b := fun e => hbR (e ▸ Tree.mem_addrs_iff.2 ⟨x, hm⟩)
      have haL : a ∉ L.addrs := fun hmL => hLR a hmL (Tree.mem_addrs_iff.2 ⟨x, hm⟩)
      obtain ⟨l, r, hs⟩ := ihR hndR hm
      exact ⟨l, r, by simp [Tree.subtree?, hab, Tree.subtree_none_of_not_mem haL, hs]⟩

/-- Facts about a subtree of a held, ordered shape: it is held below some parent link, it is
ordered, its nodes are nodes of the shape, and it is no larger. -/
theorem Tree.subtree_spec {h : Heap α} {T : Tree α} {a : Nat} {S : Tree α} :
    ∀ {par : Option Nat}, Rep h par T → T.Ordered lt → T.subtree? a = some S →
      (∃ pa, Rep h pa S) ∧ S.Ordered lt ∧ S.ptr = some a ∧ (∀ p ∈ S.nodes, p ∈ T.nodes) ∧
        S.card ≤ T.card := by
  induction T with
  | nil => intro _ _ _ hs; simp [Tree.subtree?] at hs
  | node L b u R ihL ihR =>
    intro par hrep hord hs
    simp only [Tree.subtree?] at hs
    by_cases hab : a = b
    · subst hab
      simp only [if_true, Option.some.injEq] at hs
      subst hs
      exact ⟨⟨par, hrep⟩, hord, rfl, fun p hp => hp, le_refl _⟩
    · simp only [hab, if_false] at hs
      cases hsl : Tree.subtree? a L with
      | some S1 =>
        rw [hsl] at hs
        simp only [Option.some.injEq] at hs
        subst hs
        obtain ⟨h1, h2, h3, h4, h5⟩ := ihL hrep.2.1 hord.2.2.1 hsl
        exact ⟨h1, h2, h3, fun p hp => by simp [Tree.nodes, h4 p hp], by
          simp only [Tree.card]; omega⟩
      | none =>
        rw [hsl] at hs
        obtain ⟨h1, h2, h3, h4, h5⟩ := ihR hrep.2.2 hord.2.2.2 hs
        exact ⟨h1, h2, h3, fun p hp => by simp [Tree.nodes, h4 p hp], by
          simp only [Tree.card]; omega⟩

/-- Cell of a node of a held, ordered shape, together with the in-order sequences of its
two subtrees as `inorderRec` reads them off the store. -/
theorem Models.node_spec {h : Heap α} {t : BinarySearchTree} {T : Tree α}
    (hm : Models lt h t T) {a : Nat} {x : α} (hmem : (a, x) ∈ T.nodes) :
    ∃ l r n, T.subtree? a = some (.node l a x r) ∧ h.cell a = some n ∧ n.value = x ∧
      n.left = l.ptr ∧ n.right = r.ptr ∧
      inorderRec h h.fuel n.left = some l.nodes ∧ inorderRec h h.fuel n.right = some r.nodes ∧
      (∀ q ∈ l.nodes, lt q.2 x = true) ∧ (∀ q ∈ r.nodes, lt q.2 x = false) := by
  obtain ⟨l, r, hs⟩ := Tree.subtree_of_mem hm.nodup hmem
  obtain ⟨⟨pa, hrep⟩, hord, -, -, hcard⟩ := Tree.subtree_spec hm.rep hm.ordered hs
  have hf := hm.card_lt_fuel
  simp only [Tree.card] at hcard
  refine ⟨l, r, _, hs, hrep.1, rfl, rfl, rfl, ?_, ?_, ?_, ?_⟩
  · exact inorderRec_nodes h.fuel hrep.2.1 (by omega)
  · exact inorderRec_nodes h.fuel hrep.2.2 (by omega)
  · intro q hq
    exact hord.1 q.2 (Tree.mem_inorder_iff.2 ⟨q.1, hq⟩)
  · intro q hq
    exact hord.2.1 q.2 (Tree.mem_inorder_iff.2 ⟨q.1, hq⟩)

/-- Descent of `find` on an ordered shape: every node equivalent to the value is the node
found or lies in its right subtree. -/
theorem Tree.find_right (hlt : StrictWeak lt) (v : α) {T : Tree α} (hT : T.Ordered lt)
    (hnd : T.addrs.Nodup) {a : Nat} (hf : T.find lt v = some a) :
    ∃ l x r, T.subtree? a = some (.node l a x r) ∧
      ∀ p ∈ T.nodes, Equal lt p.2 v = true → p = (a, x) ∨ p ∈ r.nodes := by
  induction T with
  | nil => simp [Tree.find] at hf
  | node L b u R ihL ihR =>
    obtain ⟨h1, h2, h3, h4⟩ := hT
    obtain ⟨hndL, hndR, hbL, hbR, hLR⟩ := Tree.nodup_node.1 hnd
    have hl : ∀ p ∈ L.nodes, lt p.2 u = true :=
      fun p hp => h1 p.2 (Tree.mem_inorder_iff.2 ⟨p.1, hp⟩)
    have hr : ∀ p ∈ R.nodes, lt p.2 u = false :=
      fun p hp => h2 p.2 (Tree.mem_inorder_iff.2 ⟨p.1, hp⟩)
    simp only [Tree.find] at hf
    by_cases he : Equal lt u v = true
    · simp only [he, if_true, Option.some.injEq] at hf
      subst hf
      refine ⟨L, u, R, by simp [Tree.subtree?], ?_⟩
      intro p hp hpv
      simp only [Tree.nodes, List.mem_append, List.mem_cons] at hp
      rcases hp with hp | hp | hp
      · exfalso
        simp only [Equal, Bool.and_eq_true, Bool.not_eq_true'] at he hpv
        have := hlt.lt_of_lt_of_not_lt (hl p hp) he.2
        simp [hpv.1] at this
      · exact Or.inl hp
      · exact Or.inr hp
    · simp only [he, if_false] at hf
      have he : Equal lt u v = false := by simpa using he
      by_cases hv : lt v u = true
      · simp only [hv, if_true] at hf
        obtain ⟨l, x, r, hs, hall⟩ := ihL h3 hndL hf
        have haL : a ∈ L.addrs := Tree.find_mem hlt h3 hf
        have hab : a ≠ b := fun e => hbL (e ▸ haL)
        refine ⟨l, x, r, by simp [Tree.subtree?, hab, hs], ?_⟩
        intro p hp hpv
        simp only [Tree.nodes, List.mem_append, List.mem_cons] at hp
        rcases hp with hp | rfl | hp
        · exact hall p hp hpv
        · simp [he] at hpv
        · exfalso
          have : lt v p.2 = true := hlt.lt_of_lt_of_not_lt hv (hr p hp)
          simp [Equal, this] at hpv
      · have hv : lt v u = false := by simpa using hv
        have huv : lt u v = true := by
          simp only [Equal, hv, Bool.not_false, Bool.and_true, Bool.not_eq_false'] at he
          exact he
        simp only [hv, Bool.false_eq_true, if_false] at hf
        obtain ⟨l, x, r, hs, hall⟩ := ihR h4 hndR hf
        have haR : a ∈ R.addrs := Tree.find_mem hlt h4 hf
        have hab : a ≠ b := fun e => hbR (e ▸ haR)
        have haL : a ∉ L.addrs := fun hmL => hLR a hmL haR
        refine ⟨l, x, r, by
          simp [Tree.subtree?, hab, Tree.subtree_none_of_not_mem haL, hs], ?_⟩
        intro p hp hpv
        simp only [Tree.nodes, List.mem_append, List.mem_cons] at hp
        rcases hp with hp | rfl | hp
        · exfalso
          have : lt p.2 v = true := hlt.trans (hl p hp) huv
          simp [Equal, this] at hpv
        · simp [he] at hpv
        · exact hall p hp hpv

/-- Claim C13 (`clear()` yields an empty tree) fails on a non-empty tree.  After
`insert(1); clear()` the node is freed and `size_` is 0, but `root_` still holds the address
of the freed node: the root is not absent, and `begin()` and `to_vector()` dereference the
freed node. -/
theorem clear_keeps_stale_root :
    ∃ h t h1 t1, run natLt [Op.ins 1] = some (h, t) ∧ clear h t = some (h1, t1) ∧
      size t1 = 0 ∧ t1.root_ = some 0 ∧ (h1.cell 0).isNone = true ∧
      begin h1 t1 = none ∧ to_vector natLt h1 t1 = none := by
  refine ⟨_, _, _, _, rfl, rfl, ?_, ?_, ?_, ?_, ?_⟩ <;> decide

/-- Claim C14 (move assignment empties the source) fails for a non-empty destination.  With
`A` holding 1 and `B` holding 2, `A = std::move(B)` gives `A` the contents of `B`, but `B`
is left with `size_` 0 and `root_` pointing at the freed node of `A`: its root is not absent
and `begin()` on it dereferences the freed node. -/
theorem move_assign_source_keeps_stale_root :
    ∃ h a b h1 a1 b1, run2 natLt [Op2.onA (Op.ins 1), Op2.onB (Op.ins 2)] = some (h, a, b) ∧
      operatorMoveAssign h a b = some (h1, a1, b1) ∧
      to_vector natLt h1 a1 = some [2] ∧ size a1 = 1 ∧
      size b1 = 0 ∧ b1.root_ = some 0 ∧ (h1.cell 0).isNone = true ∧ begin h1 b1 = none := by
  refine ⟨_, _, _, _, _, _, rfl, rfl, ?_, ?_, ?_, ?_, ?_, ?_⟩ <;> decide

/-- Claim C15 (strict-left, non-strict-right subtrees).  On every tree reached from the
empty tree by `insert` and `erase` calls, for every node: every value in its left subtree
is strictly less than the node's value, and no value in its right subtree is less than the
node's value. -/
theorem subtree_order_invariant (hlt : StrictWeak lt) (ops : List (Op α)) :
    ∃ h t ns, run lt ops = some (h, t) ∧ inorderRec h h.fuel t.root_ = some ns ∧
      ∀ p ∈ ns, ∃ n ls rs, h.cell p.1 = some n ∧ n.value = p.2 ∧
        inorderRec h h.fuel n.left = some ls ∧ inorderRec h h.fuel n.right = some rs ∧
        (∀ q ∈ ls, lt q.2 p.2 = true) ∧ (∀ q ∈ rs, lt q.2 p.2 = false) := by
  obtain ⟨h, t, T, hrun, hm⟩ := run_models hlt ops
  refine ⟨h, t, T.nodes, hrun, ?_, ?_⟩
  · rw [hm.root]
    exact inorderRec_nodes h.fuel hm.rep hm.card_lt_fuel
  · intro p hp
    obtain ⟨l, r, n, -, hc, hval, -, -, hil, hir, hlo, hhi⟩ :=
      hm.node_spec (a := p.1) (x := p.2) hp
    exact ⟨n, l.nodes, r.nodes, hc, hval, hil, hir, hlo, hhi⟩

/-- Witness for C15 on a tree with duplicates reshaped by deletions. -/
theorem subtree_order_invariant_witness :
    ∃ h t ns, run natLt [Op.ins 5, Op.ins 3, Op.ins 5, Op.ins 8, Op.ins 3, Op.del 5,
        Op.delAt 0] = some (h, t) ∧ inorderRec h h.fuel t.root_ = some ns ∧
      ∀ p ∈ ns, ∃ n ls rs, h.cell p.1 = some n ∧ n.value = p.2 ∧
        inorderRec h h.fuel n.left = some ls ∧ inorderRec h h.fuel n.right = some rs ∧
        (∀ q ∈ ls, natLt q.2 p.2 = true) ∧ (∀ q ∈ rs, natLt q.2 p.2 = false) :=
  subtree_order_invariant natLt_strictWeak _

/-- Claim C18 (`find` returns the first equivalent element).  On every tree reached by
`insert` and `erase` calls, for a value `v` with an equivalent element, `find(v)` returns
the earliest position of the in-order sequence whose element is equivalent to `v`, every
other equivalent element lies in the right subtree of the returned node, and `erase(v)`
removes the first equivalent element of the in-order sequence. -/
theorem find_first_equivalent (hlt : StrictWeak lt) (ops : List (Op α)) (v : α) :
    ∃ h t ns, run lt ops = some (h, t) ∧ inorderRec h h.fuel t.root_ = some ns ∧
      ((∃ p ∈ ns, Equal lt p.2 v = true) →
        ∃ a pre x post n rs, find lt h t v = some (some a) ∧ ns = pre ++ (a, x) :: post ∧
          Equal lt x v = true ∧ (∀ p ∈ pre, Equal lt p.2 v = false) ∧
          h.cell a = some n ∧ inorderRec h h.fuel n.right = some rs ∧
          (∀ p ∈ ns, Equal lt p.2 v = true → p = (a, x) ∨ p ∈ rs) ∧
          ∃ h1 t1, erase lt h t v = some (h1, t1) ∧
            to_vector lt h1 t1 = some ((pre ++ post).map Prod.snd)) := by
  obtain ⟨h, t, T, hrun, hm⟩ := run_models hlt ops
  refine ⟨h, t, T.nodes, hrun, ?_, ?_⟩
  · rw [hm.root]
    exact inorderRec_nodes h.fuel hm.rep hm.card_lt_fuel
  · rintro ⟨p, hp, hpv⟩
    cases hf : T.find lt v with
    | none =>
      have := (Tree.find_spec hlt v hm.ordered).2 hf p hp
      simp [hpv] at this
    | some a =>
      obtain ⟨pre, x, post, hn, hx, hpre⟩ := (Tree.find_spec hlt v hm.ordered).1 a hf
      obtain ⟨l, x1, r, hs, hall⟩ := Tree.find_right hlt v hm.ordered hm.nodup hf
      have hmem : (a, x) ∈ T.nodes := by rw [hn]; simp
      obtain ⟨l2, r2, n, hs2, hc, -, -, -, -, hir, -, -⟩ := hm.node_spec hmem
      rw [hs] at hs2
      simp only [Option.some.injEq, Tree.node.injEq] at hs2
      obtain ⟨-, -, rfl, rfl⟩ := hs2
      obtain ⟨h1, t1, he, -, hcase⟩ := erase_models hlt hm v
      refine ⟨a, pre, x1, post, n, r.nodes, ?_, hn, hx, ?_, hc, hir, hall, h1, t1, he, ?_⟩
      · rw [find_models hlt hm, hf]
      · intro q hq
        simp [Equal, hpre q hq]
      · rcases hcase with ⟨hnone, -, -⟩ | ⟨a1, hf1, hm1, -⟩
        · rw [hf] at hnone
          simp at hnone
        · rw [hf] at hf1
          simp only [Option.some.injEq] at hf1
          subst hf1
          rw [to_vector_models hlt hm1, Tree.inorder,
            Tree.nodes_remove_split hlt hm.ordered hm.nodup hn]

/-- Witness for C18: with keys 5, 3, 3, 4, 3 tagged by insertion index, `find` of key 3
returns the node of the first of the three equivalent elements (address 1), and `erase`
of key 3 removes that element. -/
theorem find_first_equivalent_witness :
    (∃ h t ns, run keyLt [Op.ins (5, 0), Op.ins (3, 1), Op.ins (3, 2), Op.ins (4, 3),
        Op.ins (3, 4)] = some (h, t) ∧ inorderRec h h.fuel t.root_ = some ns ∧
      ((∃ p ∈ ns, Equal keyLt p.2 (3, 9) = true) →
        ∃ a pre x post n rs, find keyLt h t (3, 9) = some (some a) ∧
          ns = pre ++ (a, x) :: post ∧
          Equal keyLt x (3, 9) = true ∧ (∀ p ∈ pre, Equal keyLt p.2 (3, 9) = false) ∧
          h.cell a = some n ∧ inorderRec h h.fuel n.right = some rs ∧
          (∀ p ∈ ns, Equal keyLt p.2 (3, 9) = true → p = (a, x) ∨ p ∈ rs) ∧
          ∃ h1 t1, erase keyLt h t (3, 9) = some (h1, t1) ∧
            to_vector keyLt h1 t1 = some ((pre ++ post).map Prod.snd))) ∧
    ((run keyLt [Op.ins (5, 0), Op.ins (3, 1), Op.ins (3, 2), Op.ins (4, 3),
        Op.ins (3, 4)]).bind fun s =>
      (to_vector keyLt s.1 s.2).bind fun xs =>
        (find keyLt s.1 s.2 (3, 9)).bind fun a =>
          (erase keyLt s.1 s.2 (3, 9)).bind fun e =>
            (to_vector keyLt e.1 e.2).map fun ys => (xs, a, ys)) =
      some ([(3, 1), (3, 2), (3, 4), (4, 3), (5, 0)], some 1,
        [(3, 2), (3, 4), (4, 3), (5, 0)]) :=
  ⟨find_first_equivalent keyLt_strictWeak _ (3, 9), by decide⟩

/-! ## Backward iteration -/

theorem eq_nil_or_snoc {β : Type} (L : List β) : L = [] ∨ ∃ l a, L = l ++ [a] := by
  rcases List.eq_nil_or_concat L with h | ⟨l, a, h⟩
  · exact Or.inl h
  · exact Or.inr ⟨l, a, by rw [h, List.concat_eq_append]⟩

theorem ascendDecr_mono {h : Heap α} {v : α} : ∀ {f g : Nat} {p res : Option Nat},
    ascendDecr lt h v f p = some res → f ≤ g → ascendDecr lt h v g p = some res := by
  intro f
  induction f with
  | zero => intro g p res hf; simp [ascendDecr] at hf
  | succ f ih =>
    intro g p res hf hg
    obtain ⟨g, rfl⟩ : ∃ k, g = k + 1 := ⟨g - 1, by omega⟩
    cases p with
    | none => simpa [ascendDecr] using hf
    | some a =>
      cases hc : h.cell a with
      | none => simp [ascendDecr, hc] at hf
      | some n =>
        simp only [ascendDecr, hc, Option.bind_eq_bind, Option.some_bind] at hf ⊢
        split at hf
        · rename_i hcond
          rw [if_pos hcond]
          exact ih hf (by omega)
        · rename_i hcond
          rw [if_neg hcond]
          exact hf

/-- Loop `while (p->right) p = p->right` ends on the last node of the in-order sequence. -/
theorem rightmost_last {h : Heap α} {T : Tree α} : ∀ {par : Option Nat} {a : Nat} (f : Nat),
    Rep h par T → T.ptr = some a → T.card ≤ f →
    ∃ init p, T.nodes = init ++ [p] ∧ rightmost h f a = some p.1 := by
  induction T with
  | nil => intro _ _ _ _ hp; simp [Tree.ptr] at hp
  | node l b x r _ ihr =>
    intro par a f hrep hp hf
    simp only [Tree.ptr, Option.some.injEq] at hp
    subst hp
    obtain ⟨hc, -, hr⟩ := hrep
    simp only [Tree.card] at hf
    obtain ⟨f, rfl⟩ : ∃ k, f = k + 1 := ⟨f - 1, by omega⟩
    cases hrp : r.ptr with
    | none =>
      have := Tree.ptr_eq_none hrp
      subst this
      exact ⟨l.nodes, (b, x), by simp [Tree.nodes], by simp [rightmost, hc, Tree.ptr]⟩
    | some c =>
      obtain ⟨init, p, hn, hrm⟩ := ihr f hr hrp (by omega)
      refine ⟨l.nodes ++ (b, x) :: init, p, by simp [Tree.nodes, hn], ?_⟩
      simp [rightmost, hc, hrp, hrm]

/-- Ascent and descent of `operator--` inside a held shape without equivalent values: from
the node at any position of the in-order sequence the step reaches the node at the
preceding position; from the first position it leaves the shape through the shape's parent
link. -/
theorem decr_step (hlt : StrictWeak lt) {h : Heap α} {T : Tree α} : ∀ {par : Option Nat},
    Rep h par T → T.Ordered lt → T.nodes.Pairwise (fun p q => Equal lt p.2 q.2 = false) →
    ∀ (pre : List (Nat × α)) (x : Nat) (v : α) (post : List (Nat × α)),
      T.nodes = pre ++ (x, v) :: post →
    ∃ n, h.cell x = some n ∧ n.value = v ∧
      (∀ pre1 y w, pre = pre1 ++ [(y, w)] → ∀ f, T.card ≤ f →
        (match n.left with
          | some l => (rightmost h f l).map some
          | none => ascendDecr lt h v f (some x)) = some (some y)) ∧
      (pre = [] → n.left = none ∧ ∀ f res, ascendDecr lt h v f par = some res →
        ascendDecr lt h v (f + T.card) (some x) = some res) := by
  induction T with
  | nil => intro _ _ _ _ pre x v post hn; simp at hn
  | node l a u r ihl ihr =>
    intro par hrep hord hdist pre x v post hn
    obtain ⟨hc, hl, hr⟩ := hrep
    obtain ⟨h1, h2, h3, h4⟩ := hord
    simp only [Tree.nodes] at hn hdist
    obtain ⟨hdl, hdar, hdlr⟩ := List.pairwise_append.1 hdist
    obtain ⟨hda, hdr⟩ := List.pairwise_cons.1 hdar
    rcases split_at_node hn with ⟨m, hA, hpost⟩ | ⟨hA, hcd, hB⟩ | ⟨m, hB, hpre⟩
    · -- the position lies in the left subtree
      obtain ⟨n, hcx, hval, hpred, hfirst⟩ := ihl hl h3 hdl pre x v m hA
      have hvl : lt v u = true := h1 v (by
        rw [Tree.mem_inorder_iff]; exact ⟨x, by rw [hA]; simp⟩)
      refine ⟨n, hcx, hval, ?_, ?_⟩
      · intro pre1 y w hp f hf
        simp only [Tree.card] at hf
        exact hpred pre1 y w hp f (by omega)
      · intro hp
        obtain ⟨hnl, hup⟩ := hfirst hp
        refine ⟨hnl, ?_⟩
        intro f res hpar
        have hstep : ascendDecr lt h v (f + 1) (some a) = some res := by
          simp [ascendDecr, hc, hlt.asymm _ _ hvl, hpar]
        exact ascendDecr_mono (hup _ _ hstep) (by simp only [Tree.card]; omega)
    · -- the position is the root of the shape
      obtain ⟨rfl, rfl⟩ := Prod.mk.inj hcd
      refine ⟨_, hc, rfl, ?_, ?_⟩
      · intro pre1 y w hp f hf
        simp only [Tree.card] at hf
        cases hlp : l.ptr with
        | none =>
          have := Tree.ptr_eq_none hlp
          subst this
          rw [← hA] at hp
          simp at hp
        | some b =>
          obtain ⟨init, p, hln, hrm⟩ := rightmost_last f hl hlp (by omega)
          rw [hA, hp] at hln
          have := List.append_inj_right' hln (by simp)
          simp only [List.cons.injEq, and_true] at this
          simp [hrm, ← this]
      · intro hp
        rw [← hA] at hp
        have hl0 : l = .nil := by
          cases l with
          | nil => rfl
          | node ll b w lr => simp [Tree.nodes] at hp
        subst hl0
        refine ⟨rfl, ?_⟩
        intro f res hup
        have : f + (Tree.node .nil a u r).card = (f + r.card) + 1 := by
          simp [Tree.card]; omega
        rw [this]
        simp only [ascendDecr, hc, hlt.irrefl, Option.bind_eq_bind, Option.some_bind,
          Bool.not_false, if_true]
        exact ascendDecr_mono hup (by omega)
    · -- the position lies in the right subtree
      obtain ⟨n, hcx, hval, hpred, hfirst⟩ := ihr hr h4 hdr m x v post hB
      have hxr : (x, v) ∈ r.nodes := by rw [hB]; simp
      have hvr : lt v u = false := h2 v (Tree.mem_inorder_iff.2 ⟨x, hxr⟩)
      have huv : lt u v = true := by
        have hne := hda (x, v) hxr
        simp only [Equal, hvr, Bool.not_false, Bool.and_true, Bool.not_eq_false'] at hne
        exact hne
      refine ⟨n, hcx, hval, ?_, ?_⟩
      · intro pre1 y w hp f hf
        simp only [Tree.card] at hf
        rcases eq_nil_or_snoc m with rfl | ⟨m1, q, rfl⟩
        · obtain ⟨hnl, hup⟩ := hfirst rfl
          rw [hpre] at hp
          have := List.append_inj_right' hp (by simp)
          simp only [List.cons.injEq, Prod.mk.injEq, and_true] at this
          obtain ⟨rfl, rfl⟩ := this
          rw [hnl]
          have hstep : ascendDecr lt h v 1 (some a) = some (some a) := by
            simp [ascendDecr, hc, huv]
          exact ascendDecr_mono (hup 1 _ hstep) (by omega)
        · rw [hpre] at hp
          have hp2 : (l.nodes ++ (a, u) :: m1) ++ [q] = pre1 ++ [(y, w)] := by
            rw [← hp]; simp
          have := List.append_inj_right' hp2 (by simp)
          simp only [List.cons.injEq, and_true] at this
          subst this
          exact hpred m1 y w rfl f (by omega)
      · intro hp
        rw [hpre] at hp
        simp at hp

/-- Iterator `operator--` on a well-formed tree without equivalent values moves from any
position of the in-order sequence to the preceding one. -/
theorem decr_prev (hlt : StrictWeak lt) {h : Heap α} (t : BinarySearchTree) {T : Tree α}
    (hrep : Rep h none T) (hord : T.Ordered lt)
    (hdist : T.nodes.Pairwise (fun p q => Equal lt p.2 q.2 = false))
    (hf : T.card < h.fuel) {pre post : List (Nat × α)} {x : Nat} {v : α}
    (hn : T.nodes = pre ++ (x, v) :: post) :
    ConstIterator.decr lt h t (some x) = some (pre.getLast?.map Prod.fst) := by
  obtain ⟨n, hcx, hval, hpred, hfirst⟩ := decr_step hlt hrep hord hdist pre x v post hn
  simp only [ConstIterator.decr, Option.bind_eq_bind, Option.some_bind, hcx]
  rcases eq_nil_or_snoc pre with rfl | ⟨pre1, q, rfl⟩
  · obtain ⟨hnl, hup⟩ := hfirst rfl
    have h1 : ascendDecr lt h v 1 none = some none := by simp [ascendDecr]
    have := ascendDecr_mono (hup 1 none h1) (show 1 + T.card ≤ h.fuel by omega)
    simp [hnl, hval, this]
  · have := hpred pre1 q.1 q.2 rfl h.fuel (by omega)
    rw [hval]
    simpa using this

/-- Iterator `operator--` on `end()` moves to the last position of the in-order sequence. -/
theorem decr_end {h : Heap α} {t : BinarySearchTree} {T : Tree α} (hm : Models lt h t T) :
    ConstIterator.decr lt h t none = some (T.nodes.getLast?.map Prod.fst) := by
  cases hp : T.ptr with
  | none =>
    have := Tree.ptr_eq_none hp
    subst this
    simp [ConstIterator.decr, hm.root, Tree.ptr]
  | some a =>
    obtain ⟨init, p, hn, hrm⟩ := rightmost_last h.fuel hm.rep hp (Nat.le_of_lt hm.card_lt_fuel)
    simp [ConstIterator.decr, hm.root, hp, hrm, hn]

/-- Claim C20 (decrement inverts increment without duplicates).  On every tree reached by
`insert` and `erase` calls whose elements are pairwise non-equivalent, with `ns` the
in-order sequence of nodes: `operator--` on `end()` yields the last node (the greatest
element); for consecutive nodes `y`, `x` of `ns`, `--` on `x` yields `y` and `++` on `y`
yields `x`, so `++(--it) == it` for `it != begin()` and `--(++it) == it` whenever `++it` is
not `end()`; and from the last node `++` yields `end()` and `--` on that returns to it. -/
theorem decr_inverts_incr (hlt : StrictWeak lt) (ops : List (Op α)) :
    ∃ h t ns, run lt ops = some (h, t) ∧ inorderRec h h.fuel t.root_ = some ns ∧
      (ns.Pairwise (fun p q => Equal lt p.2 q.2 = false) →
        ConstIterator.decr lt h t «end» = some (ns.getLast?.map Prod.fst) ∧
        (∀ pre y w x v post, ns = pre ++ (y, w) :: (x, v) :: post →
          ConstIterator.decr lt h t (some x) = some (some y) ∧
          ConstIterator.incr lt h (some y) = some (some x)) ∧
        (∀ pre x v, ns = pre ++ [(x, v)] →
          ConstIterator.incr lt h (some x) = some «end» ∧
          ConstIterator.decr lt h t «end» = some (some x))) := by
  obtain ⟨h, t, T, hrun, hm⟩ := run_models hlt ops
  refine ⟨h, t, T.nodes, hrun, ?_, ?_⟩
  · rw [hm.root]
    exact inorderRec_nodes h.fuel hm.rep hm.card_lt_fuel
  · intro hdist
    refine ⟨decr_end hm, ?_, ?_⟩
    · intro pre y w x v post hn
      constructor
      · have hn1 : T.nodes = (pre ++ [(y, w)]) ++ (x, v) :: post := by rw [hn]; simp
        rw [decr_prev hlt t hm.rep hm.ordered hdist hm.card_lt_fuel hn1]
        simp
      · rw [(incr_next hlt hm.rep hm.ordered hm.card_lt_fuel hn).2]
        rfl
    · intro pre x v hn
      constructor
      · rw [(incr_next hlt hm.rep hm.ordered hm.card_lt_fuel hn).2]
        rfl
      · have := decr_end hm
        rw [hn] at this
        simpa [«end»] using this

/-- Witness for C20: distinct keys, with a tree reshaped by a two-children deletion; the
round trips are also evaluated on the resulting tree `[3, 4, 8, 9]`. -/
theorem decr_inverts_incr_witness :
    (∃ h t ns, run natLt [Op.ins 5, Op.ins 3, Op.ins 8, Op.ins 4, Op.ins 9, Op.del 5] =
        some (h, t) ∧ inorderRec h h.fuel t.root_ = some ns ∧
      (ns.Pairwise (fun p q => Equal natLt p.2 q.2 = false) →
        ConstIterator.decr natLt h t «end» = some (ns.getLast?.map Prod.fst) ∧
        (∀ pre y w x v post, ns = pre ++ (y, w) :: (x, v) :: post →
          ConstIterator.decr natLt h t (some x) = some (some y) ∧
          ConstIterator.incr natLt h (some y) = some (some x)) ∧
        (∀ pre x v, ns = pre ++ [(x, v)] →
          ConstIterator.incr natLt h (some x) = some «end» ∧
          ConstIterator.decr natLt h t «end» = some (some x)))) ∧
    ((run natLt [Op.ins 5, Op.ins 3, Op.ins 8, Op.ins 4, Op.ins 9, Op.del 5]).bind fun s =>
      (inorderRec s.1 s.1.fuel s.2.root_).map fun ns =>
        (ns, ns.map fun p => ConstIterator.decr natLt s.1 s.2 (some p.1),
          ConstIterator.decr natLt s.1 s.2 «end»)) =
      some ([(1, 3), (3, 4), (2, 8), (4, 9)],
        [some none, some (some 1), some (some 3), some (some 2)], some (some 4)) :=
  ⟨decr_inverts_incr natLt_strictWeak _, by decide⟩

/-! ## Shape of a two-children deletion -/

theorem Tree.attach_eq_hangRight (w : α) (R : Tree α) {L : Tree α}
    (hL : ∀ x ∈ L.inorder, lt w x = false) : Tree.attach lt w R L = Tree.hangRight R L := by
  induction L with
  | nil => rfl
  | node l a x r _ ihr =>
    have hx : lt w x = false := hL x (by simp)
    simp only [Tree.attach, hx, Bool.false_eq_true, if_false, Tree.hangRight]
    rw [ihr (fun y hy => hL y (by simp [hy]))]

/-- Merged shape that replaces a node with two children: the left subtree with the right
subtree hung on the right link of its right-most node. -/
theorem Tree.merge_eq_hangRight (hlt : StrictWeak lt) {l r : Tree α} {a : Nat} {v : α}
    (hT : (Tree.node l a v r).Ordered lt) (hl : l ≠ .nil) (hr : r ≠ .nil) :
    Tree.merge lt l r = Tree.hangRight r l := by
  obtain ⟨h1, h2, -, -⟩ := hT
  cases r with
  | nil => exact absurd rfl hr
  | node rl b w rr =>
    cases l with
    | nil => exact absurd rfl hl
    | node ll c u lr =>
      simp only [Tree.merge]
      apply Tree.attach_eq_hangRight
      intro x hx
      have hw : lt w v = false := h2 w (by simp)
      cases hwx : lt w x
      · rfl
      · have := hlt.trans hwx (h1 x hx)
        simp [hw] at this

theorem Tree.replace_of_not_mem (a : Nat) (S : Tree α) {T : Tree α} (ha : a ∉ T.addrs) :
    Tree.replace a S T = T := by
  induction T with
  | nil => rfl
  | node l b v r ihl ihr =>
    simp only [Tree.addrs_node, List.mem_append, List.mem_cons, not_or] at ha
    simp [Tree.replace, ha.2.1, ihl ha.1, ihr ha.2.2]

theorem Tree.mem_of_subtree {T : Tree α} {a : Nat} {S : Tree α}
    (hs : T.subtree? a = some S) : a ∈ T.addrs := by
  by_contra hna
  rw [Tree.subtree_none_of_not_mem hna] at hs
  simp at hs

/-- Shape after `Detach` of a node, in terms of its subtree: the subtree is replaced by the
merged shape of its two subtrees and nothing else moves. -/
theorem Tree.remove_eq_replace {T : Tree α} (hnd : T.addrs.Nodup) {a : Nat} {l r : Tree α}
    {v : α} (hs : T.subtree? a = some (.node l a v r)) :
    T.remove lt a = Tree.replace a (Tree.merge lt l r) T := by
  induction T with
  | nil => simp [Tree.subtree?] at hs
  | node L b u R ihL ihR =>
    obtain ⟨hndL, hndR, hbL, hbR, hLR⟩ := Tree.nodup_node.1 hnd
    simp only [Tree.subtree?] at hs
    by_cases hab : a = b
    · subst hab
      simp only [if_true, Option.some.injEq, Tree.node.injEq] at hs
      obtain ⟨rfl, -, -, rfl⟩ := hs
      simp [Tree.remove, Tree.replace]
    · simp only [hab, if_false] at hs
      simp only [Tree.remove, Tree.replace, hab, if_false]
      cases hsl : Tree.subtree? a L with
      | some S1 =>
        rw [hsl] at hs
        simp only [Option.some.injEq] at hs
        subst hs
        have haR : a ∉ R.addrs := hLR a (Tree.mem_of_subtree hsl)
        rw [ihL hndL hsl, Tree.remove_of_not_mem a haR, Tree.replace_of_not_mem a _ haR]
      | none =>
        rw [hsl] at hs
        have haL : a ∉ L.addrs := fun hm => hLR a hm (Tree.mem_of_subtree hs)
        rw [ihR hndR hs, Tree.remove_of_not_mem a haL, Tree.replace_of_not_mem a _ haL]

theorem twoChildrenExample_models :
    Models natLt twoChildrenExample.1 twoChildrenExample.2 twoChildrenShape := by
  refine ⟨rfl, ?_, by decide, ?_, rfl, by decide⟩
  · exact ⟨rfl, ⟨rfl, trivial, trivial⟩, ⟨rfl, ⟨rfl, trivial, trivial⟩, ⟨rfl, trivial, trivial⟩⟩⟩
  · simp [twoChildrenShape, Tree.Ordered, natLt]

/-- Claim C16 (shape of a two-children deletion).  In a well-formed tree obeying the
placement rule, erasing a node `N` with left subtree `L` and right subtree `R` returns and
leaves the store holding the old shape with the subtree at `N` replaced by `L` carrying `R`
on the right link of its right-most node: `L` takes `N`'s slot (or becomes the root), `R`
and the rest of the tree keep their links. -/
theorem erase_two_children_shape (hlt : StrictWeak lt) {h : Heap α} {t : BinarySearchTree}
    {T : Tree α} (hm : Models lt h t T) {a : Nat} {l r : Tree α} {v : α}
    (hs : T.subtree? a = some (.node l a v r)) (hl : l ≠ .nil) (hr : r ≠ .nil) :
    ∃ h1 t1, erase_iter lt h t (some a) = some (h1, t1) ∧
      Rep h1 none (Tree.replace a (Tree.hangRight r l) T) ∧
      t1.root_ = (Tree.replace a (Tree.hangRight r l) T).ptr ∧ size t1 + 1 = size t := by
  have ha : a ∈ T.addrs := Tree.mem_of_subtree hs
  obtain ⟨-, hord, -, -, -⟩ := Tree.subtree_spec hm.rep hm.ordered hs
  obtain ⟨h1, t1, he, hm1, -⟩ := erase_iter_models hlt hm ha
  have hshape : T.remove lt a = Tree.replace a (Tree.hangRight r l) T := by
    rw [Tree.remove_eq_replace hm.nodup hs, Tree.merge_eq_hangRight hlt hord hl hr]
  rw [hshape] at hm1
  refine ⟨h1, t1, he, hm1.rep, hm1.root, ?_⟩
  simp only [size, hm1.size, hm.size, ← hshape]
  exact Tree.card_remove hlt hm.ordered hm.nodup ha

/-- Witness for C16: after inserting 10, 5, 15, 12, 20, erasing the root 10 (address 0)
makes 5 (address 1) the root with right child 15 (address 2), which keeps its children 12
and 20 (addresses 3 and 4). -/
theorem erase_two_children_shape_witness :
    (∃ h1 t1, erase_iter natLt twoChildrenExample.1 twoChildrenExample.2 (some 0) =
        some (h1, t1) ∧
      Rep h1 none (Tree.replace 0 (Tree.hangRight
        (.node (.node .nil 3 12 .nil) 2 15 (.node .nil 4 20 .nil)) (.node .nil 1 5 .nil))
        twoChildrenShape) ∧
      t1.root_ = (Tree.replace 0 (Tree.hangRight
        (.node (.node .nil 3 12 .nil) 2 15 (.node .nil 4 20 .nil)) (.node .nil 1 5 .nil))
        twoChildrenShape).ptr ∧ size t1 + 1 = size twoChildrenExample.2) ∧
    ((erase_iter natLt twoChildrenExample.1 twoChildrenExample.2 (some 0)).map fun s =>
      (s.2.root_, [1, 2, 3, 4].map fun i =>
        (s.1.cell i).map fun n => (n.value, n.left, n.right, n.parent))) =
      some (some 1, [some (5, none, some 2, none), some (15, some 3, some 4, some 1),
        some (12, none, none, some 2), some (20, none, none, some 2)]) :=
  ⟨erase_two_children_shape natLt_strictWeak twoChildrenExample_models rfl
    (by simp) (by simp), by rfl⟩

/-! ## Equivalent values under insertion -/

theorem Tree.not_mem_of_subtree_none {T : Tree α} (hnd : T.addrs.Nodup) {a : Nat}
    (hs : T.subtree? a = none) : a ∉ T.addrs := by
  intro ha
  obtain ⟨x, hx⟩ := Tree.mem_addrs_iff.1 ha
  obtain ⟨l, r, hs1⟩ := Tree.subtree_of_mem hnd hx
  rw [hs] at hs1
  simp at hs1

theorem Tree.subtree_nodes_sub {T : Tree α} {a : Nat} {S : Tree α}
    (hs : T.subtree? a = some S) : S.ptr = some a ∧ ∀ p ∈ S.nodes, p ∈ T.nodes := by
  induction T with
  | nil => simp [Tree.subtree?] at hs
  | node L b u R ihL ihR =>
    simp only [Tree.subtree?] at hs
    by_cases hab : a = b
    · subst hab
      simp only [if_true, Option.some.injEq] at hs
      subst hs
      exact ⟨rfl, fun p hp => hp⟩
    · simp only [hab, if_false] at hs
      cases hsl : Tree.subtree? a L with
      | some S1 =>
        rw [hsl] at hs
        simp only [Option.some.injEq] at hs
        subst hs
        obtain ⟨h1, h2⟩ := ihL hsl
        exact ⟨h1, fun p hp => by simp [Tree.nodes, h2 p hp]⟩
      | none =>
        rw [hsl] at hs
        obtain ⟨h1, h2⟩ := ihR hs
        exact ⟨h1, fun p hp => by simp [Tree.nodes, h2 p hp]⟩

/-- Effect of hanging a new leaf `n` with value `v` on the subtree rooted at an older node
`a`: the node keeps its value, its subtrees keep their nodes, and when its value is
equivalent to `v` the new leaf lands in its right subtree. -/
theorem Tree.subtree_attach_leaf (hlt : StrictWeak lt) (v : α) (n : Nat) {T : Tree α}
    (hT : T.Ordered lt) (hnd : T.addrs.Nodup) (hn : n ∉ T.addrs) {a : Nat} {l r : Tree α}
    {x : α} (hs : T.subtree? a = some (.node l a x r)) :
    ∃ l1 r1, (Tree.attach lt v (.node .nil n v .nil) T).subtree? a = some (.node l1 a x r1) ∧
      (∀ p ∈ l.nodes, p ∈ l1.nodes) ∧ (∀ p ∈ r.nodes, p ∈ r1.nodes) ∧
      (Equal lt x v = true → (n, v) ∈ r1.nodes) := by
  induction T with
  | nil => simp [Tree.subtree?] at hs
  | node L b u R ihL ihR =>
    obtain ⟨h1, h2, h3, h4⟩ := hT
    obtain ⟨hndL, hndR, hbL, hbR, hLR⟩ := Tree.nodup_node.1 hnd
    simp only [Tree.addrs_node, List.mem_append, List.mem_cons, not_or] at hn
    obtain ⟨hnL, hnb, hnR⟩ := hn
    have hmemA : ∀ (S : Tree α) (p : Nat × α), p ∈ S.nodes →
        p ∈ (Tree.attach lt v (.node .nil n v .nil) S).nodes := by
      intro S p hp
      exact (Tree.nodes_attach_perm lt v _ S).mem_iff.2 (List.mem_append_left _ hp)
    have hnewA : ∀ (S : Tree α), (n, v) ∈ (Tree.attach lt v (.node .nil n v .nil) S).nodes := by
      intro S
      exact (Tree.nodes_attach_perm lt v _ S).mem_iff.2
        (List.mem_append_right _ (by simp [Tree.nodes]))
    have hxmem : (a, x) ∈ (Tree.node L b u R).nodes :=
      (Tree.subtree_nodes_sub hs).2 _ (by simp [Tree.nodes])
    simp only [Tree.subtree?] at hs
    by_cases hab : a = b
    · subst hab
      simp only [if_true, Option.some.injEq, Tree.node.injEq] at hs
      obtain ⟨rfl, -, rfl, rfl⟩ := hs
      simp only [Tree.attach]
      by_cases hv : lt v u = true
      · simp only [hv, if_true]
        refine ⟨_, _, by simp [Tree.subtree?], hmemA L, fun p hp => hp, ?_⟩
        intro he
        simp only [Equal, Bool.and_eq_true, Bool.not_eq_true'] at he
        simp [he.2] at hv
      · have hv : lt v u = false := by simpa using hv
        simp only [hv, Bool.false_eq_true, if_false]
        exact ⟨_, _, by simp [Tree.subtree?], fun p hp => hp, hmemA R, fun _ => hnewA R⟩
    · simp only [hab, if_false] at hs
      simp only [Tree.attach]
      cases hsl : Tree.subtree? a L with
      | some S1 =>
        rw [hsl] at hs
        simp only [Option.some.injEq] at hs
        subst hs
        by_cases hv : lt v u = true
        · simp only [hv, if_true]
          obtain ⟨l1, r1, hs1, hl1, hr1, he1⟩ := ihL h3 hndL hnL hsl
          exact ⟨l1, r1, by simp [Tree.subtree?, hab, hs1], hl1, hr1, he1⟩
        · have hv : lt v u = false := by simpa using hv
          simp only [hv, Bool.false_eq_true, if_false]
          refine ⟨l, r, by simp [Tree.subtree?, hab, hsl], fun p hp => hp, fun p hp => hp, ?_⟩
          intro he
          exfalso
          have hxL : (a, x) ∈ L.nodes :=
            (Tree.subtree_nodes_sub hsl).2 _ (by simp [Tree.nodes])
          have hxu : lt x u = true := h1 x (Tree.mem_inorder_iff.2 ⟨a, hxL⟩)
          simp only [Equal, Bool.and_eq_true, Bool.not_eq_true'] at he
          have := hlt.negTrans x v u he.1 hv
          simp [hxu] at this
      | none =>
        simp only [hsl] at hs
        have haL : a ∉ L.addrs := Tree.not_mem_of_subtree_none hndL hsl
        have han : a ≠ n := by
          rintro rfl
          exact hnR (Tree.mem_of_subtree hs)
        by_cases hv : lt v u = true
        · simp only [hv, if_true]
          have hnone : (Tree.attach lt v (.node .nil n v .nil) L).subtree? a = none := by
            apply Tree.subtree_none_of_not_mem
            intro hm
            rcases List.mem_append.1 ((Tree.addrs_attach_perm v _ L).mem_iff.1 hm) with hm | hm
            · exact haL hm
            · simp at hm
              exact han hm
          refine ⟨l, r, by simp [Tree.subtree?, hab, hnone, hs], fun p hp => hp,
            fun p hp => hp, ?_⟩
          intro he
          exfalso
          have hxR : (a, x) ∈ R.nodes :=
            (Tree.subtree_nodes_sub hs).2 _ (by simp [Tree.nodes])
          have hxu : lt x u = false := h2 x (Tree.mem_inorder_iff.2 ⟨a, hxR⟩)
          simp only [Equal, Bool.and_eq_true, Bool.not_eq_true'] at he
          have := hlt.lt_of_not_lt_of_lt he.2 hv
          simp [hxu] at this
        · have hv : lt v u = false := by simpa using hv
          simp only [hv, Bool.false_eq_true, if_false]
          obtain ⟨l1, r1, hs1, hl1, hr1, he1⟩ := ihR h4 hndR hnR hs
          exact ⟨l1, r1, by simp [Tree.subtree?, hab, hsl, hs1], hl1, hr1, he1⟩

/-- Trees built by insertions only, from an empty store: the node made by the `i`-th
`insert` has address `i`, and a node equivalent to an older node lies in the older node's
right subtree. -/
theorem insertAll_chain (hlt : StrictWeak lt) (xs : List α) :
    ∀ (done : List α) {h : Heap α} {t : BinarySearchTree} {T : Tree α}, Models lt h t T →
      h.next = done.length → (∀ a x, (a, x) ∈ T.nodes ↔ done[a]? = some x) →
      (∀ a b x y, a < b → (a, x) ∈ T.nodes → (b, y) ∈ T.nodes → Equal lt x y = true →
        ∃ l r, T.subtree? a = some (.node l a x r) ∧ (b, y) ∈ r.nodes) →
      ∃ h1 t1 T1, insertAll lt h t xs = some (h1, t1) ∧ Models lt h1 t1 T1 ∧
        (∀ a x, (a, x) ∈ T1.nodes ↔ (done ++ xs)[a]? = some x) ∧
        (∀ a b x y, a < b → (a, x) ∈ T1.nodes → (b, y) ∈ T1.nodes → Equal lt x y = true →
          ∃ l r, T1.subtree? a = some (.node l a x r) ∧ (b, y) ∈ r.nodes) := by
  induction xs with
  | nil =>
    intro done h t T hm _ hidx hchain
    exact ⟨h, t, T, rfl, hm, by simpa using hidx, hchain⟩
  | cons v xs ih =>
    intro done h t T hm hnext hidx hchain
    obtain ⟨h1, t1, hi, hm1, hnx, -⟩ := insert_models hm v
    have hfresh : h.next ∉ T.addrs := fun hmem => Nat.lt_irrefl _ (hm.bound _ hmem)
    have hnodes : ∀ p, p ∈ (Tree.attach lt v (.node .nil h.next v .nil) T).nodes ↔
        p ∈ T.nodes ∨ p = (h.next, v) := by
      intro p
      rw [(Tree.nodes_attach_perm lt v _ T).mem_iff]
      simp [Tree.nodes]
    have hlt_next : ∀ a x, (a, x) ∈ T.nodes → a < h.next :=
      fun a x hax => hm.bound a (Tree.mem_addrs_iff.2 ⟨x, hax⟩)
    have hidx1 : ∀ a x, (a, x) ∈ (Tree.attach lt v (.node .nil h.next v .nil) T).nodes ↔
        (done ++ [v])[a]? = some x := by
      intro a x
      rw [hnodes, hidx]
      by_cases ha : a < done.length
      · rw [List.getElem?_append_left ha]
        constructor
        · rintro (h1 | h1)
          · exact h1
          · simp only [Prod.mk.injEq] at h1
            omega
        · exact Or.inl
      · rw [List.getElem?_append_right (by omega), List.getElem?_eq_none (by omega)]
        by_cases ha2 : a = done.length
        · subst ha2
          simp [hnext, eq_comm]
        · have : a - done.length ≠ 0 := by omega
          obtain ⟨k, hk⟩ : ∃ k, a - done.length = k + 1 := ⟨a - done.length - 1, by omega⟩
          simp [hk, hnext, ha2]
    have hchain1 : ∀ a b x y, a < b →
        (a, x) ∈ (Tree.attach lt v (.node .nil h.next v .nil) T).nodes →
        (b, y) ∈ (Tree.attach lt v (.node .nil h.next v .nil) T).nodes →
        Equal lt x y = true →
        ∃ l r, (Tree.attach lt v (.node .nil h.next v .nil) T).subtree? a =
          some (.node l a x r) ∧ (b, y) ∈ r.nodes := by
      intro a b x y hab hax hby he
      rw [hnodes] at hax hby
      have hax1 : (a, x) ∈ T.nodes := by
        rcases hax with hax | hax
        · exact hax
        · exfalso
          simp only [Prod.mk.injEq] at hax
          rcases hby with hby | hby
          · have := hlt_next b y hby
            omega
          · simp only [Prod.mk.injEq] at hby
            omega
      rcases hby with hby | hby
      · obtain ⟨l, r, hs, hbr⟩ := hchain a b x y hab hax1 hby he
        obtain ⟨l1, r1, hs1, -, hr1, -⟩ :=
          Tree.subtree_attach_leaf hlt v h.next hm.ordered hm.nodup hfresh hs
        exact ⟨l1, r1, hs1, hr1 _ hbr⟩
      · simp only [Prod.mk.injEq] at hby
        obtain ⟨rfl, rfl⟩ := hby
        obtain ⟨l, r, hs⟩ := Tree.subtree_of_mem hm.nodup hax1
        obtain ⟨l1, r1, hs1, -, -, he1⟩ :=
          Tree.subtree_attach_leaf hlt y h.next hm.ordered hm.nodup hfresh hs
        exact ⟨l1, r1, hs1, he1 he⟩
    obtain ⟨h2, t2, T2, hr, hm2, hidx2, hchain2⟩ :=
      ih (done ++ [v]) hm1 (by simp [hnx, hnext]) hidx1 hchain1
    exact ⟨h2, t2, T2, by simp [insertAll, hi, hr], hm2, by simpa using hidx2, hchain2⟩

/-- Claim C17 (duplicate chain) fails as stated.  After inserting 5, 7, 5 the second 5
(address 2) is equivalent to the first 5 (address 0) but is not its right child: the right
child of the first 5 is 7 (address 1), and the second 5 is the left child of 7. -/
theorem equivalent_not_right_child :
    ∃ h t, fromInitializerList natLt [5, 7, 5] = some (h, t) ∧
      ((h.cell 0).map fun n => (n.value, n.right)) = some (5, some 1) ∧
      ((h.cell 1).map fun n => (n.value, n.left)) = some (7, some 2) ∧
      ((h.cell 2).map fun n => (n.value, n.parent)) = some (5, some 1) := by
  refine ⟨_, _, rfl, ?_, ?_, ?_⟩ <;> rfl

/-- Claim C17 as amended.  In the tree built by inserting a sequence of values into the
empty tree (the `i`-th inserted node has address `i`), a node whose value is equivalent to
the value of an earlier inserted node lies in the right subtree of that earlier node. -/
theorem equivalent_in_right_subtree (hlt : StrictWeak lt) (xs : List α) :
    ∃ h t, fromInitializerList lt xs = some (h, t) ∧
      ∀ i j x y, i < j → xs[i]? = some x → xs[j]? = some y → Equal lt x y = true →
        ∃ n rs, h.cell i = some n ∧ n.value = x ∧
          inorderRec h h.fuel n.right = some rs ∧ (j, y) ∈ rs := by
  obtain ⟨h, t, T, hrun, hm, hidx, hchain⟩ :=
    insertAll_chain hlt xs [] (Models.empty lt) rfl (by simp [Tree.nodes]) (by simp [Tree.nodes])
  refine ⟨h, t, hrun, ?_⟩
  intro i j x y hij hi hj he
  simp only [List.nil_append] at hidx
  have hix : (i, x) ∈ T.nodes := (hidx i x).2 hi
  have hjy : (j, y) ∈ T.nodes := (hidx j y).2 hj
  obtain ⟨l, r, hs, hmem⟩ := hchain i j x y hij hix hjy he
  obtain ⟨l2, r2, n, hs2, hc, hval, -, -, -, hir, -, -⟩ := hm.node_spec hix
  rw [hs] at hs2
  simp only [Option.some.injEq, Tree.node.injEq] at hs2
  obtain ⟨-, -, -, rfl⟩ := hs2
  exact ⟨n, r.nodes, hc, hval, hir, hmem⟩

/-- Witness for amended C17: inserting 5, 7, 5, 6, 5 puts the second and third 5 in the
right subtree of the first one, and the third in the right subtree of the second. -/
theorem equivalent_in_right_subtree_witness :
    (∃ h t, fromInitializerList natLt [5, 7, 5, 6, 5] = some (h, t) ∧
      ∀ i j x y, i < j → [5, 7, 5, 6, 5][i]? = some x → [5, 7, 5, 6, 5][j]? = some y →
        Equal natLt x y = true →
        ∃ n rs, h.cell i = some n ∧ n.value = x ∧
          inorderRec h h.fuel n.right = some rs ∧ (j, y) ∈ rs) ∧
    ((fromInitializerList natLt [5, 7, 5, 6, 5]).bind fun s =>
      (s.1.cell 0).bind fun n => (s.1.cell 2).bind fun m =>
        (inorderRec s.1 s.1.fuel n.right).bind fun rs =>
          (inorderRec s.1 s.1.fuel m.right).map fun rs2 => (rs, rs2)) =
      some ([(2, 5), (4, 5), (3, 6), (1, 7)], [(4, 5), (3, 6)]) :=
  ⟨equivalent_in_right_subtree natLt_strictWeak _, by rfl⟩

/-! ## Two trees in one store -/

/-- A well-formed tree stays well formed when the store changes outside its nodes and the
allocation counter does not go back. -/
theorem Models.untouched {h h1 : Heap α} {t : BinarySearchTree} {T : Tree α}
    (hm : Models lt h t T) (hfr : ∀ i ∈ T.addrs, h1.cell i = h.cell i)
    (hnx : h.next ≤ h1.next) : Models lt h1 t T :=
  ⟨hm.root, Rep.frame hfr hm.rep, hm.nodup, hm.ordered, hm.size,
    fun a ha => Nat.lt_of_lt_of_le (hm.bound a ha) hnx⟩

/-- Every mutating call returns, keeps its tree well formed, leaves the allocated cells
outside its tree untouched, and its tree gains at most the freshly allocated address. -/
theorem Op.apply_frame (hlt : StrictWeak lt) {h : Heap α} {t : BinarySearchTree} {T : Tree α}
    (hm : Models lt h t T) (op : Op α) :
    ∃ h1 t1 T1, op.apply lt h t = some (h1, t1) ∧ Models lt h1 t1 T1 ∧ h.next ≤ h1.next ∧
      (∀ i, i ∉ T.addrs → i < h.next → h1.cell i = h.cell i) ∧
      (∀ i ∈ T1.addrs, i ∈ T.addrs ∨ i = h.next) := by
  have hrem : ∀ a, ∀ i ∈ (T.remove lt a).addrs, i ∈ T.addrs ∨ i = h.next := by
    intro a i hi
    rw [Tree.addrs_remove hlt a hm.ordered hm.nodup, List.mem_filter] at hi
    exact Or.inl hi.1
  cases op with
  | ins v =>
    obtain ⟨h1, t1, hi, hm1, hnx, hfr⟩ := insert_models hm v
    refine ⟨h1, t1, _, hi, hm1, by omega, fun i hi1 hi2 => hfr i hi1 (by omega), ?_⟩
    intro i hi1
    rcases List.mem_append.1 ((Tree.addrs_attach_perm v _ T).mem_iff.1 hi1) with hi1 | hi1
    · exact Or.inl hi1
    · simp only [Tree.addrs_node, Tree.addrs_nil, List.nil_append, List.mem_singleton] at hi1
      exact Or.inr hi1
  | del v =>
    obtain ⟨h1, t1, he, hnx, hcase⟩ := erase_models hlt hm v
    rcases hcase with ⟨-, rfl, rfl⟩ | ⟨a, -, hm1, hfr⟩
    · exact ⟨h1, t1, T, he, hm, le_refl _, fun _ _ _ => rfl, fun i hi => Or.inl hi⟩
    · exact ⟨h1, t1, _, he, hm1, by omega, fun i hi1 _ => hfr i hi1, hrem a⟩
  | delAt k =>
    have hadv := advance_drop hlt hm.rep hm.ordered hm.card_lt_fuel k T.nodes [] rfl
    simp only [Op.apply, begin_head hm, hadv, Option.bind_eq_bind, Option.some_bind]
    cases hd : (T.nodes.drop k).head? with
    | none => exact ⟨h, t, T, rfl, hm, le_refl _, fun _ _ _ => rfl, fun i hi => Or.inl hi⟩
    | some p =>
      have hp : p.1 ∈ T.addrs := by
        have : p ∈ T.nodes.drop k := List.mem_of_mem_head? hd
        exact Tree.mem_addrs_iff.2 ⟨p.2, List.mem_of_mem_drop this⟩
      obtain ⟨h1, t1, he, hm1, hnx, hfr⟩ := erase_iter_models hlt hm hp
      exact ⟨h1, t1, _, he, hm1, by omega, fun i hi1 _ => hfr i hi1, hrem p.1⟩

theorem run2From_models (hlt : StrictWeak lt) (ops : List (Op2 α)) :
    ∀ {h : Heap α} {a b : BinarySearchTree} {TA TB : Tree α}, Models lt h a TA →
      Models lt h b TB → (∀ i ∈ TA.addrs, i ∉ TB.addrs) →
      ∃ h1 a1 b1 TA1 TB1, run2From lt h a b ops = some (h1, a1, b1) ∧ Models lt h1 a1 TA1 ∧
        Models lt h1 b1 TB1 ∧ ∀ i ∈ TA1.addrs, i ∉ TB1.addrs := by
  induction ops with
  | nil => intro h a b TA TB hA hB hd; exact ⟨h, a, b, TA, TB, rfl, hA, hB, hd⟩
  | cons op ops ih =>
    intro h a b TA TB hA hB hd
    cases op with
    | onA op =>
      obtain ⟨h1, a1, TA1, hap, hA1, hnx, hfr, hnew⟩ := Op.apply_frame hlt hA op
      have hB1 : Models lt h1 b TB := hB.untouched
        (fun i hi => hfr i (fun hiA => hd i hiA hi) (hB.bound i hi)) hnx
      have hd1 : ∀ i ∈ TA1.addrs, i ∉ TB.addrs := by
        intro i hi hiB
        rcases hnew i hi with hiA | rfl
        · exact hd i hiA hiB
        · exact Nat.lt_irrefl _ (hB.bound _ hiB)
      obtain ⟨h2, a2, b2, TA2, TB2, hr, hA2, hB2, hd2⟩ := ih hA1 hB1 hd1
      exact ⟨h2, a2, b2, TA2, TB2, by simp [run2From, hap, hr], hA2, hB2, hd2⟩
    | onB op =>
      obtain ⟨h1, b1, TB1, hap, hB1, hnx, hfr, hnew⟩ := Op.apply_frame hlt hB op
      have hA1 : Models lt h1 a TA := hA.untouched
        (fun i hi => hfr i (hd i hi) (hA.bound i hi)) hnx
      have hd1 : ∀ i ∈ TA.addrs, i ∉ TB1.addrs := by
        intro i hi hiB
        rcases hnew i hiB with hiB | rfl
        · exact hd i hi hiB
        · exact Nat.lt_irrefl _ (hA.bound _ hi)
      obtain ⟨h2, a2, b2, TA2, TB2, hr, hA2, hB2, hd2⟩ := ih hA1 hB1 hd1
      exact ⟨h2, a2, b2, TA2, TB2, by simp [run2From, hap, hr], hA2, hB2, hd2⟩

/-- Every sequence of calls on two default-constructed trees returns two well-formed trees
with disjoint nodes. -/
theorem run2_models (hlt : StrictWeak lt) (ops : List (Op2 α)) :
    ∃ h a b TA TB, run2 lt ops = some (h, a, b) ∧ Models lt h a TA ∧ Models lt h b TB ∧
      ∀ i ∈ TA.addrs, i ∉ TB.addrs :=
  run2From_models hlt ops (Models.empty lt) (Models.empty lt) (by simp)

/-! ## `operator==` -/

theorem Equal_comm (x y : α) : Equal lt x y = Equal lt y x := by
  simp only [Equal]
  exact Bool.and_comm _ _

theorem operatorEqLoop_suffix (hlt : StrictWeak lt) {h : Heap α} {TA TB : Tree α}
    (hrA : Rep h none TA) (hoA : TA.Ordered lt) (hfA : TA.card < h.fuel)
    (hrB : Rep h none TB) (hoB : TB.Ordered lt) (hfB : TB.card < h.fuel) :
    ∀ (restA preA restB preB : List (Nat × α)) (f : Nat), TA.nodes = preA ++ restA →
      TB.nodes = preB ++ restB → restA.length = restB.length → restA.length < f →
      operatorEqLoop lt h f (restA.head?.map Prod.fst) (restB.head?.map Prod.fst) =
        some ((List.zipWith (fun p q => Equal lt p.2 q.2) restA restB).all id) := by
  intro restA
  induction restA with
  | nil =>
    intro preA restB preB f _ _ _ hlen
    obtain ⟨f, rfl⟩ : ∃ g, f = g + 1 := ⟨f - 1, by omega⟩
    simp [operatorEqLoop]
  | cons p restA ih =>
    intro preA restB preB f hnA hnB hl hlen
    obtain ⟨f, rfl⟩ : ∃ g, f = g + 1 := ⟨f - 1, by omega⟩
    cases restB with
    | nil => simp at hl
    | cons q restB =>
      obtain ⟨⟨n, hcp, hvp⟩, hincA⟩ := incr_next hlt hrA hoA hfA (x := p.1) (v := p.2) hnA
      obtain ⟨⟨m, hcq, hvq⟩, hincB⟩ := incr_next hlt hrB hoB hfB (x := q.1) (v := q.2) hnB
      simp only [List.head?_cons, Option.map_some', operatorEqLoop, hcp, Heap.read, hcq,
        hincA, hincB, hvp, hvq, Option.bind_eq_bind, Option.some_bind, List.zipWith_cons_cons,
        List.all_cons, id]
      rw [Equal_comm q.2 p.2]
      by_cases he : Equal lt p.2 q.2 = true
      · simp only [he, Bool.not_true, Bool.false_eq_true, if_false, Bool.true_and]
        exact ih (preA ++ [p]) restB (preB ++ [q]) f (by simp [hnA]) (by simp [hnB])
          (by simpa using hl) (by simp at hlen; omega)
      · simp [he]

theorem zipWith_all_iff_forall₂ {β : Type} (f : β → β → Bool) :
    ∀ (xs ys : List β), xs.length = ys.length →
      ((List.zipWith f xs ys).all id = true ↔ List.Forall₂ (fun x y => f x y = true) xs ys) := by
  intro xs
  induction xs with
  | nil =>
    intro ys hl
    cases ys with
    | nil => simp
    | cons y ys => simp at hl
  | cons x xs ih =>
    intro ys hl
    cases ys with
    | nil => simp at hl
    | cons y ys =>
      simp only [List.zipWith_cons_cons, List.all_cons, id, Bool.and_eq_true,
        List.forall₂_cons]
      rw [ih ys (by simpa using hl)]

/-- Function `operator==` on two well-formed trees of one store: it returns, and the result
is true exactly when the sizes agree and the in-order sequences are equivalent position by
position. -/
theorem operatorEq_models (hlt : StrictWeak lt) {h : Heap α} {a b : BinarySearchTree}
    {TA TB : Tree α} (hA : Models lt h a TA) (hB : Models lt h b TB) :
    ∃ res, operatorEq lt h a b = some res ∧
      (res = true ↔ size a = size b ∧
        List.Forall₂ (fun x y => Equal lt x y = true) TA.inorder TB.inorder) := by
  by_cases hs : size a = size b
  · have hcard : TA.card = TB.card := by
      simp only [size, hA.size, hB.size] at hs
      exact hs
    have hlen : TA.nodes.length = TB.nodes.length := by
      rw [Tree.length_nodes, Tree.length_nodes, hcard]
    have hloop := operatorEqLoop_suffix hlt hA.rep hA.ordered hA.card_lt_fuel hB.rep hB.ordered
      hB.card_lt_fuel TA.nodes [] TB.nodes [] h.fuel rfl rfl hlen
      (by rw [Tree.length_nodes]; exact hA.card_lt_fuel)
    refine ⟨(List.zipWith (fun p q => Equal lt p.2 q.2) TA.nodes TB.nodes).all id, ?_, ?_⟩
    · simp only [operatorEq, hs, ne_eq, not_true_eq_false, if_false, begin_head hA,
        begin_head hB, Option.bind_eq_bind, Option.some_bind]
      exact hloop
    · have hz : List.zipWith (fun p q => Equal lt p.2 q.2) TA.nodes TB.nodes =
          List.zipWith (fun x y => Equal lt x y) TA.inorder TB.inorder := by
        simp [Tree.inorder, List.zipWith_map]
      rw [hz, zipWith_all_iff_forall₂ _ _ _ (by
        rw [Tree.length_inorder, Tree.length_inorder, hcard])]
      simp [hs]
  · refine ⟨false, by simp [operatorEq, hs], ?_⟩
    simp [hs]

/-- Position of an element of a non-decreasing sequence against a value: the element is
less than `v` exactly when its index is below the number of elements less than `v`. -/
theorem sorted_lt_iff_index (hlt : StrictWeak lt) (v : α) :
    ∀ {L : List α}, L.Pairwise (fun x y => lt y x = false) → ∀ (i : Nat) (x : α),
      L[i]? = some x → (lt x v = true ↔ i < L.countP (fun z => lt z v)) := by
  intro L
  induction L with
  | nil => intro _ i x hx; simp at hx
  | cons y L ih =>
    intro hs i x hx
    obtain ⟨hy, hL⟩ := List.pairwise_cons.1 hs
    rw [List.countP_cons]
    cases i with
    | zero =>
      simp only [List.getElem?_cons_zero, Option.some.injEq] at hx
      subst hx
      constructor
      · intro h1
        simp [h1]
      · intro h1
        by_contra hyv
        have hyv : lt y v = false := by simpa using hyv
        simp only [hyv, Bool.false_eq_true, if_false, Nat.add_zero] at h1
        obtain ⟨z, hz, hzv⟩ := List.countP_pos_iff.1 h1
        have := hlt.lt_of_not_lt_of_lt (hy z hz) hzv
        simp [hyv] at this
    | succ j =>
      simp only [List.getElem?_cons_succ] at hx
      have hih := ih hL j x hx
      by_cases hyv : lt y v = true
      · simp only [hyv, if_true]
        rw [hih]
        omega
      · have hyv : lt y v = false := by simpa using hyv
        simp only [hyv, Bool.false_eq_true, if_false, Nat.add_zero]
        have hxL : x ∈ L := List.getElem?_mem hx
        have hxv : lt x v = false := by
          cases hxv : lt x v
          · rfl
          · have := hlt.lt_of_not_lt_of_lt (hy x hxL) hxv
            simp [hyv] at this
        have hnot : ¬ j < L.countP (fun z => lt z v) := by
          rw [← hih]
          simp [hxv]
        simp only [hxv, Bool.false_eq_true, false_iff]
        omega

/-- Two non-decreasing arrangements of the same elements are equivalent position by
position. -/
theorem sorted_perm_equiv (hlt : StrictWeak lt) {xs ys : List α} (hp : xs.Perm ys)
    (hx : xs.Pairwise (fun x y => lt y x = false))
    (hy : ys.Pairwise (fun x y => lt y x = false)) :
    List.Forall₂ (fun x y => Equal lt x y = true) xs ys := by
  rw [List.forall₂_iff_get]
  refine ⟨hp.length_eq, ?_⟩
  intro i h1 h2
  have hxi : xs[i]? = some (xs.get ⟨i, h1⟩) := by simp [List.getElem?_eq_getElem h1]
  have hyi : ys[i]? = some (ys.get ⟨i, h2⟩) := by simp [List.getElem?_eq_getElem h2]
  have key : ∀ v, lt (xs.get ⟨i, h1⟩) v = lt (ys.get ⟨i, h2⟩) v := by
    intro v
    have e1 := sorted_lt_iff_index hlt v hx i _ hxi
    have e2 := sorted_lt_iff_index hlt v hy i _ hyi
    rw [hp.countP_eq] at e1
    have : (lt (xs.get ⟨i, h1⟩) v = true ↔ lt (ys.get ⟨i, h2⟩) v = true) := e1.trans e2.symm
    exact Bool.eq_iff_iff.2 this
  simp only [Equal, Bool.and_eq_true, Bool.not_eq_true']
  constructor
  · rw [key]
    exact hlt.irrefl _
  · rw [← key]
    exact hlt.irrefl _

theorem run2From_append (ops1 ops2 : List (Op2 α)) :
    ∀ (h : Heap α) (a b : BinarySearchTree),
      run2From lt h a b (ops1 ++ ops2) =
        (run2From lt h a b ops1).bind fun s => run2From lt s.1 s.2.1 s.2.2 ops2 := by
  induction ops1 with
  | nil => intro h a b; simp [run2From]
  | cons op ops1 ih =>
    intro h a b
    cases op with
    | onA op =>
      simp only [List.cons_append, run2From, Option.bind_eq_bind]
      cases Op.apply lt h a op with
      | none => rfl
      | some s => simp [ih]
    | onB op =>
      simp only [List.cons_append, run2From, Option.bind_eq_bind]
      cases Op.apply lt h b op with
      | none => rfl
      | some s => simp [ih]

/-- Insertions into the first of two trees: the second tree is untouched and the first
gains the inserted values. -/
theorem run2From_insertsA (xs : List α) :
    ∀ {h : Heap α} {a b : BinarySearchTree} {TA TB : Tree α}, Models lt h a TA →
      Models lt h b TB → (∀ i ∈ TA.addrs, i ∉ TB.addrs) →
      ∃ h1 a1 TA1, run2From lt h a b (xs.map fun v => Op2.onA (Op.ins v)) = some (h1, a1, b) ∧
        Models lt h1 a1 TA1 ∧ Models lt h1 b TB ∧ (∀ i ∈ TA1.addrs, i ∉ TB.addrs) ∧
        TA1.inorder.Perm (TA.inorder ++ xs) := by
  induction xs with
  | nil => intro h a b TA TB hA hB hd; exact ⟨h, a, TA, rfl, hA, hB, hd, by simp⟩
  | cons v xs ih =>
    intro h a b TA TB hA hB hd
    obtain ⟨h1, a1, hi, hA1, hnx, hfr⟩ := insert_models hA v
    have hB1 : Models lt h1 b TB := hB.untouched
      (fun i hi => hfr i (fun hiA => hd i hiA hi) (Nat.ne_of_lt (hB.bound i hi))) (by omega)
    have hd1 : ∀ i ∈ (Tree.attach lt v (.node .nil h.next v .nil) TA).addrs, i ∉ TB.addrs := by
      intro i hi hiB
      rcases List.mem_append.1 ((Tree.addrs_attach_perm v _ TA).mem_iff.1 hi) with hi | hi
      · exact hd i hi hiB
      · simp only [Tree.addrs_node, Tree.addrs_nil, List.nil_append, List.mem_singleton] at hi
        subst hi
        exact Nat.lt_irrefl _ (hB.bound _ hiB)
    obtain ⟨h2, a2, TA2, hr, hA2, hB2, hd2, hperm⟩ := ih hA1 hB1 hd1
    refine ⟨h2, a2, TA2, ?_, hA2, hB2, hd2, ?_⟩
    · simp [run2From, Op.apply, hi, hr]
    · refine hperm.trans ?_
      have := Tree.inorder_attach_perm lt v (.node .nil h.next v .nil) TA
      simp only [Tree.inorder_node, Tree.inorder_nil, List.nil_append] at this
      refine (this.append_right xs).trans ?_
      simp

/-- Insertions into the second of two trees: the first tree is untouched and the second
gains the inserted values. -/
theorem run2From_insertsB (ys : List α) :
    ∀ {h : Heap α} {a b : BinarySearchTree} {TA TB : Tree α}, Models lt h a TA →
      Models lt h b TB → (∀ i ∈ TA.addrs, i ∉ TB.addrs) →
      ∃ h1 b1 TB1, run2From lt h a b (ys.map fun v => Op2.onB (Op.ins v)) = some (h1, a, b1) ∧
        Models lt h1 a TA ∧ Models lt h1 b1 TB1 ∧ (∀ i ∈ TA.addrs, i ∉ TB1.addrs) ∧
        TB1.inorder.Perm (TB.inorder ++ ys) := by
  induction ys with
  | nil => intro h a b TA TB hA hB hd; exact ⟨h, b, TB, rfl, hA, hB, hd, by simp⟩
  | cons v ys ih =>
    intro h a b TA TB hA hB hd
    obtain ⟨h1, b1, hi, hB1, hnx, hfr⟩ := insert_models hB v
    have hA1 : Models lt h1 a TA := hA.untouched
      (fun i hi => hfr i (hd i hi) (Nat.ne_of_lt (hA.bound i hi))) (by omega)
    have hd1 : ∀ i ∈ TA.addrs, i ∉ (Tree.attach lt v (.node .nil h.next v .nil) TB).addrs := by
      intro i hi hiB
      rcases List.mem_append.1 ((Tree.addrs_attach_perm v _ TB).mem_iff.1 hiB) with hiB | hiB
      · exact hd i hi hiB
      · simp only [Tree.addrs_node, Tree.addrs_nil, List.nil_append, List.mem_singleton] at hiB
        subst hiB
        exact Nat.lt_irrefl _ (hA.bound _ hi)
    obtain ⟨h2, b2, TB2, hr, hA2, hB2, hd2, hperm⟩ := ih hA1 hB1 hd1
    refine ⟨h2, b2, TB2, ?_, hA2, hB2, hd2, ?_⟩
    · simp [run2From, Op.apply, hi, hr]
    · refine hperm.trans ?_
      have := Tree.inorder_attach_perm lt v (.node .nil h.next v .nil) TB
      simp only [Tree.inorder_node, Tree.inorder_nil, List.nil_append] at this
      refine (this.append_right ys).trans ?_
      simp

/-- Claim C11 (tree equality).  For two trees reached by `insert` and `erase` calls,
`A == B` returns, and it is true exactly when the sizes agree and the in-order sequences
are equivalent position by position; in particular two trees built by inserting the same
values in different orders, whatever their shapes, compare equal. -/
theorem operatorEq_correct (hlt : StrictWeak lt) :
    (∀ ops : List (Op2 α), ∃ h a b xs ys res, run2 lt ops = some (h, a, b) ∧
      to_vector lt h a = some xs ∧ to_vector lt h b = some ys ∧
      operatorEq lt h a b = some res ∧
      (res = true ↔ size a = size b ∧ List.Forall₂ (fun x y => Equal lt x y = true) xs ys)) ∧
    (∀ xs ys : List α, xs.Perm ys →
      ∃ h a b, run2 lt ((xs.map fun v => Op2.onA (Op.ins v)) ++
          (ys.map fun v => Op2.onB (Op.ins v))) = some (h, a, b) ∧
        operatorEq lt h a b = some true) := by
  constructor
  · intro ops
    obtain ⟨h, a, b, TA, TB, hrun, hA, hB, -⟩ := run2_models hlt ops
    obtain ⟨res, hres, hiff⟩ := operatorEq_models hlt hA hB
    exact ⟨h, a, b, TA.inorder, TB.inorder, res, hrun, to_vector_models hlt hA,
      to_vector_models hlt hB, hres, hiff⟩
  · intro xs ys hp
    obtain ⟨h1, a1, TA, hr1, hA1, hB1, hd1, hpA⟩ :=
      run2From_insertsA xs (Models.empty lt) (Models.empty lt) (by simp)
    obtain ⟨h2, b2, TB, hr2, hA2, hB2, -, hpB⟩ := run2From_insertsB ys hA1 hB1 hd1
    obtain ⟨res, hres, hiff⟩ := operatorEq_models hlt hA2 hB2
    refine ⟨h2, a1, b2, ?_, ?_⟩
    · simp [run2, run2From_append, hr1, hr2]
    · have hperm : TA.inorder.Perm TB.inorder := by
        have e1 : TA.inorder.Perm xs := by simpa using hpA
        have e2 : TB.inorder.Perm ys := by simpa using hpB
        exact (e1.trans hp).trans e2.symm
      have hsz : size a1 = size b2 := by
        simp only [size, hA2.size, hB2.size, ← Tree.length_inorder]
        exact hperm.length_eq
      have := hiff.2 ⟨hsz, sorted_perm_equiv hlt hperm (hA2.ordered.sorted hlt)
        (hB2.ordered.sorted hlt)⟩
      rw [hres, this]

/-- Witness for C11: inserting 1, 2, 3 and inserting 2, 1, 3 give trees of different
shapes that compare equal, while trees holding 1, 2 and 1, 3 compare unequal. -/
theorem operatorEq_correct_witness :
    ((∀ ops : List (Op2 Nat), ∃ h a b xs ys res, run2 natLt ops = some (h, a, b) ∧
      to_vector natLt h a = some xs ∧ to_vector natLt h b = some ys ∧
      operatorEq natLt h a b = some res ∧
      (res = true ↔ size a = size b ∧
        List.Forall₂ (fun x y => Equal natLt x y = true) xs ys)) ∧
    (∀ xs ys : List Nat, xs.Perm ys →
      ∃ h a b, run2 natLt ((xs.map fun v => Op2.onA (Op.ins v)) ++
          (ys.map fun v => Op2.onB (Op.ins v))) = some (h, a, b) ∧
        operatorEq natLt h a b = some true)) ∧
    ((run2 natLt [Op2.onA (Op.ins 1), Op2.onA (Op.ins 2), Op2.onA (Op.ins 3),
        Op2.onB (Op.ins 2), Op2.onB (Op.ins 1), Op2.onB (Op.ins 3)]).bind fun s =>
      (operatorEq natLt s.1 s.2.1 s.2.2).map fun r => (r, s.2.1.root_, s.2.2.root_)) =
      some (true, some 0, some 3) ∧
    ((run2 natLt [Op2.onA (Op.ins 1), Op2.onA (Op.ins 2), Op2.onB (Op.ins 1),
        Op2.onB (Op.ins 3)]).bind fun s => operatorEq natLt s.1 s.2.1 s.2.2) = some false :=
  ⟨operatorEq_correct natLt_strictWeak, by decide, by decide⟩

/-! ## Level-order insertion rebuilds the shape -/

theorem Tree.shape_attach_leaf (v : α) (n : Nat) (C : Tree α) :
    (Tree.attach lt v (.node .nil n v .nil) C).shape = Shape.insert lt v C.shape := by
  induction C with
  | nil => rfl
  | node l a x r ihl ihr =>
    simp only [Tree.attach, Tree.shape, Shape.insert]
    split
    · simp [Tree.shape, ihl]
    · simp [Tree.shape, ihr]

theorem Tree.shape_eq {T T1 : Tree α} (h : T.shape = T1.shape) :
    T.inorder = T1.inorder ∧ T.card = T1.card := by
  induction T generalizing T1 with
  | nil =>
    cases T1 with
    | nil => exact ⟨rfl, rfl⟩
    | node l a v r => simp [Tree.shape] at h
  | node l a v r ihl ihr =>
    cases T1 with
    | nil => simp [Tree.shape] at h
    | node l1 a1 v1 r1 =>
      simp only [Tree.shape, Shape.node.injEq] at h
      obtain ⟨h1, rfl, h2⟩ := h
      obtain ⟨e1, e2⟩ := ihl h1
      obtain ⟨e3, e4⟩ := ihr h2
      simp [Tree.card, e1, e2, e3, e4]

theorem foldl_insert_left (u : α) (B : Shape α) :
    ∀ (xs : List α) (A : Shape α), (∀ x ∈ xs, lt x u = true) →
      xs.foldl (fun s x => Shape.insert lt x s) (.node A u B) =
        .node (xs.foldl (fun s x => Shape.insert lt x s) A) u B := by
  intro xs
  induction xs with
  | nil => intro A _; rfl
  | cons x xs ih =>
    intro A hx
    simp only [List.foldl_cons, Shape.insert, hx x (by simp), if_true]
    exact ih _ (fun y hy => hx y (by simp [hy]))

theorem foldl_insert_right (u : α) (A : Shape α) :
    ∀ (xs : List α) (B : Shape α), (∀ x ∈ xs, lt x u = false) →
      xs.foldl (fun s x => Shape.insert lt x s) (.node A u B) =
        .node A u (xs.foldl (fun s x => Shape.insert lt x s) B) := by
  intro xs
  induction xs with
  | nil => intro B _; rfl
  | cons x xs ih =>
    intro B hx
    simp only [List.foldl_cons, Shape.insert, hx x (by simp), Bool.false_eq_true, if_false]
    exact ih _ (fun y hy => hx y (by simp [hy]))

theorem Tree.single_ne_nil {T S : Tree α} (h : S ∈ T.single) : S = T ∧ S ≠ .nil := by
  cases T with
  | nil => simp [Tree.single] at h
  | node l a v r =>
    simp only [Tree.single, List.mem_singleton] at h
    subst h
    exact ⟨rfl, by simp⟩

theorem Tree.single_vals (T : Tree α) : ∀ x ∈ T.single.filterMap Tree.val?, x ∈ T.inorder := by
  intro x hx
  cases T with
  | nil => simp [Tree.single] at hx
  | node l a v r =>
    simp only [Tree.single, List.filterMap_cons, Tree.val?, List.filterMap_nil,
      List.mem_singleton] at hx
    simp [hx]

/-- Values rooted at depth `d` are values of the shape. -/
theorem Tree.levelTrees_vals : ∀ (d : Nat) (T : Tree α),
    ∀ x ∈ (Tree.levelTrees d T).filterMap Tree.val?, x ∈ T.inorder := by
  intro d
  induction d with
  | zero => intro T x hx; exact Tree.single_vals T x hx
  | succ d ih =>
    intro T x hx
    cases T with
    | nil => simp [Tree.levelTrees] at hx
    | node l a v r =>
      simp only [Tree.levelTrees, List.filterMap_append, List.mem_append] at hx
      rcases hx with hx | hx
      · simp [ih l x hx]
      · simp [ih r x hx]

theorem Tree.levelTrees_ne_nil : ∀ (d : Nat) (T : Tree α),
    ∀ S ∈ Tree.levelTrees d T, S ≠ .nil := by
  intro d
  induction d with
  | zero => intro T S hS; exact (Tree.single_ne_nil hS).2
  | succ d ih =>
    intro T S hS
    cases T with
    | nil => simp [Tree.levelTrees] at hS
    | node l a v r =>
      simp only [Tree.levelTrees, List.mem_append] at hS
      rcases hS with hS | hS
      · exact ih l S hS
      · exact ih r S hS

/-- Inserting the values rooted at depth `d`, left to right, into the shape cut off below
depth `d` gives the shape cut off below depth `d + 1`. -/
theorem Tree.foldl_level : ∀ (d : Nat) (T : Tree α), T.Ordered lt →
    ((Tree.levelTrees d T).filterMap Tree.val?).foldl (fun s x => Shape.insert lt x s)
      (Tree.trunc d T).shape = (Tree.trunc (d + 1) T).shape := by
  intro d
  induction d with
  | zero =>
    intro T _
    cases T with
    | nil => rfl
    | node l a v r => simp [Tree.levelTrees, Tree.single, Tree.val?, Tree.trunc, Tree.shape,
        Shape.insert]
  | succ d ih =>
    intro T hT
    cases T with
    | nil => rfl
    | node l a v r =>
      obtain ⟨h1, h2, h3, h4⟩ := hT
      simp only [Tree.levelTrees, List.filterMap_append, Tree.trunc, Tree.shape,
        List.foldl_append]
      rw [foldl_insert_left v _ _ _ (fun x hx => h1 x (Tree.levelTrees_vals d l x hx)),
        foldl_insert_right v _ _ _ (fun x hx => h2 x (Tree.levelTrees_vals d r x hx)),
        ih l h3, ih r h4]

theorem Tree.kids_single (T : Tree α) : T.single.flatMap Tree.kids = T.kids := by
  cases T with
  | nil => rfl
  | node l a v r => simp [Tree.single, Tree.kids]

/-- The subtrees hanging off the nodes at depth `d` are the subtrees rooted at depth
`d + 1`. -/
theorem Tree.kids_levelTrees : ∀ (d : Nat) (T : Tree α),
    (Tree.levelTrees d T).flatMap Tree.kids = Tree.levelTrees (d + 1) T := by
  intro d
  induction d with
  | zero =>
    intro T
    cases T with
    | nil => rfl
    | node l a v r => simp [Tree.levelTrees, Tree.single, Tree.kids]
  | succ d ih =>
    intro T
    cases T with
    | nil => rfl
    | node l a v r =>
      simp only [Tree.levelTrees, List.flatMap_append]
      rw [ih l, ih r]

theorem totalCard_append (A B : List (Tree α)) :
    totalCard (A ++ B) = totalCard A + totalCard B := by
  induction A with
  | nil => simp [totalCard]
  | cons S A ih => simp [totalCard, ih]; omega

theorem Tree.totalCard_single (T : Tree α) : totalCard T.single = T.card := by
  cases T <;> simp [Tree.single, totalCard, Tree.card]

theorem Tree.totalCard_kids {S : Tree α} (hS : S ≠ .nil) :
    totalCard S.kids + 1 = S.card := by
  cases S with
  | nil => exact absurd rfl hS
  | node l a v r =>
    simp only [Tree.kids, totalCard_append, Tree.totalCard_single, Tree.card]
    omega

theorem totalCard_flatMap_kids (q : List (Tree α)) (hq : ∀ S ∈ q, S ≠ .nil) :
    totalCard (q.flatMap Tree.kids) + q.length = totalCard q := by
  induction q with
  | nil => rfl
  | cons S q ih =>
    have h1 := Tree.totalCard_kids (hq S (by simp))
    have h2 := ih (fun S1 hS1 => hq S1 (by simp [hS1]))
    simp only [List.flatMap_cons, totalCard_append, List.length_cons, totalCard]
    omega

theorem bfsVals_nil (f : Nat) : bfsVals f ([] : List (Tree α)) = [] := by
  cases f <;> rfl

/-- Running the queue through a whole front segment: the values of the children of the
segment are inserted, and the children end up behind the rest of the queue. -/
theorem bfsVals_segment : ∀ (q extra : List (Tree α)) (f : Nat), (∀ S ∈ q, S ≠ .nil) →
    totalCard (q ++ extra) ≤ f →
    bfsVals f (q ++ extra) = (q.flatMap Tree.kids).filterMap Tree.val? ++
      bfsVals (f - q.length) (extra ++ q.flatMap Tree.kids) := by
  intro q
  induction q with
  | nil => intro extra f _ _; simp
  | cons S q ih =>
    intro extra f hq hf
    have hS := Tree.totalCard_kids (hq S (by simp))
    have hf1 : S.card + (totalCard q + totalCard extra) ≤ f := by
      have : totalCard (S :: (q ++ extra)) = S.card + totalCard (q ++ extra) := rfl
      rw [List.cons_append, this, totalCard_append] at hf
      exact hf
    obtain ⟨f, rfl⟩ : ∃ g, f = g + 1 := ⟨f - 1, by omega⟩
    have e1 : bfsVals (f + 1) (S :: (q ++ extra)) =
        S.kids.filterMap Tree.val? ++ bfsVals f ((q ++ extra) ++ S.kids) := rfl
    rw [List.cons_append, e1, List.append_assoc,
      ih (extra ++ S.kids) f (fun S1 hS1 => hq S1 (by simp [hS1])) (by
        simp only [totalCard_append]; omega)]
    simp [List.flatMap_cons, List.filterMap_append, List.append_assoc]

theorem Tree.trunc_of_level_empty : ∀ (d : Nat) (T : Tree α),
    Tree.levelTrees d T = [] → Tree.trunc (d + 1) T = T := by
  intro d
  induction d with
  | zero =>
    intro T h
    cases T with
    | nil => rfl
    | node l a v r => simp [Tree.levelTrees, Tree.single] at h
  | succ d ih =>
    intro T h
    cases T with
    | nil => rfl
    | node l a v r =>
      simp only [Tree.levelTrees, List.append_eq_nil] at h
      simp only [Tree.trunc] at ih ⊢
      rw [show Tree.trunc (d + 1) l = l from ih l h.1,
        show Tree.trunc (d + 1) r = r from ih r h.2]

/-- Inserting the values the queue loop yields from depth `d` on completes the shape cut
off below depth `d + 1`. -/
theorem Tree.foldl_bfsVals {T : Tree α} (hT : T.Ordered lt) :
    ∀ (f d : Nat), totalCard (Tree.levelTrees d T) ≤ f →
      (bfsVals f (Tree.levelTrees d T)).foldl (fun s x => Shape.insert lt x s)
        (Tree.trunc (d + 1) T).shape = T.shape := by
  intro f
  induction f using Nat.strong_induction_on with
  | _ f ih =>
    intro d hf
    by_cases hq : Tree.levelTrees d T = []
    · rw [hq, bfsVals_nil, Tree.trunc_of_level_empty d T hq]
      rfl
    · have hne := Tree.levelTrees_ne_nil d T
      have hseg := bfsVals_segment (Tree.levelTrees d T) [] f hne (by simpa using hf)
      simp only [List.append_nil, List.nil_append, Tree.kids_levelTrees] at hseg
      have hlen : 0 < (Tree.levelTrees d T).length := List.length_pos.2 hq
      have hmu := totalCard_flatMap_kids (Tree.levelTrees d T) hne
      rw [Tree.kids_levelTrees] at hmu
      rw [hseg, List.foldl_append, Tree.foldl_level (d + 1) T hT]
      exact ih (f - (Tree.levelTrees d T).length) (by omega) (d + 1) (by omega)

/-- Inserting the root value and then the values the queue loop yields, into the empty
shape, rebuilds the shape. -/
theorem Tree.foldl_bfs_root {l r : Tree α} {a : Nat} {v : α}
    (hT : (Tree.node l a v r).Ordered lt) (f : Nat) (hf : (Tree.node l a v r).card ≤ f) :
    (bfsVals f [Tree.node l a v r]).foldl (fun s x => Shape.insert lt x s)
      (Shape.insert lt v .leaf) = (Tree.node l a v r).shape := by
  have h0 := Tree.foldl_bfsVals hT f 0 (by simpa [Tree.levelTrees, Tree.single, totalCard] using hf)
  simpa [Tree.levelTrees, Tree.single, Tree.trunc, Tree.shape, Shape.insert] using h0

/-! ## The copy constructor -/

theorem insertAll_append (xs ys : List α) : ∀ (h : Heap α) (t : BinarySearchTree),
    insertAll lt h t (xs ++ ys) =
      (insertAll lt h t xs).bind fun s => insertAll lt s.1 s.2 ys := by
  induction xs with
  | nil => intro h t; simp [insertAll]
  | cons x xs ih =>
    intro h t
    simp only [List.cons_append, insertAll, Option.bind_eq_bind]
    cases insert lt h t x with
    | none => rfl
    | some s => simp [ih]

/-- Insertions of a list of values: the tree stays well formed, its positions and values
are those of the repeated descent, and allocated cells outside the tree are untouched. -/
theorem insertAll_frame (xs : List α) :
    ∀ {h : Heap α} {t : BinarySearchTree} {C : Tree α}, Models lt h t C →
      ∃ h1 t1 C1, insertAll lt h t xs = some (h1, t1) ∧ Models lt h1 t1 C1 ∧
        C1.shape = xs.foldl (fun s x => Shape.insert lt x s) C.shape ∧ h.next ≤ h1.next ∧
        (∀ i, i ∉ C.addrs → i < h.next → h1.cell i = h.cell i) ∧
        (∀ i ∈ C1.addrs, i ∈ C.addrs ∨ h.next ≤ i) := by
  induction xs with
  | nil =>
    intro h t C hm
    exact ⟨h, t, C, rfl, hm, rfl, le_refl _, fun _ _ _ => rfl, fun i hi => Or.inl hi⟩
  | cons x xs ih =>
    intro h t C hm
    obtain ⟨h1, t1, hi, hm1, hnx, hfr⟩ := insert_models hm x
    obtain ⟨h2, t2, C2, hr, hm2, hsh, hnx2, hfr2, hnew2⟩ := ih hm1
    have hnew1 : ∀ i ∈ (Tree.attach lt x (.node .nil h.next x .nil) C).addrs,
        i ∈ C.addrs ∨ i = h.next := by
      intro i hi1
      rcases List.mem_append.1 ((Tree.addrs_attach_perm x _ C).mem_iff.1 hi1) with hi1 | hi1
      · exact Or.inl hi1
      · simp only [Tree.addrs_node, Tree.addrs_nil, List.nil_append, List.mem_singleton] at hi1
        exact Or.inr hi1
    refine ⟨h2, t2, C2, by simp [insertAll, hi, hr], hm2, ?_, by omega, ?_, ?_⟩
    · rw [hsh, Tree.shape_attach_leaf]
      rfl
    · intro i hiC hilt
      rw [hfr2 i ?_ (by omega), hfr i hiC (by omega)]
      intro hi1
      rcases hnew1 i hi1 with hi1 | hi1
      · exact hiC hi1
      · omega
    · intro i hi2
      rcases hnew2 i hi2 with hi2 | hi2
      · rcases hnew1 i hi2 with hi2 | hi2
        · exact Or.inl hi2
        · exact Or.inr (by omega)
      · exact Or.inr (by omega)

/-- A held forest stays held after insertions into the copy. -/
theorem Held.after_insert {h h1 : Heap α} {C C1 : Tree α} {F : List (Tree α)} (hF : Held h C F)
    (hnx : h.next ≤ h1.next) (hfr : ∀ i, i ∉ C.addrs → i < h.next → h1.cell i = h.cell i)
    (hnew : ∀ i ∈ C1.addrs, i ∈ C.addrs ∨ h.next ≤ i) : Held h1 C1 F := by
  intro S hS
  obtain ⟨hne, ⟨pa, hrep⟩, hd⟩ := hF S hS
  refine ⟨hne, ⟨pa, Rep.frame (fun i hi => hfr i (hd i hi).1 (hd i hi).2) hrep⟩, ?_⟩
  intro i hi
  refine ⟨?_, by have := (hd i hi).2; omega⟩
  intro hi1
  rcases hnew i hi1 with hi1 | hi1
  · exact (hd i hi).1 hi1
  · have := (hd i hi).2
    omega

/-- Body `if (child) { insert(child->value); queue.push(child); }` for a held child
subtree: it is the insertion of the child's value, if there is a child. -/
theorem copyChild_spec {h : Heap α} {t : BinarySearchTree} {C : Tree α}
    (hm : Models lt h t C) (queue : List Nat) {L : Tree α} {pa : Option Nat}
    (hrep : Rep h pa L) :
    ∃ h1 t1 C1, copyChild lt h t queue L.ptr =
        some (h1, t1, queue ++ L.single.filterMap Tree.ptr) ∧
      insertAll lt h t (L.single.filterMap Tree.val?) = some (h1, t1) ∧
      Models lt h1 t1 C1 ∧ h.next ≤ h1.next ∧
      (∀ i, i ∉ C.addrs → i < h.next → h1.cell i = h.cell i) ∧
      (∀ i ∈ C1.addrs, i ∈ C.addrs ∨ h.next ≤ i) := by
  cases L with
  | nil =>
    exact ⟨h, t, C, by simp [copyChild, Tree.ptr, Tree.single], by simp [Tree.single, insertAll],
      hm, le_refl _, fun _ _ _ => rfl, fun i hi => Or.inl hi⟩
  | node l a v r =>
    obtain ⟨h1, t1, C1, hi, hm1, -, hnx, hfr, hnew⟩ := insertAll_frame [v] hm
    refine ⟨h1, t1, C1, ?_, by simpa [Tree.single, Tree.val?] using hi, hm1, hnx, hfr, hnew⟩
    simp only [insertAll, Option.bind_eq_bind] at hi
    cases hins : insert lt h t v with
    | none => simp [hins] at hi
    | some s =>
      simp only [hins, Option.some_bind, Option.some.injEq, Prod.mk.injEq] at hi
      simp [copyChild, Tree.ptr, hrep.1, hins, Tree.single, hi.1, hi.2]

/-- Dequeuing a held shape and enqueuing its children keeps the forest held. -/
theorem Held.kids {h : Heap α} {C S : Tree α} {F : List (Tree α)} (hF : Held h C (S :: F)) :
    Held h C (F ++ S.kids) := by
  intro S1 hS1
  rcases List.mem_append.1 hS1 with hS1 | hS1
  · exact hF S1 (List.mem_cons_of_mem _ hS1)
  · obtain ⟨-, ⟨pa, hrep⟩, hd⟩ := hF S (List.mem_cons_self _ _)
    cases S with
    | nil => simp [Tree.kids] at hS1
    | node l a v r =>
      obtain ⟨-, hl, hr⟩ := hrep
      simp only [Tree.kids, List.mem_append] at hS1
      rcases hS1 with hS1 | hS1
      · obtain ⟨rfl, hne⟩ := Tree.single_ne_nil hS1
        refine ⟨hne, ⟨_, hl⟩, fun i hi => hd i ?_⟩
        simp [Tree.addrs_node, hi]
      · obtain ⟨rfl, hne⟩ := Tree.single_ne_nil hS1
        refine ⟨hne, ⟨_, hr⟩, fun i hi => hd i ?_⟩
        simp [Tree.addrs_node, hi]

/-- Loop of the copy constructor as a sequence of insertions: with the queue holding the
roots of a held forest, the loop inserts its level-order list of child values. -/
theorem copyLoop_eq_insertAll : ∀ (f : Nat) (F : List (Tree α)) {h : Heap α}
    {t : BinarySearchTree} {C : Tree α}, Models lt h t C → Held h C F → totalCard F < f →
    copyLoop lt f h t (F.filterMap Tree.ptr) = insertAll lt h t (bfsVals f F) := by
  intro f
  induction f with
  | zero => intro F h t C _ _ hc; omega
  | succ f ih =>
    intro F h t C hm hF hc
    cases F with
    | nil => simp [copyLoop, bfsVals, insertAll]
    | cons S F =>
      obtain ⟨hne, ⟨pa, hrep⟩, hd⟩ := hF S (List.mem_cons_self _ _)
      cases S with
      | nil => exact absurd rfl hne
      | node l a v r =>
        have hcell := hrep.1
        obtain ⟨h1, t1, C1, hc1, hi1, hm1, hnx1, hfr1, hnew1⟩ :=
          copyChild_spec hm (F.filterMap Tree.ptr) hrep.2.1
        have hF1 : Held h1 C1 (Tree.node l a v r :: F) := hF.after_insert hnx1 hfr1 hnew1
        obtain ⟨-, ⟨pa1, hrep1⟩, -⟩ := hF1 _ (List.mem_cons_self _ _)
        have hcell1 := hrep1.1
        obtain ⟨h2, t2, C2, hc2, hi2, hm2, hnx2, hfr2, hnew2⟩ :=
          copyChild_spec hm1 (F.filterMap Tree.ptr ++ l.single.filterMap Tree.ptr) hrep1.2.2
        have hF2 : Held h2 C2 (Tree.node l a v r :: F) := hF1.after_insert hnx2 hfr2 hnew2
        have hcard : totalCard (F ++ (Tree.node l a v r).kids) < f := by
          rw [totalCard_append]
          have hk := Tree.totalCard_kids hne
          have : totalCard (Tree.node l a v r :: F) =
            (Tree.node l a v r).card + totalCard F := rfl
          have hpos : 0 < (Tree.node l a v r).card := by simp [Tree.card]
          omega
        have hrec := ih (F ++ (Tree.node l a v r).kids) hm2 hF2.kids hcard
        have e1 : bfsVals (f + 1) (Tree.node l a v r :: F) =
            (Tree.node l a v r).kids.filterMap Tree.val? ++
              bfsVals f (F ++ (Tree.node l a v r).kids) := rfl
        have e2 : (Tree.node l a v r :: F).filterMap Tree.ptr =
            a :: F.filterMap Tree.ptr := by simp [List.filterMap_cons, Tree.ptr]
        rw [e1, e2]
        have e3 : (Tree.node l a v r).kids = l.single ++ r.single := rfl
        have hk : insertAll lt h t ((Tree.node l a v r).kids.filterMap Tree.val?) =
            some (h2, t2) := by
          rw [e3, List.filterMap_append, insertAll_append, hi1]
          exact hi2
        rw [insertAll_append, hk, Option.some_bind, ← hrec]
        simp [copyLoop, hcell, hc1, hcell1, hc2, e3, List.filterMap_append]

/-- Copy constructor on a well-formed tree: it returns a well-formed tree with the same
positions and values, built from fresh cells, and leaves the source as it was. -/
theorem copyConstruct_models {h : Heap α} {s : BinarySearchTree} {T : Tree α}
    (hm : Models lt h s T) :
    ∃ h1 c TC, copyConstruct lt h s = some (h1, c) ∧ Models lt h1 c TC ∧ Models lt h1 s T ∧
      TC.shape = T.shape ∧ (∀ i ∈ TC.addrs, i ∉ T.addrs) ∧
      (T = .nil → h1 = h ∧ c = BinarySearchTree.empty) := by
  cases T with
  | nil =>
    have hsz : s.size_ = 0 := hm.size
    refine ⟨h, BinarySearchTree.empty, .nil, by simp [copyConstruct, empty, hsz], ?_, hm, rfl,
      by simp, fun _ => ⟨rfl, rfl⟩⟩
    exact ⟨rfl, trivial, List.nodup_nil, trivial, rfl, by simp⟩
  | node l a v r =>
    have hsz : s.size_ = l.card + 1 + r.card := hm.size
    have hroot : s.root_ = some a := hm.root
    have hcell := hm.rep.1
    have hm0 : Models lt h BinarySearchTree.empty (.nil : Tree α) :=
      ⟨rfl, trivial, List.nodup_nil, trivial, rfl, by simp⟩
    obtain ⟨h0, c0, C0, hi0, hmc0, hsh0, hnx0, hfr0, hnew0⟩ := insertAll_frame [v] hm0
    have hins : insert lt h BinarySearchTree.empty v = some (h0, c0) := by
      simp only [insertAll, Option.bind_eq_bind] at hi0
      cases hins : insert lt h BinarySearchTree.empty v with
      | none => simp [hins] at hi0
      | some s0 =>
        simp only [hins, Option.some_bind, Option.some.injEq, Prod.mk.injEq] at hi0
        rw [← hi0.1, ← hi0.2]
    have hF : Held h0 C0 [Tree.node l a v r] := by
      intro S hS
      rw [List.mem_singleton] at hS
      subst hS
      refine ⟨by simp, ⟨none, Rep.frame (fun i hi => hfr0 i (by simp) (hm.bound i hi)) hm.rep⟩,
        ?_⟩
      intro i hi
      have hb := hm.bound i hi
      refine ⟨?_, by omega⟩
      intro hi0
      rcases hnew0 i hi0 with hi0 | hi0
      · simp at hi0
      · omega
    have hcard := hm.card_lt_fuel
    have hloop := copyLoop_eq_insertAll h.fuel [Tree.node l a v r] hmc0 hF
      (by simpa [totalCard] using hcard)
    obtain ⟨h1, c1, C1, hi1, hmc1, hsh1, hnx1, hfr1, hnew1⟩ :=
      insertAll_frame (bfsVals h.fuel [Tree.node l a v r]) hmc0
    have hout : ∀ i ∈ (Tree.node l a v r).addrs, h1.cell i = h.cell i := by
      intro i hi
      have hb := hm.bound i hi
      have hd := (hF _ (List.mem_singleton_self _)).2.2 i hi
      rw [hfr1 i hd.1 hd.2, hfr0 i (by simp) hb]
    refine ⟨h1, c1, C1, ?_, hmc1, hm.untouched hout (by omega), ?_, ?_, by simp⟩
    · have hemp : empty s = false := by simp [empty, hsz]
      simp only [copyConstruct, hemp, hroot, hcell, hins, Option.bind_eq_bind,
        Option.some_bind]
      simp only [Tree.ptr, List.filterMap_cons, List.filterMap_nil] at hloop
      simpa using hloop.trans hi1
    · rw [hsh1, hsh0]
      exact Tree.foldl_bfs_root hm.ordered h.fuel (Nat.le_of_lt hcard)
    · intro i hi hiT
      have hb := hm.bound i hiT
      rcases hnew1 i hi with hi | hi
      · rcases hnew0 i hi with hi | hi
        · simp at hi
        · omega
      · omega

/-- Shape read off the store below the root of a held tree. -/
theorem shapeRec_shape {h : Heap α} {T : Tree α} : ∀ {par : Option Nat} (f : Nat),
    Rep h par T → T.card < f → shapeRec h f T.ptr = some T.shape := by
  induction T with
  | nil =>
    intro par f _ hf
    obtain ⟨f, rfl⟩ : ∃ g, f = g + 1 := ⟨f - 1, by omega⟩
    simp [Tree.ptr, shapeRec, Tree.shape]
  | node l a x r ihl ihr =>
    intro par f hrep hf
    obtain ⟨f, rfl⟩ : ∃ g, f = g + 1 := ⟨f - 1, by omega⟩
    obtain ⟨hc, hl, hr⟩ := hrep
    simp only [Tree.card] at hf
    have e1 := ihl f hl (by omega)
    have e2 := ihr f hr (by omega)
    have hp : (Tree.node l a x r).ptr = some a := rfl
    rw [hp]
    simp only [shapeRec, hc, Option.bind_eq_bind, Option.some_bind, Tree.shape, e1, e2]

/-- Claim C12 (copy is order-preserving).  For every source tree reached by `insert` and
`erase` calls the copy constructor returns a tree of the same size whose in-order sequence
is the source's, element for element; the source reads as before, the copy compares equal
to it, and the copy of a tree of size zero is the empty tree in an unchanged store. -/
theorem copy_preserves_order (hlt : StrictWeak lt) (ops : List (Op α)) :
    ∃ h s h1 c xs, run lt ops = some (h, s) ∧ copyConstruct lt h s = some (h1, c) ∧
      size c = size s ∧ to_vector lt h s = some xs ∧ to_vector lt h1 s = some xs ∧
      to_vector lt h1 c = some xs ∧ operatorEq lt h1 c s = some true ∧
      (size s = 0 → h1 = h ∧ c = BinarySearchTree.empty) := by
  obtain ⟨h, s, T, hrun, hm⟩ := run_models hlt ops
  obtain ⟨h1, c, TC, hcopy, hmc, hms, hsh, -, hnil⟩ := copyConstruct_models hm
  obtain ⟨hin, hcard⟩ := Tree.shape_eq hsh
  obtain ⟨res, hres, hiff⟩ := operatorEq_models hlt hmc hms
  have hsz : size c = size s := by simp only [size, hmc.size, hms.size, hcard]
  refine ⟨h, s, h1, c, T.inorder, hrun, hcopy, hsz, to_vector_models hlt hm,
    to_vector_models hlt hms, ?_, ?_, ?_⟩
  · rw [← hin]
    exact to_vector_models hlt hmc
  · have hall : List.Forall₂ (fun x y => Equal lt x y = true) TC.inorder T.inorder := by
      rw [hin]
      exact List.forall₂_same.2 fun x _ => by simp [Equal, hlt.irrefl x]
    rw [hres, hiff.2 ⟨hsz, hall⟩]
  · intro h0
    apply hnil
    apply Tree.card_eq_zero
    rw [← hm.size]
    exact h0

/-- Witness for C12: the copy of the tree built from the pairs (5,1), (3,0), (5,2), (8,0),
(5,3) minus (8,0), ordered by first component, lists (3,0), (5,1), (5,2), (5,3) like the
source, and the copy of the tree emptied by erasures is the empty tree. -/
theorem copy_preserves_order_witness :
    (∃ h s h1 c xs, run keyLt [Op.ins (5, 1), Op.ins (3, 0), Op.ins (5, 2), Op.ins (8, 0),
          Op.ins (5, 3), Op.del (8, 7)] = some (h, s) ∧
      copyConstruct keyLt h s = some (h1, c) ∧
      size c = size s ∧ to_vector keyLt h s = some xs ∧ to_vector keyLt h1 s = some xs ∧
      to_vector keyLt h1 c = some xs ∧ operatorEq keyLt h1 c s = some true ∧
      (size s = 0 → h1 = h ∧ c = BinarySearchTree.empty)) ∧
    ((run keyLt [Op.ins (5, 1), Op.ins (3, 0), Op.ins (5, 2), Op.ins (8, 0),
          Op.ins (5, 3), Op.del (8, 7)]).bind fun s =>
      (copyConstruct keyLt s.1 s.2).bind fun c =>
        (to_vector keyLt c.1 c.2).map fun xs => (xs, size c.2, c.2.root_, s.2.root_)) =
      some ([(3, 0), (5, 1), (5, 2), (5, 3)], 4, some 5, some 0) ∧
    ((run natLt [Op.ins 1, Op.del 1]).bind fun s =>
      (copyConstruct natLt s.1 s.2).map fun c => c.2) = some BinarySearchTree.empty :=
  ⟨copy_preserves_order keyLt_strictWeak _, by decide, by decide⟩

/-- Claim C19 (copy reproduces the shape).  For every source tree reached by `insert` and
`erase` calls, duplicates included, the copy constructor returns a tree that has, read off
the resulting store, the same shape as the source with the same value at every position. -/
theorem copy_same_shape (hlt : StrictWeak lt) (ops : List (Op α)) :
    ∃ h s h1 c sh, run lt ops = some (h, s) ∧ copyConstruct lt h s = some (h1, c) ∧
      shapeRec h h.fuel s.root_ = some sh ∧ shapeRec h1 h1.fuel s.root_ = some sh ∧
      shapeRec h1 h1.fuel c.root_ = some sh := by
  obtain ⟨h, s, T, hrun, hm⟩ := run_models hlt ops
  obtain ⟨h1, c, TC, hcopy, hmc, hms, hsh, -, -⟩ := copyConstruct_models hm
  refine ⟨h, s, h1, c, T.shape, hrun, hcopy, ?_, ?_, ?_⟩
  · rw [hm.root]
    exact shapeRec_shape h.fuel hm.rep hm.card_lt_fuel
  · rw [hms.root]
    exact shapeRec_shape h1.fuel hms.rep hms.card_lt_fuel
  · rw [hmc.root, ← hsh]
    exact shapeRec_shape h1.fuel hmc.rep hmc.card_lt_fuel

/-- Witness for C19: the tree built by inserting 5, 3, 8, 3, 7, 5 and erasing 7 and its
copy both have 5 at the root, 3 with a right child 3 on the left, and 8 with a left child
5 on the right. -/
theorem copy_same_shape_witness :
    (∃ h s h1 c sh, run natLt [Op.ins 5, Op.ins 3, Op.ins 8, Op.ins 3, Op.ins 7, Op.ins 5,
          Op.del 7] = some (h, s) ∧
      copyConstruct natLt h s = some (h1, c) ∧
      shapeRec h h.fuel s.root_ = some sh ∧ shapeRec h1 h1.fuel s.root_ = some sh ∧
      shapeRec h1 h1.fuel c.root_ = some sh) ∧
    ((run natLt [Op.ins 5, Op.ins 3, Op.ins 8, Op.ins 3, Op.ins 7, Op.ins 5,
          Op.del 7]).bind fun s =>
      (copyConstruct natLt s.1 s.2).bind fun c =>
        (shapeRec c.1 c.1.fuel c.2.root_).bind fun a =>
          (shapeRec c.1 c.1.fuel s.2.root_).map fun b => (a, b, c.2.root_, s.2.root_)) =
      some (.node (.node .leaf 3 (.node .leaf 3 .leaf)) 5 (.node (.node .leaf 5 .leaf) 8 .leaf),
        .node (.node .leaf 3 (.node .leaf 3 .leaf)) 5 (.node (.node .leaf 5 .leaf) 8 .leaf),
        some 6, some 0) :=
  ⟨copy_same_shape natLt_strictWeak _, by rfl⟩

end BST
